import Mathlib

/-!
# Topological simplification (ttk::TopologicalSimplification)

A shallow embedding of `core/base/topologicalSimplification/TopologicalSimplification.h`.

* The template parameter `dataType` is a type `α` with a linear order, a zero and an
  addition. The addition is the one of the scalar type: for `float` and `double` it rounds
  (`Binary64` below is `double` on the values that are multiples of `2^-99`); theorems
  that need an exact addition say so by asking for an ordered additive group.
  A `NaN` of the *input* field is `none`; after the pre-processing of `execute`
  no `NaN` is left, so the working field is `Nat → α`.
* `SimplexId` is `int` (32 bits): offsets and identifiers are `Int`, the values of the
  template parameter `idType` are unbounded `Int` until `toSimplexId` converts them where
  the source stores them in a `SimplexId`; vertex ids are `Nat`.
* C arrays are total functions from indices (`Nat → _`); a write is `Function.update`.
  `std::vector<SimplexId> adjustmentSequence(vertexNumber_)` is zero-initialised.
* The triangulation is the function `neighbors`: `getVertexNeighborNumber v` is
  `(neighbors v).length` and `getVertexNeighbor v i` is the `i`-th entry.
* `std::set<tuple, SweepCmp>` is a list kept sorted by the comparator, without two
  equivalent elements; `begin()` is the head.
* The `do … while` growth loop takes a fuel argument; `execute` gives it
  `vertexNumber_` and returns `none` only if that fuel runs out.
-/

namespace ttk

/-- The tuples `(scalar, offset, vertex)` of the sweep front and of `addPerturbation`. -/
abbrev Triple (α : Type) := α × Int × Nat

/-- `SweepCmp::operator()`: lexicographic comparison of `(scalar, offset)`, ascending when
`isIncreasingOrder`, descending otherwise; the vertex component is not compared. -/
def SweepCmp {α : Type} [LinearOrder α] (isIncreasingOrder : Bool) (v0 v1 : Triple α) : Bool :=
  if isIncreasingOrder then
    decide (v0.1 < v1.1) || (decide (v0.1 = v1.1) && decide (v0.2.1 < v1.2.1))
  else
    decide (v0.1 > v1.1) || (decide (v0.1 = v1.1) && decide (v0.2.1 > v1.2.1))

/-- `TopologicalSimplification::isLowerThan`. -/
def isLowerThan {α : Type} [LinearOrder α] (a b : Nat) (scalars : Nat → α)
    (offsets : Nat → Int) : Bool :=
  decide (scalars a < scalars b)
    || (decide (scalars a = scalars b) && decide (offsets a < offsets b))

/-- `TopologicalSimplification::isHigherThan`. -/
def isHigherThan {α : Type} [LinearOrder α] (a b : Nat) (scalars : Nat → α)
    (offsets : Nat → Int) : Bool :=
  decide (scalars a > scalars b)
    || (decide (scalars a = scalars b) && decide (offsets a > offsets b))

/-- The neighbour loop of `getCriticalType`, over the neighbours not yet examined, with the
current values of `isMinima` and `isMaxima`; the early `return 0` and the final tests. -/
def getCriticalTypeLoop {α : Type} [LinearOrder α] (vertex : Nat) (scalars : Nat → α)
    (offsets : Nat → Int) : List Nat → Bool → Bool → Int
  | [], isMinima, isMaxima => if isMinima then -1 else if isMaxima then 1 else 0
  | neighbor :: rest, isMinima, isMaxima =>
    let isMinima := if isLowerThan neighbor vertex scalars offsets then false else isMinima
    let isMaxima := if isHigherThan neighbor vertex scalars offsets then false else isMaxima
    if !isMinima && !isMaxima then 0
    else getCriticalTypeLoop vertex scalars offsets rest isMinima isMaxima

/-- `TopologicalSimplification::getCriticalType`: -1 minimum, 1 maximum, 0 regular. -/
def getCriticalType {α : Type} [LinearOrder α] (neighbors : Nat → List Nat) (vertex : Nat)
    (scalars : Nat → α) (offsets : Nat → Int) : Int :=
  getCriticalTypeLoop vertex scalars offsets (neighbors vertex) true true

/-- The collection loop shared by both `getCriticalPoints`: walk `k = 0 .. vertexNumber_-1`
and push `k` to `minima` when `type[k] < 0`, to `maxima` when `type[k] > 0`. -/
def collectCriticalPoints (vertexNumber : Nat) (type : Nat → Int)
    (minima maxima : List Nat) : List Nat × List Nat :=
  (List.range vertexNumber).foldl
    (fun acc k =>
      if type k < 0 then (acc.1 ++ [k], acc.2)
      else if type k > 0 then (acc.1, acc.2 ++ [k])
      else acc)
    (minima, maxima)

/-- `TopologicalSimplification::getCriticalPoints` (four arguments): the updated
`(minima, maxima)`; the returned status is always 0. -/
def getCriticalPoints {α : Type} [LinearOrder α] (vertexNumber : Nat)
    (neighbors : Nat → List Nat) (scalars : Nat → α) (offsets : Nat → Int)
    (minima maxima : List Nat) : List Nat × List Nat :=
  collectCriticalPoints vertexNumber
    (fun k => getCriticalType neighbors k scalars offsets) minima maxima

/-- `TopologicalSimplification::getCriticalPoints` (five arguments, with the bit array
`extrema`): `type[k]` stays 0 unless `considerIdentifierAsBlackList_ xor extrema[k]`. -/
def getCriticalPointsMasked {α : Type} [LinearOrder α] (vertexNumber : Nat)
    (neighbors : Nat → List Nat) (considerIdentifierAsBlackList : Bool)
    (scalars : Nat → α) (offsets : Nat → Int)
    (minima maxima : List Nat) (extrema : Nat → Bool) : List Nat × List Nat :=
  collectCriticalPoints vertexNumber
    (fun k =>
      if xor considerIdentifierAsBlackList (extrema k) then
        getCriticalType neighbors k scalars offsets
      else 0)
    minima maxima

/-- The call `sort(perturbation.begin(), perturbation.end(), cmp)`: insertion of one tuple
in front of a sorted list of tuples that came after it in the array: it goes behind the
tuples that are smaller and before the first tuple that is not. -/
def sortInsert {α : Type} (cmp : Triple α → Triple α → Bool) (t : Triple α) :
    List (Triple α) → List (Triple α)
  | [] => [t]
  | x :: xs => if cmp x t then x :: sortInsert cmp t xs else t :: x :: xs

/-- The call `sort(perturbation.begin(), perturbation.end(), cmp)` as the stable sort:
equivalent tuples keep the order of their indices, which is what the insertion sort of
`std::sort` (libstdc++, at most 16 elements) returns. `std::sort` itself fixes the result
only up to the order of equivalent tuples. -/
def sort {α : Type} (cmp : Triple α → Triple α → Bool) (l : List (Triple α)) :
    List (Triple α) :=
  l.foldr (sortInsert cmp) []

/-- The scalar of tuple `i` after the test of the second loop of `addPerturbation`: for
`i > 0`, when it is `<=` the (already lifted) scalar `prev` of tuple `i - 1`, it becomes
`prev + epsilon`, the sum in the scalar type `dataType` (rounded for `float` and
`double`). `prev` is `none` at `i = 0`. -/
def liftedValue {α : Type} [LinearOrder α] [Add α] (epsilon : α) (prev : Option α) (x : α) :
    α :=
  match prev with
  | none => x
  | some p => if x ≤ p then p + epsilon else x

/-- The second loop of `addPerturbation` over the sorted tuples still to visit; `prev` is
the (already lifted) scalar of the tuple before, `none` at `i = 0`. -/
def perturbationLoop {α : Type} [LinearOrder α] [Add α] (epsilon : α) :
    Option α → List (Triple α) → (Nat → α) → (Nat → α)
  | _, [], scalars => scalars
  | prev, t :: rest, scalars =>
    let value := liftedValue epsilon prev t.1
    perturbationLoop epsilon (some value) rest (Function.update scalars t.2.2 value)

/-- `TopologicalSimplification::addPerturbation`: the returned status and the scalars.
`epsilon` is `some (powIntTen (1 - DBL_DIG))` or `some (powIntTen (1 - FLT_DIG))` for
`double` and `float`, and `none` for every other `dataType`. -/
def addPerturbation {α : Type} [LinearOrder α] [Add α] (vertexNumber : Nat)
    (epsilon : Option α) (scalars : Nat → α) (offsets : Nat → Int) : Int × (Nat → α) :=
  match epsilon with
  | none => (-1, scalars)
  | some eps =>
    let perturbation : List (Triple α) :=
      (List.range vertexNumber).map (fun i => (scalars i, offsets i, i))
    (0, perturbationLoop eps none (sort (SweepCmp true) perturbation) scalars)

/-- `std::set::emplace` under the comparator: the tuple goes to its sorted place, and is
not inserted when the set already holds an equivalent tuple. -/
def setEmplace {α : Type} (cmp : Triple α → Triple α → Bool) (t : Triple α) :
    List (Triple α) → List (Triple α)
  | [] => [t]
  | x :: xs =>
    if cmp t x then t :: x :: xs
    else if cmp x t then x :: setEmplace cmp t xs
    else x :: xs

/-- The seed loop of a pass: every seed is marked in `authorizedExtrema`, emplaced in the
sweep front and marked visited. State: `(authorizedExtrema, sweepFront, visitedVertices)`. -/
def addSeeds {α : Type} (cmp : Triple α → Triple α → Bool) (scalars : Nat → α)
    (offsets : Nat → Int) (seeds : List Nat)
    (st : (Nat → Bool) × List (Triple α) × (Nat → Bool)) :
    (Nat → Bool) × List (Triple α) × (Nat → Bool) :=
  seeds.foldl
    (fun st k =>
      (Function.update st.1 k true,
       setEmplace cmp (scalars k, offsets k, k) st.2.1,
       Function.update st.2.2 k true))
    st

/-- The neighbour loop of the growth: every neighbour not yet visited is emplaced in the
sweep front and marked visited. State: `(sweepFront, visitedVertices)`. -/
def visitNeighbors {α : Type} (cmp : Triple α → Triple α → Bool) (scalars : Nat → α)
    (offsets : Nat → Int) (nbrs : List Nat) (st : List (Triple α) × (Nat → Bool)) :
    List (Triple α) × (Nat → Bool) :=
  nbrs.foldl
    (fun st neighbor =>
      if !st.2 neighbor then
        (setEmplace cmp (scalars neighbor, offsets neighbor, neighbor) st.1,
         Function.update st.2 neighbor true)
      else st)
    st

/-- How the growth loop of a pass ends. -/
inductive Growth where
  /-- The fuel of the model ran out (not a behaviour of the source). -/
  | outOfFuel : Growth
  /-- The source's `return -1`: the sweep front was empty when the front was taken. -/
  | emptyFront : Growth
  /-- The loop left through `while(!sweepFront.empty())`, with `adjustmentSequence`
  and `adjustmentPos`. -/
  | done : (Nat → Nat) → Nat → Growth

/-- The `do … while(!sweepFront.empty())` loop: one unit of fuel per execution of the body. -/
def growthLoop {α : Type} (cmp : Triple α → Triple α → Bool) (neighbors : Nat → List Nat)
    (scalars : Nat → α) (offsets : Nat → Int) :
    Nat → List (Triple α) → (Nat → Bool) → (Nat → Nat) → Nat → Growth
  | 0, _, _, _, _ => Growth.outOfFuel
  | _ + 1, [], _, _, _ => Growth.emptyFront
  | fuel + 1, front :: sweepFront, visitedVertices, adjustmentSequence, adjustmentPos =>
    let vertexId := front.2.2
    let st := visitNeighbors cmp scalars offsets (neighbors vertexId)
      (sweepFront, visitedVertices)
    let adjustmentSequence := Function.update adjustmentSequence adjustmentPos vertexId
    let adjustmentPos := adjustmentPos + 1
    if st.1.isEmpty then Growth.done adjustmentSequence adjustmentPos
    else growthLoop cmp neighbors scalars offsets fuel st.1 st.2 adjustmentSequence
      adjustmentPos

/-- One step `k` of the loop "save offsets and rearrange scalars".
State: `(scalars, offsets, offset)`. -/
def rewriteStep {α : Type} [LinearOrder α] (isIncreasingOrder : Bool)
    (adjustmentSequence : Nat → Nat) (st : (Nat → α) × (Nat → Int) × Int) (k : Nat) :
    (Nat → α) × (Nat → Int) × Int :=
  let scalars := st.1
  let offsets := st.2.1
  let offset := st.2.2
  if isIncreasingOrder then
    let scalars :=
      if k ≠ 0 ∧ scalars (adjustmentSequence k) ≤ scalars (adjustmentSequence (k - 1)) then
        Function.update scalars (adjustmentSequence k) (scalars (adjustmentSequence (k - 1)))
      else scalars
    let offset := offset + 1
    (scalars, Function.update offsets (adjustmentSequence k) offset, offset)
  else
    let scalars :=
      if k ≠ 0 ∧ scalars (adjustmentSequence k) ≥ scalars (adjustmentSequence (k - 1)) then
        Function.update scalars (adjustmentSequence k) (scalars (adjustmentSequence (k - 1)))
      else scalars
    let offset := offset - 1
    (scalars, Function.update offsets (adjustmentSequence k) offset, offset)

/-- The loop "save offsets and rearrange scalars" for `k = 0 .. vertexNumber_-1`, from
`offset = 0` (ascending) or `vertexNumber_ + 1` (descending). -/
def rewrite {α : Type} [LinearOrder α] (vertexNumber : Nat) (isIncreasingOrder : Bool)
    (adjustmentSequence : Nat → Nat) (scalars : Nat → α) (offsets : Nat → Int) :
    (Nat → α) × (Nat → Int) :=
  let st := (List.range vertexNumber).foldl (rewriteStep isIncreasingOrder adjustmentSequence)
    (scalars, offsets, if isIncreasingOrder then 0 else (vertexNumber : Int) + 1)
  (st.1, st.2.1)

/-- What one pass (one `j` of the inner `for`) leaves behind. -/
inductive Pass (α : Type) where
  /-- The fuel of the model ran out. -/
  | outOfFuel : Pass α
  /-- The source's `return -1`, with `authorizedExtrema` as the seed loop left it. -/
  | emptyFront : (Nat → Bool) → Pass α
  /-- The pass completed: `authorizedExtrema`, `adjustmentSequence`, `adjustmentPos`,
  and the rewritten `scalars` and `offsets`. -/
  | done : (Nat → Bool) → (Nat → Nat) → Nat → (Nat → α) → (Nat → Int) → Pass α

/-- The body of `for(int j = 0; j < 2; ++j)` for one direction: seeds, growth, rewrite. -/
def regionGrowPass {α : Type} [LinearOrder α] (vertexNumber : Nat)
    (neighbors : Nat → List Nat) (isIncreasingOrder : Bool) (seeds : List Nat)
    (authorizedExtrema : Nat → Bool) (scalars : Nat → α) (offsets : Nat → Int) : Pass α :=
  let cmp := SweepCmp (α := α) isIncreasingOrder
  let st := addSeeds cmp scalars offsets seeds (authorizedExtrema, [], fun _ => false)
  match growthLoop cmp neighbors scalars offsets vertexNumber st.2.1 st.2.2 (fun _ => 0) 0 with
  | Growth.outOfFuel => Pass.outOfFuel
  | Growth.emptyFront => Pass.emptyFront st.1
  | Growth.done adjustmentSequence adjustmentPos =>
    let r := rewrite vertexNumber isIncreasingOrder adjustmentSequence scalars offsets
    Pass.done st.1 adjustmentSequence adjustmentPos r.1 r.2

/-- The state `execute` returns with: the status, the output buffers, the counter
`iteration`, and the last value of the local `needForMoreIterations` (`true` before the
first convergence test). -/
structure Result (α : Type) where
  /-- The returned `int`. -/
  status : Int
  /-- The buffer behind `outputScalarFieldPointer_`. -/
  scalars : Nat → α
  /-- The buffer behind `outputOffsetScalarFieldPointer_`. -/
  offsets : Nat → Int
  /-- The local `iteration`. -/
  iteration : Nat
  /-- The local `needForMoreIterations` of the last convergence test. -/
  needForMoreIterations : Bool

/-- The convergence test of one iteration: `needForMoreIterations`. -/
def testConvergence (authorizedMinima authorizedMaxima minima maxima : List Nat)
    (authorizedExtrema : Nat → Bool) : Bool :=
  let need := false
  let need := if maxima.length > authorizedMaxima.length then true else need
  let need := if minima.length > authorizedMinima.length then true else need
  let need := if !need then minima.any (fun k => !authorizedExtrema k) else need
  let need := if !need then maxima.any (fun k => !authorizedExtrema k) else need
  need

/-- The main loop `for(SimplexId i = 0; i < vertexNumber_; ++i)` of `execute`, with the
number of values of `i` still to run. -/
def mainLoop {α : Type} [LinearOrder α] [Add α] (vertexNumber : Nat)
    (neighbors : Nat → List Nat) (addPerturbationFlag : Bool) (epsilon : Option α)
    (authorizedMinima authorizedMaxima : List Nat) :
    Nat → (Nat → Bool) → (Nat → α) → (Nat → Int) → Nat → Bool → Option (Result α)
  | 0, _, scalars, offsets, iteration, need =>
    some ⟨0, scalars, offsets, iteration, need⟩
  | remaining + 1, authorizedExtrema, scalars, offsets, iteration, need =>
    match regionGrowPass vertexNumber neighbors true authorizedMinima authorizedExtrema
        scalars offsets with
    | Pass.outOfFuel => none
    | Pass.emptyFront _ => some ⟨-1, scalars, offsets, iteration, need⟩
    | Pass.done authorizedExtrema _ _ scalars offsets =>
      match regionGrowPass vertexNumber neighbors false authorizedMaxima authorizedExtrema
          scalars offsets with
      | Pass.outOfFuel => none
      | Pass.emptyFront _ => some ⟨-1, scalars, offsets, iteration, need⟩
      | Pass.done authorizedExtrema _ _ scalars offsets =>
        let crit := getCriticalPoints vertexNumber neighbors scalars offsets [] []
        let need := testConvergence authorizedMinima authorizedMaxima crit.1 crit.2
          authorizedExtrema
        let scalars :=
          if addPerturbationFlag then (addPerturbation vertexNumber epsilon scalars offsets).2
          else scalars
        let iteration := iteration + 1
        if !need then some ⟨0, scalars, offsets, iteration, need⟩
        else mainLoop vertexNumber neighbors addPerturbationFlag epsilon authorizedMinima
          authorizedMaxima remaining authorizedExtrema scalars offsets iteration need

/-- The pre-processing loop on scalars: a copy of the input with `NaN` replaced by 0. -/
def preprocessScalars {α : Type} [Zero α] (inputScalars : Nat → Option α) : Nat → α :=
  fun k =>
    match inputScalars k with
    | none => 0
    | some x => x

/-- The conversion of a value of `idType` to `SimplexId` (`int`, 32 bits, two's
complement): the value modulo `2^32` in `[-2^31, 2^31)`. -/
def toSimplexId (x : Int) : Int := (x + 2147483648) % 4294967296 - 2147483648

/-- The pre-processing loop on offsets, `offsets[k] = inputOffsets[k]`: the `idType` input
is stored in a `SimplexId`. -/
def preprocessOffsets (inputOffsets : Nat → Int) : Nat → Int :=
  fun k => toSimplexId (inputOffsets k)

/-- The pre-processing loop of `execute`: the output buffers `(scalars, offsets)` after it. -/
def preprocess {α : Type} [Zero α] (inputScalars : Nat → Option α)
    (inputOffsets : Nat → Int) : (Nat → α) × (Nat → Int) :=
  (preprocessScalars inputScalars, preprocessOffsets inputOffsets)

/-- The loop "get the user extremum list" (bounds checks on, no `TTK_ENABLE_KAMIKAZE`):
`const SimplexId identifierId = identifiers[k]` converts the `idType` identifier before
the range test. -/
def userExtrema (vertexNumber : Nat) (identifiers : List Int) : Nat → Bool :=
  identifiers.foldl
    (fun extrema identifier =>
      let identifierId := toSimplexId identifier
      if 0 ≤ identifierId ∧ identifierId < (vertexNumber : Int) then
        Function.update extrema identifierId.toNat true
      else extrema)
    (fun _ => false)

/-- The lists `authorizedMinima` and `authorizedMaxima` of `execute`. -/
def authorized {α : Type} [LinearOrder α] [Zero α] (vertexNumber : Nat)
    (neighbors : Nat → List Nat) (considerIdentifierAsBlackList : Bool)
    (inputScalars : Nat → Option α) (inputOffsets : Nat → Int) (identifiers : List Int) :
    List Nat × List Nat :=
  getCriticalPointsMasked vertexNumber neighbors considerIdentifierAsBlackList
    (preprocess inputScalars inputOffsets).1 (preprocess inputScalars inputOffsets).2 [] []
    (userExtrema vertexNumber identifiers)

/-- `TopologicalSimplification::execute`. `none` only when the fuel of a growth loop
(`vertexNumber` executions of its body) runs out. -/
def execute {α : Type} [LinearOrder α] [Add α] [Zero α] (vertexNumber : Nat)
    (neighbors : Nat → List Nat) (considerIdentifierAsBlackList addPerturbationFlag : Bool)
    (epsilon : Option α) (inputScalars : Nat → Option α) (inputOffsets : Nat → Int)
    (identifiers : List Int) : Option (Result α) :=
  let pre := preprocess inputScalars inputOffsets
  let scalars := pre.1
  let offsets := pre.2
  let auth := authorized vertexNumber neighbors considerIdentifierAsBlackList inputScalars
    inputOffsets identifiers
  mainLoop vertexNumber neighbors addPerturbationFlag epsilon auth.1 auth.2
    vertexNumber (fun _ => false) scalars offsets 0 true

/-- What a completed pass leaves on the first `n` indices: `adjustmentSequence`,
`adjustmentPos`, `scalars` and `offsets`. -/
def Pass.summary {α : Type} (n : Nat) : Pass α → Option (List Nat × Nat × List α × List Int)
  | Pass.done _ seq pos scalars offsets =>
    some ((List.range n).map seq, pos, (List.range n).map scalars, (List.range n).map offsets)
  | _ => none

/-- The adjustment position a completed pass ended with. -/
def Pass.adjustmentPos {α : Type} : Pass α → Option Nat
  | Pass.done _ _ pos _ _ => some pos
  | _ => none

/-- The neighbour loop of `getCriticalType` with the early `return 0` left out: every
neighbour is examined, then the final tests run. -/
def getCriticalTypeLoopNoReturn {α : Type} [LinearOrder α] (vertex : Nat)
    (scalars : Nat → α) (offsets : Nat → Int) : List Nat → Bool → Bool → Int
  | [], isMinima, isMaxima => if isMinima then -1 else if isMaxima then 1 else 0
  | neighbor :: rest, isMinima, isMaxima =>
    let isMinima := if isLowerThan neighbor vertex scalars offsets then false else isMinima
    let isMaxima := if isHigherThan neighbor vertex scalars offsets then false else isMaxima
    getCriticalTypeLoopNoReturn vertex scalars offsets rest isMinima isMaxima

/-- `getCriticalType` with the early `return 0` of its loop left out. -/
def getCriticalTypeNoReturn {α : Type} [LinearOrder α] (neighbors : Nat → List Nat)
    (vertex : Nat) (scalars : Nat → α) (offsets : Nat → Int) : Int :=
  getCriticalTypeLoopNoReturn vertex scalars offsets (neighbors vertex) true true

/-- The two buffers `(scalars, offsets)` after a call of `addPerturbation`: the source
writes through `scalars` only, `offsets` is read when the tuples are built. -/
def addPerturbationBuffers {α : Type} [LinearOrder α] [Add α] (vertexNumber : Nat)
    (epsilon : Option α) (scalars : Nat → α) (offsets : Nat → Int) :
    (Nat → α) × (Nat → Int) :=
  ((addPerturbation vertexNumber epsilon scalars offsets).2, offsets)

/-- The tuples of `addPerturbation` after `sort`: the vertices in ascending order of
`(scalar, offset)`. -/
def sortedTriples {α : Type} [LinearOrder α] (vertexNumber : Nat) (scalars : Nat → α)
    (offsets : Nat → Int) : List (Triple α) :=
  sort (SweepCmp true)
    ((List.range vertexNumber).map (fun i => (scalars i, offsets i, i)))

/-- The neighbour loop of the growth (`visitNeighbors`) with a record of the vertices it
calls `sweepFront.emplace` for. State: `(sweepFront, visitedVertices, emplaced)`. -/
def visitNeighborsLog {α : Type} (cmp : Triple α → Triple α → Bool) (scalars : Nat → α)
    (offsets : Nat → Int) (nbrs : List Nat)
    (st : List (Triple α) × (Nat → Bool) × List Nat) :
    List (Triple α) × (Nat → Bool) × List Nat :=
  nbrs.foldl
    (fun st neighbor =>
      if !st.2.1 neighbor then
        (setEmplace cmp (scalars neighbor, offsets neighbor, neighbor) st.1,
         Function.update st.2.1 neighbor true,
         st.2.2 ++ [neighbor])
      else st)
    st

/-- The growth loop (`growthLoop`) with two records: the vertices `sweepFront.emplace` was
called for, and the indices of the writes `adjustmentSequence[adjustmentPos] = vertexId`. -/
def growthLoopLog {α : Type} (cmp : Triple α → Triple α → Bool) (neighbors : Nat → List Nat)
    (scalars : Nat → α) (offsets : Nat → Int) :
    Nat → List (Triple α) → (Nat → Bool) → (Nat → Nat) → Nat → List Nat → List Nat →
      Growth × List Nat × List Nat
  | 0, _, _, _, _, emplaced, written => (Growth.outOfFuel, emplaced, written)
  | _ + 1, [], _, _, _, emplaced, written => (Growth.emptyFront, emplaced, written)
  | fuel + 1, front :: sweepFront, visitedVertices, adjustmentSequence, adjustmentPos,
      emplaced, written =>
    let vertexId := front.2.2
    let st := visitNeighborsLog cmp scalars offsets (neighbors vertexId)
      (sweepFront, visitedVertices, emplaced)
    let written := written ++ [adjustmentPos]
    let adjustmentSequence := Function.update adjustmentSequence adjustmentPos vertexId
    let adjustmentPos := adjustmentPos + 1
    if st.1.isEmpty then (Growth.done adjustmentSequence adjustmentPos, st.2.2, written)
    else growthLoopLog cmp neighbors scalars offsets fuel st.1 st.2.1 adjustmentSequence
      adjustmentPos st.2.2 written

/-- The seed loop and the growth loop of one pass with the two records: the seed loop
calls `sweepFront.emplace` once for every entry of the seed list. -/
def growthLog {α : Type} [LinearOrder α] (vertexNumber : Nat) (neighbors : Nat → List Nat)
    (isIncreasingOrder : Bool) (seeds : List Nat) (authorizedExtrema : Nat → Bool)
    (scalars : Nat → α) (offsets : Nat → Int) : Growth × List Nat × List Nat :=
  let cmp := SweepCmp (α := α) isIncreasingOrder
  let st := addSeeds cmp scalars offsets seeds (authorizedExtrema, [], fun _ => false)
  growthLoopLog cmp neighbors scalars offsets vertexNumber st.2.1 st.2.2 (fun _ => 0) 0
    seeds []

/-! ## The scalar type `double`

The finite values of `double` (IEEE 754 binary64) that are multiples of `2^-99`, with the
rounded addition of the type. Overflow is not modelled: a value of magnitude `2^1024` or
more is not a `double`, and the sums of this file stay far below it. -/

/-- The number of binary digits of `n`, counted with at most `fuel` halvings (`fuel = n`
is enough): 0 for 0, and the `L` with `2^(L-1) ≤ n < 2^L` otherwise. -/
def bitLength : Nat → Nat → Nat
  | 0, _ => 0
  | fuel + 1, n => if n = 0 then 0 else bitLength fuel (n / 2) + 1

/-- The multiple of `2^k` nearest to `n`, a tie going to the even multiple. -/
def roundAt (k n : Nat) : Nat :=
  let q := n / 2 ^ k
  let r := n % 2 ^ k
  if 2 * r > 2 ^ k ∨ (2 * r = 2 ^ k ∧ q % 2 = 1) then (q + 1) * 2 ^ k else q * 2 ^ k

/-- Rounding of a natural number to `p` significant binary digits, to nearest, ties to
even (the default rounding of IEEE 754): the digits of `n` above the first `p` are rounded
away. -/
def roundNat (p n : Nat) : Nat := roundAt (bitLength n n - p) n

/-- Rounding of an integer to `p` significant binary digits: the rounded magnitude with
the sign of the integer. -/
def roundToBits (p : Nat) (z : Int) : Int :=
  if 0 ≤ z then (roundNat p z.natAbs : Int) else -(roundNat p z.natAbs : Int)

/-- A finite `double` that is a multiple of `2^-99`: the value is `units * 2^-99`, and
`units` has at most 53 significant binary digits (it is the rounding of some integer). -/
structure Binary64 where
  /-- The value in units of `2^-99`. -/
  units : Int
  /-- The units fit the 53 digits of the significand. -/
  representable : ∃ z, roundToBits 53 z = units

/-- The `double` nearest to `z * 2^-99`. -/
def Binary64.ofUnits (z : Int) : Binary64 := ⟨roundToBits 53 z, z, rfl⟩

/-- The comparisons `<`, `<=`, `==` of `double` on finite values: those of the units. -/
instance : LinearOrder Binary64 :=
  LinearOrder.lift' Binary64.units (fun a b h => by
    cases a; cases b; simp only at h; subst h; rfl)

/-- The operator `+` of `double`: the exact sum, rounded to nearest, ties to even. -/
instance : Add Binary64 := ⟨fun a b => Binary64.ofUnits (a.units + b.units)⟩

/-- The `double` 0, which `execute` writes for a `NaN`. -/
instance : Zero Binary64 := ⟨Binary64.ofUnits 0⟩

/-- The local `epsilon` of `addPerturbation` for `double`: `10^(1 - DBL_DIG) = 10^-14`,
as the `double` nearest to it, `0x1.6849b86a12b9bp-47`, which is `6338253001141147` units
of `2^-99`. -/
def Binary64.epsilon : Binary64 := Binary64.ofUnits 6338253001141147

/-! ## Concrete inputs -/

/-- An array given by its entries, `d` outside. -/
def fieldOf {β : Type} (d : β) (l : List β) : Nat → β := fun k => l.getD k d

/-- An array of `double` given by the units of its entries, 0 outside. -/
def binary64Field (l : List Int) : Nat → Binary64 := fieldOf 0 (l.map Binary64.ofUnits)

/-- The path 0 - 1 - 2 - 3. -/
def chain4 : Nat → List Nat
  | 0 => [1]
  | 1 => [0, 2]
  | 2 => [1, 3]
  | 3 => [2]
  | _ => []

/-- The path 0 - 1 - 2. -/
def chain3 : Nat → List Nat
  | 0 => [1]
  | 1 => [0, 2]
  | 2 => [1]
  | _ => []

/-- The star with centre 0 and leaves 1, 2. -/
def star3 : Nat → List Nat
  | 0 => [1, 2]
  | 1 => [0]
  | 2 => [0]
  | _ => []

/-- A mesh without any edge. -/
def noNeighbors : Nat → List Nat := fun _ => []

/-- Two components: the edges 0 - 1 and 2 - 3. -/
def twoEdges : Nat → List Nat
  | 0 => [1]
  | 1 => [0]
  | 2 => [3]
  | 3 => [2]
  | _ => []

/-! ## Vocabulary of the statements -/

/-- Every neighbour id of a vertex of the mesh is a vertex of the mesh. -/
def InRange (vertexNumber : Nat) (neighbors : Nat → List Nat) : Prop :=
  ∀ v, v < vertexNumber → ∀ u ∈ neighbors v, u < vertexNumber

/-- The neighbour relation is symmetric. -/
def SymmetricNeighbors (vertexNumber : Nat) (neighbors : Nat → List Nat) : Prop :=
  ∀ v, v < vertexNumber → ∀ u ∈ neighbors v, v ∈ neighbors u

/-- The mesh is connected: every vertex is reached from every vertex along neighbours. -/
def ConnectedMesh (vertexNumber : Nat) (neighbors : Nat → List Nat) : Prop :=
  ∀ u, u < vertexNumber → ∀ v, v < vertexNumber →
    Relation.ReflTransGen (fun a b => b ∈ neighbors a) u v

/-- The tuple `(scalars[v], offsets[v], v)` a vertex is emplaced with. -/
def tripleOf {α : Type} (scalars : Nat → α) (offsets : Nat → Int) (v : Nat) : Triple α :=
  (scalars v, offsets v, v)

/-- The offsets of the vertices of the mesh are pairwise distinct. -/
def DistinctOffsets (vertexNumber : Nat) (offsets : Nat → Int) : Prop :=
  ∀ i, i < vertexNumber → ∀ j, j < vertexNumber → offsets i = offsets j → i = j

/-- The vertices dequeued so far: `adjustmentSequence[0 .. adjustmentPos-1]`. -/
def popped (adjustmentSequence : Nat → Nat) (adjustmentPos : Nat) : List Nat :=
  (List.range adjustmentPos).map adjustmentSequence

/-- The vertices of the tuples of a sweep front, in front order. -/
def frontVertices {α : Type} (sweepFront : List (Triple α)) : List Nat :=
  sweepFront.map (fun t => t.2.2)

/-- What holds of the growth loop for every field: dequeued and queued vertices are
pairwise different vertices of the mesh, all marked visited, and the entries of
`adjustmentSequence` from `adjustmentPos` on are still 0. -/
structure WeakInv {α : Type} (vertexNumber : Nat) (sweepFront : List (Triple α))
    (visitedVertices : Nat → Bool) (adjustmentSequence : Nat → Nat) (adjustmentPos : Nat) :
    Prop where
  /-- No vertex is dequeued or queued twice. -/
  nodup : (popped adjustmentSequence adjustmentPos ++ frontVertices sweepFront).Nodup
  /-- Dequeued and queued vertices are in range and visited. -/
  mem : ∀ v ∈ popped adjustmentSequence adjustmentPos ++ frontVertices sweepFront,
    v < vertexNumber ∧ visitedVertices v = true
  /-- The tail of the sequence is untouched. -/
  zero : ∀ k, adjustmentPos ≤ k → adjustmentSequence k = 0

/-- What holds of the growth loop on a field with pairwise distinct offsets: on top of the
weak invariant, the front holds the tuples of its vertices sorted by the comparator, every
visited vertex is dequeued or queued, every neighbour of a dequeued vertex is visited, and
the seeds are visited. -/
structure StrongInv {α : Type} [LinearOrder α] (vertexNumber : Nat)
    (neighbors : Nat → List Nat) (scalars : Nat → α) (offsets : Nat → Int)
    (isIncreasingOrder : Bool) (seeds : List Nat) (sweepFront : List (Triple α))
    (visitedVertices : Nat → Bool) (adjustmentSequence : Nat → Nat) (adjustmentPos : Nat) :
    Prop where
  /-- The weak invariant. -/
  weak : WeakInv vertexNumber sweepFront visitedVertices adjustmentSequence adjustmentPos
  /-- The tuples of the front are those of their vertices. -/
  keys : ∀ t ∈ sweepFront, t = tripleOf scalars offsets t.2.2
  /-- A visited vertex is dequeued or queued. -/
  visited : ∀ v, visitedVertices v = true →
    v ∈ popped adjustmentSequence adjustmentPos ++ frontVertices sweepFront
  /-- The neighbours of dequeued vertices are visited. -/
  closed : ∀ p ∈ popped adjustmentSequence adjustmentPos, ∀ u ∈ neighbors p,
    visitedVertices u = true
  /-- The front is sorted by the comparator. -/
  sorted : sweepFront.Pairwise (fun a b => SweepCmp isIncreasingOrder a b = true)
  /-- The seeds are visited. -/
  seeds : ∀ k ∈ seeds, visitedVertices k = true

/-- The sequence restricted to `[0, N)` is a bijection onto the vertices. -/
def SeqPerm (vertexNumber : Nat) (adjustmentSequence : Nat → Nat) : Prop :=
  (∀ k, k < vertexNumber → adjustmentSequence k < vertexNumber) ∧
  (∀ i, i < vertexNumber → ∀ j, j < vertexNumber →
    adjustmentSequence i = adjustmentSequence j → i = j) ∧
  (∀ v, v < vertexNumber → ∃ k, k < vertexNumber ∧ adjustmentSequence k = v)

/-- The offsets of the vertices are a permutation of `1, …, N`. -/
def OffsetsPerm (vertexNumber : Nat) (offsets : Nat → Int) : Prop :=
  List.Perm ((List.range vertexNumber).map offsets)
    ((List.range vertexNumber).map (fun k : Nat => (k : Int) + 1))

/-- The field is sorted by its offsets: the offsets are pairwise distinct with values in
`1, …, N`, and the scalars increase weakly with the offsets. -/
def FieldSorted {α : Type} [LinearOrder α] (vertexNumber : Nat) (scalars : Nat → α)
    (offsets : Nat → Int) : Prop :=
  DistinctOffsets vertexNumber offsets ∧
  (∀ i, i < vertexNumber → 1 ≤ offsets i ∧ offsets i ≤ vertexNumber) ∧
  (∀ a, a < vertexNumber → ∀ b, b < vertexNumber → offsets a < offsets b →
    scalars a ≤ scalars b)

/-- The scalars increase strictly with the offsets. -/
def StrictlySorted {α : Type} [LinearOrder α] (vertexNumber : Nat) (scalars : Nat → α)
    (offsets : Nat → Int) : Prop :=
  ∀ a, a < vertexNumber → ∀ b, b < vertexNumber → offsets a < offsets b →
    scalars a < scalars b

/-- The position of a vertex in the sweep of a field sorted by its offsets: `offset - 1`
in the ascending direction, `N - offset` in the descending one. -/
def rankOf (isIncreasingOrder : Bool) (vertexNumber : Nat) (offsets : Nat → Int) (v : Nat) :
    Int :=
  if isIncreasingOrder then offsets v - 1 else (vertexNumber : Int) - offsets v

section Conversion

theorem toSimplexId_of_range {x : Int} (h1 : -2147483648 ≤ x) (h2 : x < 2147483648) :
    toSimplexId x = x := by
  unfold toSimplexId
  omega

theorem toSimplexId_range (x : Int) :
    -2147483648 ≤ toSimplexId x ∧ toSimplexId x < 2147483648 := by
  unfold toSimplexId
  omega

theorem toSimplexId_idem (x : Int) : toSimplexId (toSimplexId x) = toSimplexId x :=
  toSimplexId_of_range (toSimplexId_range x).1 (toSimplexId_range x).2

/-- A vertex id of a mesh with at most `2^31` vertices is its own conversion. -/
theorem toSimplexId_natCast {N v : Nat} (hN : N ≤ 2147483648) (hv : v < N) :
    toSimplexId (v : Int) = v :=
  toSimplexId_of_range (by omega) (by omega)

end Conversion

section Rounding

theorem bitLength_zero (fuel : Nat) : bitLength fuel 0 = 0 := by
  cases fuel <;> simp [bitLength]

/-- With enough fuel `bitLength` is the number of binary digits: `n < 2^L`, and
`2^(L-1) ≤ n` unless `n = 0`. -/
theorem bitLength_spec (fuel n : Nat) (h : n ≤ fuel) :
    n < 2 ^ bitLength fuel n ∧ (n ≠ 0 → 2 ^ (bitLength fuel n - 1) ≤ n) := by
  induction fuel generalizing n with
  | zero =>
    have : n = 0 := by omega
    subst this
    simp [bitLength]
  | succ fuel ih =>
    by_cases hn : n = 0
    · subst hn
      simp [bitLength]
    · simp only [bitLength, if_neg hn, Nat.add_sub_cancel]
      obtain ⟨h1, h2⟩ := ih (n / 2) (by omega)
      refine ⟨?_, fun _ => ?_⟩
      · rw [pow_succ]
        omega
      · by_cases hn2 : n / 2 = 0
        · rw [hn2, bitLength_zero]
          simp only [pow_zero]
          omega
        · have h3 := h2 hn2
          have hL : bitLength fuel (n / 2) ≠ 0 := by
            intro hc
            rw [hc] at h1
            simp only [pow_zero] at h1
            omega
          obtain ⟨L, hL'⟩ := Nat.exists_eq_succ_of_ne_zero hL
          rw [hL'] at h3 ⊢
          simp only [Nat.succ_eq_add_one, Nat.add_sub_cancel] at h3
          rw [pow_succ]
          omega

theorem lt_two_pow_bitLength (n : Nat) : n < 2 ^ bitLength n n :=
  (bitLength_spec n n le_rfl).1

theorem two_pow_le_of_bitLength {n L : Nat} (h : L < bitLength n n) : 2 ^ L ≤ n := by
  have hn : n ≠ 0 := by
    intro hc
    subst hc
    simp [bitLength] at h
  have h2 := (bitLength_spec n n le_rfl).2 hn
  exact (Nat.pow_le_pow_right (by decide) (by omega)).trans h2

theorem bitLength_mono {n m : Nat} (h : n ≤ m) : bitLength n n ≤ bitLength m m := by
  by_contra hc
  have h1 := two_pow_le_of_bitLength (not_le.1 hc)
  have h2 := lt_two_pow_bitLength m
  omega

theorem dvd_roundAt (k n : Nat) : 2 ^ k ∣ roundAt k n := by
  simp only [roundAt]
  split_ifs
  · exact Dvd.intro_left _ rfl
  · exact Dvd.intro_left _ rfl

theorem roundAt_of_dvd {k n : Nat} (h : 2 ^ k ∣ n) : roundAt k n = n := by
  have hr : n % 2 ^ k = 0 := Nat.mod_eq_zero_of_dvd h
  have hpos : 0 < 2 ^ k := Nat.pow_pos (by decide)
  simp only [roundAt, hr]
  rw [if_neg (by omega)]
  exact Nat.div_mul_cancel h

theorem roundAt_cases (k n : Nat) :
    (roundAt k n = n / 2 ^ k * 2 ^ k) ∨
      (roundAt k n = (n / 2 ^ k + 1) * 2 ^ k ∧ 2 ^ k ≤ 2 * (n % 2 ^ k)) := by
  simp only [roundAt]
  split_ifs with h
  · right
    refine ⟨rfl, ?_⟩
    rcases h with h | h <;> omega
  · left; rfl

/-- Rounding to a multiple of `2^k` does not pass a multiple of `2^k` above the number. -/
theorem roundAt_le_of_le_mul {k n c : Nat} (h : n ≤ c * 2 ^ k) : roundAt k n ≤ c * 2 ^ k := by
  have hpos : 0 < 2 ^ k := Nat.pow_pos (by decide)
  have hdm := Nat.div_add_mod n (2 ^ k)
  rcases roundAt_cases k n with h1 | ⟨h1, h2⟩
  · rw [h1]
    exact (Nat.div_mul_le_self n _).trans h
  · rw [h1]
    apply Nat.mul_le_mul_right
    have hlt : n / 2 ^ k * 2 ^ k < c * 2 ^ k := by
      have : 2 ^ k * (n / 2 ^ k) = n / 2 ^ k * 2 ^ k := Nat.mul_comm _ _
      omega
    exact Nat.lt_of_mul_lt_mul_right hlt

/-- Rounding to a multiple of `2^k` does not pass a multiple of `2^k` below the number. -/
theorem mul_le_roundAt {k n c : Nat} (h : c * 2 ^ k ≤ n) : c * 2 ^ k ≤ roundAt k n := by
  have hpos : 0 < 2 ^ k := Nat.pow_pos (by decide)
  have hc : c ≤ n / 2 ^ k := (Nat.le_div_iff_mul_le hpos).2 h
  rcases roundAt_cases k n with h1 | ⟨h1, _⟩
  · rw [h1]
    exact Nat.mul_le_mul_right _ hc
  · rw [h1]
    exact Nat.mul_le_mul_right _ (by omega)

theorem roundAt_mono (k : Nat) {n m : Nat} (h : n ≤ m) : roundAt k n ≤ roundAt k m := by
  have hpos : 0 < 2 ^ k := Nat.pow_pos (by decide)
  have hq : n / 2 ^ k ≤ m / 2 ^ k := Nat.div_le_div_right h
  rcases Nat.lt_or_eq_of_le hq with hlt | heq
  · have h1 : roundAt k n ≤ (n / 2 ^ k + 1) * 2 ^ k :=
      roundAt_le_of_le_mul (by
        have := Nat.div_add_mod n (2 ^ k)
        have := Nat.mod_lt n hpos
        rw [Nat.add_mul, Nat.one_mul, Nat.mul_comm]
        omega)
    have h2 : (n / 2 ^ k + 1) * 2 ^ k ≤ m / 2 ^ k * 2 ^ k := Nat.mul_le_mul_right _ hlt
    have h3 : m / 2 ^ k * 2 ^ k ≤ roundAt k m := mul_le_roundAt (Nat.div_mul_le_self m _)
    exact h1.trans (h2.trans h3)
  · have hn := Nat.div_add_mod n (2 ^ k)
    have hm := Nat.div_add_mod m (2 ^ k)
    rw [heq] at hn
    have hr : n % 2 ^ k ≤ m % 2 ^ k := by omega
    simp only [roundAt, heq]
    by_cases h1 : 2 * (n % 2 ^ k) > 2 ^ k ∨ (2 * (n % 2 ^ k) = 2 ^ k ∧ m / 2 ^ k % 2 = 1)
    · have h2 : 2 * (m % 2 ^ k) > 2 ^ k ∨ (2 * (m % 2 ^ k) = 2 ^ k ∧ m / 2 ^ k % 2 = 1) := by
        rcases h1 with h1 | ⟨h1, h1'⟩
        · left; omega
        · by_cases h3 : 2 * (m % 2 ^ k) = 2 ^ k
          · right; exact ⟨h3, h1'⟩
          · left; omega
      rw [if_pos h1, if_pos h2]
    · rw [if_neg h1]
      split_ifs
      · exact Nat.mul_le_mul_right _ (by omega)
      · exact le_rfl

theorem roundNat_le_pow (p n : Nat) : roundNat p n ≤ 2 ^ (p + (bitLength n n - p)) := by
  rw [pow_add]
  apply roundAt_le_of_le_mul
  rw [← pow_add]
  have h := lt_two_pow_bitLength n
  have : 2 ^ bitLength n n ≤ 2 ^ (p + (bitLength n n - p)) :=
    Nat.pow_le_pow_right (by decide) (by omega)
  omega

/-- A rounded number is its own rounding. -/
theorem roundNat_idem {p : Nat} (hp : 0 < p) (n : Nat) :
    roundNat p (roundNat p n) = roundNat p n := by
  have hle := roundNat_le_pow p n
  have hdvd : 2 ^ (bitLength n n - p) ∣ roundNat p n := dvd_roundAt _ n
  generalize hk : bitLength n n - p = k at hle hdvd
  generalize roundNat p n = n' at hle hdvd
  show roundAt (bitLength n' n' - p) n' = n'
  apply roundAt_of_dvd
  by_cases hkk : bitLength n' n' - p ≤ k
  · exact (Nat.pow_dvd_pow 2 hkk).trans hdvd
  · have h1 : 2 ^ (p + k) ≤ n' := two_pow_le_of_bitLength (by omega)
    have h2 : n' = 2 ^ (p + k) := le_antisymm hle h1
    have h3 : ¬ (p + k + 1 < bitLength n' n') := by
      intro hc
      have := two_pow_le_of_bitLength hc
      rw [h2, pow_succ] at this
      have hpos : 0 < 2 ^ (p + k) := Nat.pow_pos (by decide)
      omega
    rw [h2] at h3 ⊢
    exact Nat.pow_dvd_pow 2 (by omega)

/-- Rounding to `p` digits is monotone. -/
theorem roundNat_mono {p : Nat} (hp : 0 < p) {n m : Nat} (h : n ≤ m) :
    roundNat p n ≤ roundNat p m := by
  have hb := bitLength_mono h
  by_cases hk : bitLength n n - p = bitLength m m - p
  · show roundAt _ n ≤ roundAt _ m
    rw [hk]
    exact roundAt_mono _ h
  · have h1 := roundNat_le_pow p n
    have h2 : 2 ^ (p - 1) * 2 ^ (bitLength m m - p) ≤ roundNat p m := by
      apply mul_le_roundAt
      rw [← pow_add]
      exact two_pow_le_of_bitLength (by omega)
    rw [← pow_add] at h2
    have h3 : 2 ^ (p + (bitLength n n - p)) ≤ 2 ^ (p - 1 + (bitLength m m - p)) :=
      Nat.pow_le_pow_right (by decide) (by omega)
    exact h1.trans (h3.trans h2)

/-- A rounded integer is its own rounding. -/
theorem roundToBits_idem {p : Nat} (hp : 0 < p) (z : Int) :
    roundToBits p (roundToBits p z) = roundToBits p z := by
  by_cases hz : 0 ≤ z
  · simp only [roundToBits, if_pos hz, Int.natCast_nonneg, if_true, Int.natAbs_ofNat]
    rw [roundNat_idem hp]
  · simp only [roundToBits, if_neg hz]
    by_cases h0 : roundNat p z.natAbs = 0
    · rw [h0]
      simp [roundNat, roundAt, bitLength]
    · have hneg : ¬ (0 ≤ -(roundNat p z.natAbs : Int)) := by omega
      rw [if_neg hneg, Int.natAbs_neg, Int.natAbs_ofNat, roundNat_idem hp]

/-- Rounding of integers to `p` digits is monotone. -/
theorem roundToBits_mono {p : Nat} (hp : 0 < p) {z w : Int} (h : z ≤ w) :
    roundToBits p z ≤ roundToBits p w := by
  simp only [roundToBits]
  by_cases hz : 0 ≤ z
  · have hw : 0 ≤ w := hz.trans h
    rw [if_pos hz, if_pos hw]
    exact Int.ofNat_le.2 (roundNat_mono hp (by omega))
  · rw [if_neg hz]
    by_cases hw : 0 ≤ w
    · rw [if_pos hw]
      have := Int.natCast_nonneg (roundNat p z.natAbs)
      have := Int.natCast_nonneg (roundNat p w.natAbs)
      omega
    · rw [if_neg hw]
      have : roundNat p w.natAbs ≤ roundNat p z.natAbs := roundNat_mono hp (by omega)
      omega

/-- The units of a `double` are their own rounding to 53 digits. -/
theorem Binary64.round_units (x : Binary64) : roundToBits 53 x.units = x.units := by
  obtain ⟨z, hz⟩ := x.representable
  rw [← hz]
  exact roundToBits_idem (by decide) z

/-- Adding a `double` that is not negative never gives a smaller `double`, also when the
sum is rounded down (the summand is then absorbed). -/
theorem Binary64.le_add_right (x e : Binary64) (he : 0 ≤ e.units) : x ≤ x + e := by
  show x.units ≤ roundToBits 53 (x.units + e.units)
  have h := roundToBits_mono (p := 53) (by decide) (show x.units ≤ x.units + e.units by omega)
  rwa [Binary64.round_units] at h

/-- The rounded addition of `double` is monotone. -/
theorem Binary64.add_le_add_right {x y : Binary64} (h : x ≤ y) (e : Binary64) :
    x + e ≤ y + e := by
  show roundToBits 53 (x.units + e.units) ≤ roundToBits 53 (y.units + e.units)
  have h' : x.units ≤ y.units := h
  exact roundToBits_mono (by decide) (by omega)

end Rounding

section Order
variable {α : Type} [LinearOrder α]

theorem isLowerThan_iff (a b : Nat) (s : Nat → α) (o : Nat → Int) :
    isLowerThan a b s o = true ↔ s a < s b ∨ (s a = s b ∧ o a < o b) := by
  simp [isLowerThan]

theorem isHigherThan_eq_isLowerThan (a b : Nat) (s : Nat → α) (o : Nat → Int) :
    isHigherThan a b s o = isLowerThan b a s o := by
  unfold isHigherThan isLowerThan
  have h : decide (s a = s b) = decide (s b = s a) := by
    simp only [eq_comm]
  simp only [gt_iff_lt, h]

theorem isLowerThan_irrefl (a : Nat) (s : Nat → α) (o : Nat → Int) :
    isLowerThan a a s o = false := by
  simp [isLowerThan]

theorem isLowerThan_asymm {a b : Nat} {s : Nat → α} {o : Nat → Int}
    (h : isLowerThan a b s o = true) : isLowerThan b a s o = false := by
  rw [isLowerThan_iff] at h
  rw [Bool.eq_false_iff, Ne, isLowerThan_iff]
  rintro (h2 | ⟨h2, h3⟩)
  · rcases h with h | ⟨h, _⟩
    · exact lt_asymm h h2
    · rw [h] at h2; exact lt_irrefl _ h2
  · rcases h with h | ⟨_, h⟩
    · rw [h2] at h; exact lt_irrefl _ h
    · omega

theorem isLowerThan_trans {a b c : Nat} {s : Nat → α} {o : Nat → Int}
    (h1 : isLowerThan a b s o = true) (h2 : isLowerThan b c s o = true) :
    isLowerThan a c s o = true := by
  rw [isLowerThan_iff] at *
  rcases h1 with h1 | ⟨h1, h1'⟩ <;> rcases h2 with h2 | ⟨h2, h2'⟩
  · exact Or.inl (lt_trans h1 h2)
  · exact Or.inl (h2 ▸ h1)
  · exact Or.inl (h1 ▸ h2)
  · exact Or.inr ⟨h1.trans h2, by omega⟩

theorem isLowerThan_total {a b : Nat} {s : Nat → α} {o : Nat → Int}
    (hne : o a ≠ o b) : isLowerThan a b s o = true ∨ isLowerThan b a s o = true := by
  simp only [isLowerThan_iff]
  rcases lt_trichotomy (s a) (s b) with h | h | h
  · exact Or.inl (Or.inl h)
  · rcases lt_or_gt_of_ne hne with h' | h'
    · exact Or.inl (Or.inr ⟨h, h'⟩)
    · exact Or.inr (Or.inr ⟨h.symm, h'⟩)
  · exact Or.inr (Or.inl h)

theorem getCriticalTypeLoop_eq (v : Nat) (s : Nat → α) (o : Nat → Int) (l : List Nat)
    (mn mx : Bool) :
    getCriticalTypeLoop v s o l mn mx =
      if mn = true ∧ ∀ u ∈ l, isLowerThan u v s o = false then -1
      else if mx = true ∧ ∀ u ∈ l, isHigherThan u v s o = false then 1 else 0 := by
  induction l generalizing mn mx with
  | nil => simp [getCriticalTypeLoop]
  | cons u l ih =>
    simp only [getCriticalTypeLoop, List.mem_cons, forall_eq_or_imp]
    cases hl : isLowerThan u v s o <;> cases hh : isHigherThan u v s o <;>
      cases mn <;> cases mx <;> simp [ih]

/-- `getCriticalType` as a function of the two "no lower / no higher neighbour" facts. -/
theorem getCriticalType_eq (nb : Nat → List Nat) (v : Nat) (s : Nat → α) (o : Nat → Int) :
    getCriticalType nb v s o =
      if ∀ u ∈ nb v, isLowerThan u v s o = false then -1
      else if ∀ u ∈ nb v, isHigherThan u v s o = false then 1 else 0 := by
  simp [getCriticalType, getCriticalTypeLoop_eq]

theorem getCriticalType_eq_neg_one (nb : Nat → List Nat) (v : Nat) (s : Nat → α)
    (o : Nat → Int) :
    getCriticalType nb v s o = -1 ↔ ∀ u ∈ nb v, isLowerThan u v s o = false := by
  rw [getCriticalType_eq]
  split_ifs <;> simp_all

theorem getCriticalType_eq_one (nb : Nat → List Nat) (v : Nat) (s : Nat → α)
    (o : Nat → Int) :
    getCriticalType nb v s o = 1 ↔
      (¬ ∀ u ∈ nb v, isLowerThan u v s o = false) ∧
        ∀ u ∈ nb v, isHigherThan u v s o = false := by
  rw [getCriticalType_eq]
  split_ifs <;> simp_all

theorem getCriticalType_lt_zero (nb : Nat → List Nat) (v : Nat) (s : Nat → α)
    (o : Nat → Int) :
    getCriticalType nb v s o < 0 ↔ getCriticalType nb v s o = -1 := by
  rw [getCriticalType_eq]
  split_ifs <;> simp

theorem getCriticalType_gt_zero (nb : Nat → List Nat) (v : Nat) (s : Nat → α)
    (o : Nat → Int) :
    getCriticalType nb v s o > 0 ↔ getCriticalType nb v s o = 1 := by
  rw [getCriticalType_eq]
  split_ifs <;> simp

/-- `getCriticalType` only looks at the order the field induces on a vertex and its
neighbours. -/
theorem getCriticalType_congr (nb : Nat → List Nat) (v : Nat) (s s' : Nat → α)
    (o o' : Nat → Int)
    (h : ∀ u ∈ nb v, isLowerThan u v s' o' = isLowerThan u v s o ∧
      isLowerThan v u s' o' = isLowerThan v u s o) :
    getCriticalType nb v s' o' = getCriticalType nb v s o := by
  have h1 : (∀ u ∈ nb v, isLowerThan u v s' o' = false) ↔
      (∀ u ∈ nb v, isLowerThan u v s o = false) :=
    forall₂_congr fun u hu => by rw [(h u hu).1]
  have h2 : (∀ u ∈ nb v, isHigherThan u v s' o' = false) ↔
      (∀ u ∈ nb v, isHigherThan u v s o = false) :=
    forall₂_congr fun u hu => by
      rw [isHigherThan_eq_isLowerThan, isHigherThan_eq_isLowerThan, (h u hu).2]
  simp only [getCriticalType_eq, h1, h2]

end Order

section Collect

theorem collectCriticalPoints_foldl (type : Nat → Int) (l : List Nat) (mn mx : List Nat) :
    l.foldl
      (fun acc k =>
        if type k < 0 then (acc.1 ++ [k], acc.2)
        else if type k > 0 then (acc.1, acc.2 ++ [k])
        else acc)
      (mn, mx) =
    (mn ++ l.filter (fun k => decide (type k < 0)),
     mx ++ l.filter (fun k => decide (type k > 0))) := by
  induction l generalizing mn mx with
  | nil => simp
  | cons k l ih =>
    rw [List.foldl_cons]
    by_cases h1 : type k < 0
    · have h2 : ¬ type k > 0 := by omega
      simp [h1, h2, ih]
    · by_cases h2 : type k > 0
      · simp [h1, h2, ih]
      · simp [h1, h2, ih]

theorem collectCriticalPoints_eq (N : Nat) (type : Nat → Int) (mn mx : List Nat) :
    collectCriticalPoints N type mn mx =
      (mn ++ (List.range N).filter (fun k => decide (type k < 0)),
       mx ++ (List.range N).filter (fun k => decide (type k > 0))) :=
  collectCriticalPoints_foldl type (List.range N) mn mx

end Collect

section Front
variable {α : Type}

theorem setEmplace_ne_nil (cmp : Triple α → Triple α → Bool) (t : Triple α)
    (f : List (Triple α)) : setEmplace cmp t f ≠ [] := by
  cases f with
  | nil => simp [setEmplace]
  | cons x xs =>
    simp only [setEmplace]
    split_ifs <;> simp

theorem mem_setEmplace {cmp : Triple α → Triple α → Bool} {t x : Triple α}
    {f : List (Triple α)} (h : x ∈ setEmplace cmp t f) : x = t ∨ x ∈ f := by
  induction f with
  | nil => simpa [setEmplace] using h
  | cons y ys ih =>
    simp only [setEmplace] at h
    split_ifs at h
    · simpa using h
    · rcases List.mem_cons.1 h with h | h
      · exact Or.inr (h ▸ List.mem_cons_self _ _)
      · rcases ih h with h | h
        · exact Or.inl h
        · exact Or.inr (List.mem_cons_of_mem _ h)
    · exact Or.inr h

theorem mem_setEmplace_of_mem {cmp : Triple α → Triple α → Bool} {t x : Triple α}
    {f : List (Triple α)} (h : x ∈ f) : x ∈ setEmplace cmp t f := by
  induction f with
  | nil => simp at h
  | cons y ys ih =>
    simp only [setEmplace]
    split_ifs
    · exact List.mem_cons_of_mem _ h
    · rcases List.mem_cons.1 h with h | h
      · exact h ▸ List.mem_cons_self _ _
      · exact List.mem_cons_of_mem _ (ih h)
    · exact h

theorem mem_frontVertices_setEmplace {cmp : Triple α → Triple α → Bool} {t : Triple α}
    {f : List (Triple α)} {v : Nat} (h : v ∈ frontVertices (setEmplace cmp t f)) :
    v = t.2.2 ∨ v ∈ frontVertices f := by
  simp only [frontVertices, List.mem_map] at h ⊢
  obtain ⟨x, hx, rfl⟩ := h
  rcases mem_setEmplace hx with h | h
  · exact Or.inl (by rw [h])
  · exact Or.inr ⟨x, h, rfl⟩

theorem nodup_frontVertices_setEmplace {cmp : Triple α → Triple α → Bool} {t : Triple α}
    {f : List (Triple α)} (hf : (frontVertices f).Nodup) (ht : t.2.2 ∉ frontVertices f) :
    (frontVertices (setEmplace cmp t f)).Nodup := by
  induction f with
  | nil => simp [setEmplace, frontVertices]
  | cons y ys ih =>
    simp only [frontVertices, List.map_cons, List.nodup_cons, List.mem_cons, not_or] at hf ht
    simp only [setEmplace]
    split_ifs
    · simp only [frontVertices, List.map_cons, List.nodup_cons, List.mem_cons, not_or]
      exact ⟨⟨ht.1, ht.2⟩, hf.1, hf.2⟩
    · have h1 := ih hf.2 ht.2
      simp only [frontVertices, List.map_cons, List.nodup_cons]
      refine ⟨?_, h1⟩
      intro hmem
      rcases mem_frontVertices_setEmplace hmem with h | h
      · exact ht.1 h.symm
      · exact hf.1 h
    · simp only [frontVertices, List.map_cons, List.nodup_cons]
      exact ⟨hf.1, hf.2⟩

theorem visitNeighbors_nil (cmp : Triple α → Triple α → Bool) (s : Nat → α) (o : Nat → Int)
    (st : List (Triple α) × (Nat → Bool)) : visitNeighbors cmp s o [] st = st := rfl

theorem visitNeighbors_cons (cmp : Triple α → Triple α → Bool) (s : Nat → α) (o : Nat → Int)
    (u : Nat) (l : List Nat) (st : List (Triple α) × (Nat → Bool)) :
    visitNeighbors cmp s o (u :: l) st =
      visitNeighbors cmp s o l
        (if !st.2 u then (setEmplace cmp (s u, o u, u) st.1, Function.update st.2 u true)
         else st) := rfl

/-- An invariant of the front and the visited marks that every single neighbour visit
keeps is kept by the whole neighbour loop. -/
theorem visitNeighbors_induct (cmp : Triple α → Triple α → Bool) (s : Nat → α)
    (o : Nat → Int) (J : List (Triple α) → (Nat → Bool) → Prop) (l : List Nat)
    (hstep : ∀ f vis u, u ∈ l → J f vis → vis u = false →
      J (setEmplace cmp (s u, o u, u) f) (Function.update vis u true))
    (st : List (Triple α) × (Nat → Bool)) (h : J st.1 st.2) :
    J (visitNeighbors cmp s o l st).1 (visitNeighbors cmp s o l st).2 := by
  induction l generalizing st with
  | nil => exact h
  | cons u l ih =>
    rw [visitNeighbors_cons]
    apply ih (fun f vis u hu => hstep f vis u (List.mem_cons_of_mem _ hu))
    cases hv : st.2 u
    · simpa [hv] using hstep st.1 st.2 u (List.mem_cons_self _ _) h hv
    · simpa [hv] using h

theorem popped_succ (seq : Nat → Nat) (pos v : Nat) :
    popped (Function.update seq pos v) (pos + 1) = popped seq pos ++ [v] := by
  unfold popped
  rw [List.range_succ, List.map_append]
  congr 1
  · apply List.map_congr_left
    intro k hk
    have : k ≠ pos := by
      have := List.mem_range.1 hk
      omega
    simp [Function.update, this]
  · simp

theorem length_popped (seq : Nat → Nat) (pos : Nat) : (popped seq pos).length = pos := by
  simp [popped]

theorem mem_popped {seq : Nat → Nat} {pos v : Nat} :
    v ∈ popped seq pos ↔ ∃ k, k < pos ∧ seq k = v := by
  simp [popped]

theorem WeakInv.bound {N : Nat} {f : List (Triple α)} {vis : Nat → Bool} {seq : Nat → Nat}
    {pos : Nat} (h : WeakInv N f vis seq pos) : pos + f.length ≤ N := by
  have h1 : (popped seq pos ++ frontVertices f) ⊆ List.range N := by
    intro v hv
    exact List.mem_range.2 (h.mem v hv).1
  have h2 := (List.Nodup.subperm h.nodup h1).length_le
  simpa [length_popped, frontVertices] using h2

/-- One execution of the body of the growth loop keeps the weak invariant. -/
theorem WeakInv.step {N : Nat} {nb : Nat → List Nat} (hnb : InRange N nb)
    (cmp : Triple α → Triple α → Bool) (s : Nat → α) (o : Nat → Int)
    {t : Triple α} {rest : List (Triple α)} {vis : Nat → Bool} {seq : Nat → Nat} {pos : Nat}
    (h : WeakInv N (t :: rest) vis seq pos) :
    WeakInv N (visitNeighbors cmp s o (nb t.2.2) (rest, vis)).1
      (visitNeighbors cmp s o (nb t.2.2) (rest, vis)).2
      (Function.update seq pos t.2.2) (pos + 1) := by
  have ht : t.2.2 < N := (h.mem t.2.2 (by simp [frontVertices])).1
  have hJ := visitNeighbors_induct cmp s o
    (fun f vis' => (popped seq pos ++ [t.2.2] ++ frontVertices f).Nodup ∧
      ∀ v ∈ popped seq pos ++ [t.2.2] ++ frontVertices f, v < N ∧ vis' v = true)
    (nb t.2.2) ?_ (rest, vis) ?_
  · refine ⟨?_, ?_, ?_⟩
    · rw [popped_succ]; exact hJ.1
    · rw [popped_succ]; exact hJ.2
    · intro k hk
      have : k ≠ pos := by omega
      rw [Function.update_noteq this]
      exact h.zero k (by omega)
  · intro f vis' u hu ⟨hnd, hmem⟩ hvu
    have hu' : u ∉ popped seq pos ++ [t.2.2] ++ frontVertices f := by
      intro hc
      have := (hmem u hc).2
      rw [hvu] at this
      exact Bool.false_ne_true this
    rw [List.mem_append, not_or] at hu'
    constructor
    · rw [List.nodup_append] at hnd ⊢
      refine ⟨hnd.1, nodup_frontVertices_setEmplace hnd.2.1 hu'.2, ?_⟩
      intro x hx1 hx2
      rcases mem_frontVertices_setEmplace hx2 with hx | hx
      · exact hu'.1 (by simpa [hx] using hx1)
      · exact hnd.2.2 hx1 hx
    · intro v hv
      rw [List.mem_append] at hv
      by_cases hvu' : v = u
      · subst hvu'
        exact ⟨hnb _ ht _ hu, by simp⟩
      · rw [Function.update_noteq hvu']
        rcases hv with hv | hv
        · exact hmem v (List.mem_append_left _ hv)
        · rcases mem_frontVertices_setEmplace hv with hv | hv
          · exact absurd hv hvu'
          · exact hmem v (List.mem_append_right _ hv)
  · have hnd := h.nodup
    have hm := h.mem
    simp only [frontVertices, List.map_cons] at hnd hm
    constructor
    · simpa [frontVertices, List.append_assoc] using hnd
    · intro v hv
      apply hm
      simpa [frontVertices, List.append_assoc] using hv

end Front

section Growth
variable {α : Type}

/-- Hoare rule of the growth loop: an invariant that bounds the loop and is kept by its
body holds when the loop ends, and the loop does end within the fuel. -/
theorem growthLoop_induct (cmp : Triple α → Triple α → Bool) (nb : Nat → List Nat)
    (s : Nat → α) (o : Nat → Int) (N : Nat)
    (Inv : List (Triple α) → (Nat → Bool) → (Nat → Nat) → Nat → Prop)
    (hbound : ∀ f vis seq pos, Inv f vis seq pos → pos + f.length ≤ N)
    (hstep : ∀ t rest vis seq pos, Inv (t :: rest) vis seq pos →
      Inv (visitNeighbors cmp s o (nb t.2.2) (rest, vis)).1
        (visitNeighbors cmp s o (nb t.2.2) (rest, vis)).2
        (Function.update seq pos t.2.2) (pos + 1))
    (fuel : Nat) (f : List (Triple α)) (vis : Nat → Bool) (seq : Nat → Nat) (pos : Nat)
    (h : Inv f vis seq pos) (hne : f ≠ []) (hfuel : N ≤ fuel + pos) :
    ∃ vis' seq' pos', growthLoop cmp nb s o fuel f vis seq pos = Growth.done seq' pos' ∧
      Inv [] vis' seq' pos' := by
  induction fuel generalizing f vis seq pos with
  | zero =>
    have := hbound f vis seq pos h
    cases f with
    | nil => exact absurd rfl hne
    | cons t rest => simp at this; omega
  | succ fuel ih =>
    cases f with
    | nil => exact absurd rfl hne
    | cons t rest =>
      have h' := hstep t rest vis seq pos h
      simp only [growthLoop]
      by_cases he : (visitNeighbors cmp s o (nb t.2.2) (rest, vis)).1 = []
      · refine ⟨(visitNeighbors cmp s o (nb t.2.2) (rest, vis)).2,
          Function.update seq pos t.2.2, pos + 1, ?_, ?_⟩
        · rw [if_pos (by simp [he])]
        · rw [he] at h'; exact h'
      · rw [if_neg (by simpa using he)]
        exact ih _ _ _ _ h' he (by omega)

theorem growthLoop_nil (cmp : Triple α → Triple α → Bool) (nb : Nat → List Nat)
    (s : Nat → α) (o : Nat → Int) (fuel : Nat) (vis : Nat → Bool) (seq : Nat → Nat)
    (pos : Nat) :
    growthLoop cmp nb s o (fuel + 1) [] vis seq pos = Growth.emptyFront := rfl

theorem addSeeds_nil (cmp : Triple α → Triple α → Bool) (s : Nat → α) (o : Nat → Int)
    (st : (Nat → Bool) × List (Triple α) × (Nat → Bool)) : addSeeds cmp s o [] st = st := rfl

theorem addSeeds_cons (cmp : Triple α → Triple α → Bool) (s : Nat → α) (o : Nat → Int)
    (k : Nat) (l : List Nat) (st : (Nat → Bool) × List (Triple α) × (Nat → Bool)) :
    addSeeds cmp s o (k :: l) st =
      addSeeds cmp s o l
        (Function.update st.1 k true, setEmplace cmp (s k, o k, k) st.2.1,
          Function.update st.2.2 k true) := rfl

theorem addSeeds_front_ne_nil (cmp : Triple α → Triple α → Bool) (s : Nat → α)
    (o : Nat → Int) (l : List Nat) (st : (Nat → Bool) × List (Triple α) × (Nat → Bool))
    (h : l ≠ [] ∨ st.2.1 ≠ []) : (addSeeds cmp s o l st).2.1 ≠ [] := by
  induction l generalizing st with
  | nil => simpa using h
  | cons k l ih =>
    rw [addSeeds_cons]
    exact ih _ (Or.inr (setEmplace_ne_nil _ _ _))

theorem addSeeds_marks (cmp : Triple α → Triple α → Bool) (s : Nat → α)
    (o : Nat → Int) (l : List Nat) (st : (Nat → Bool) × List (Triple α) × (Nat → Bool))
    (v : Nat) :
    (addSeeds cmp s o l st).1 v = (st.1 v || decide (v ∈ l)) ∧
      (addSeeds cmp s o l st).2.2 v = (st.2.2 v || decide (v ∈ l)) := by
  induction l generalizing st with
  | nil => simp [addSeeds_nil]
  | cons k l ih =>
    rw [addSeeds_cons]
    have := ih (Function.update st.1 k true, setEmplace cmp (s k, o k, k) st.2.1,
          Function.update st.2.2 k true)
    rw [this.1, this.2]
    by_cases hvk : v = k
    · subst hvk; simp
    · simp [Function.update_noteq hvk, hvk]

theorem addSeeds_weak (cmp : Triple α → Triple α → Bool) (s : Nat → α) (o : Nat → Int)
    (N : Nat) (l : List Nat) (st : (Nat → Bool) × List (Triple α) × (Nat → Bool))
    (hnd : (frontVertices st.2.1).Nodup)
    (hmem : ∀ v ∈ frontVertices st.2.1, v < N ∧ st.2.2 v = true)
    (hl : l.Nodup) (hl' : ∀ k ∈ l, k < N ∧ st.2.2 k = false) :
    (frontVertices (addSeeds cmp s o l st).2.1).Nodup ∧
      ∀ v ∈ frontVertices (addSeeds cmp s o l st).2.1,
        v < N ∧ (addSeeds cmp s o l st).2.2 v = true := by
  induction l generalizing st with
  | nil => exact ⟨hnd, hmem⟩
  | cons k l ih =>
    rw [addSeeds_cons]
    have hk := hl' k (List.mem_cons_self _ _)
    have hkf : k ∉ frontVertices st.2.1 := by
      intro hc
      have := (hmem k hc).2
      rw [hk.2] at this
      exact Bool.false_ne_true this
    rw [List.nodup_cons] at hl
    apply ih
    · exact nodup_frontVertices_setEmplace hnd hkf
    · intro v hv
      by_cases hvk : v = k
      · subst hvk; exact ⟨hk.1, by simp⟩
      · simp only [Function.update_noteq hvk]
        rcases mem_frontVertices_setEmplace hv with hv | hv
        · exact absurd hv hvk
        · exact hmem v hv
    · exact hl.2
    · intro k' hk'
      have hne : k' ≠ k := fun hc => hl.1 (hc ▸ hk')
      simp only [Function.update_noteq hne]
      exact hl' k' (List.mem_cons_of_mem _ hk')

theorem popped_zero (seq : Nat → Nat) : popped seq 0 = [] := rfl

/-- After the seed loop the growth loop starts from a state with the weak invariant. -/
theorem addSeeds_weakInv (cmp : Triple α → Triple α → Bool) (s : Nat → α) (o : Nat → Int)
    (N : Nat) (seeds : List Nat) (ae : Nat → Bool) (hl : seeds.Nodup)
    (hl' : ∀ k ∈ seeds, k < N) :
    WeakInv N (addSeeds cmp s o seeds (ae, [], fun _ => false)).2.1
      (addSeeds cmp s o seeds (ae, [], fun _ => false)).2.2 (fun _ => 0) 0 := by
  have h := addSeeds_weak cmp s o N seeds (ae, [], fun _ => false)
    (by simp [frontVertices]) (by simp [frontVertices]) hl
    (fun k hk => ⟨hl' k hk, rfl⟩)
  refine ⟨?_, ?_, fun _ _ => rfl⟩
  · simpa [popped_zero] using h.1
  · simpa [popped_zero] using h.2

/-- The growth loop of a pass, for every field: with a non-empty front it ends through its
`while` test after at most `vertexNumber` executions of the body, with the weak invariant. -/
theorem growthLoop_weak {N : Nat} {nb : Nat → List Nat} (hnb : InRange N nb)
    (cmp : Triple α → Triple α → Bool) (s : Nat → α) (o : Nat → Int)
    (f : List (Triple α)) (vis : Nat → Bool) (h : WeakInv N f vis (fun _ => 0) 0)
    (hne : f ≠ []) :
    ∃ vis' seq' pos', growthLoop cmp nb s o N f vis (fun _ => 0) 0 = Growth.done seq' pos' ∧
      WeakInv (α := α) N [] vis' seq' pos' :=
  growthLoop_induct cmp nb s o N (WeakInv N) (fun _ _ _ _ h => h.bound)
    (fun _ _ _ _ _ h => h.step hnb cmp s o) N f vis _ 0 h hne (by omega)

theorem WeakInv.seq_lt {N : Nat} {vis : Nat → Bool} {seq : Nat → Nat} {pos : Nat}
    (h : WeakInv (α := α) N [] vis seq pos) (hN : 0 < N) (k : Nat) : seq k < N := by
  by_cases hk : k < pos
  · exact (h.mem _ (List.mem_append_left _ (mem_popped.2 ⟨k, hk, rfl⟩))).1
  · rw [h.zero k (by omega)]; exact hN

theorem WeakInv.pos_le {N : Nat} {vis : Nat → Bool} {seq : Nat → Nat} {pos : Nat}
    (h : WeakInv (α := α) N [] vis seq pos) : pos ≤ N := by
  simpa using h.bound

end Growth

section Rewrite
variable {α : Type} [LinearOrder α]

theorem foldl_range_succ {β : Type} (f : β → Nat → β) (init : β) (n : Nat) :
    (List.range (n + 1)).foldl f init = f ((List.range n).foldl f init) n := by
  rw [List.range_succ, List.foldl_append]
  rfl

theorem rewriteStep_scalars (dir : Bool) (seq : Nat → Nat)
    (st : (Nat → α) × (Nat → Int) × Int) (k i : Nat) :
    (rewriteStep dir seq st k).1 i = st.1 i ∨
      (k ≠ 0 ∧ (rewriteStep dir seq st k).1 i = st.1 (seq (k - 1))) := by
  unfold rewriteStep
  cases dir
  · simp only [Bool.false_eq_true, if_false]
    split_ifs with h
    · by_cases hi : i = seq k
      · right; subst hi; exact ⟨h.1, by simp⟩
      · left; simp [Function.update_noteq hi]
    · left; rfl
  · simp only [if_true]
    split_ifs with h
    · by_cases hi : i = seq k
      · right; subst hi; exact ⟨h.1, by simp⟩
      · left; simp [Function.update_noteq hi]
    · left; rfl

/-- Value closure of the rewrite: every scalar of a vertex after the loop is the scalar
some vertex had before it. -/
theorem rewrite_closure (N : Nat) (dir : Bool) (seq : Nat → Nat) (s : Nat → α)
    (o : Nat → Int) (hseq : ∀ k, k < N → seq k < N) (i : Nat) (hi : i < N) :
    ∃ j, j < N ∧ (rewrite N dir seq s o).1 i = s j := by
  have key : ∀ n, n ≤ N → ∀ i, i < N → ∃ j, j < N ∧
      ((List.range n).foldl (rewriteStep dir seq)
        (s, o, if dir then 0 else (N : Int) + 1)).1 i = s j := by
    intro n
    induction n with
    | zero => intro _ i hi; exact ⟨i, hi, rfl⟩
    | succ n ih =>
      intro hn i hi
      rw [foldl_range_succ]
      rcases rewriteStep_scalars dir seq
        ((List.range n).foldl (rewriteStep dir seq) (s, o, if dir then 0 else (N : Int) + 1))
        n i with h | ⟨hn0, h⟩
      · rw [h]; exact ih (by omega) i hi
      · rw [h]; exact ih (by omega) _ (hseq _ (by omega))
  exact key N le_rfl i hi

end Rewrite

section PassWeak
variable {α : Type} [LinearOrder α]

theorem regionGrowPass_of_done (N : Nat) (nb : Nat → List Nat) (dir : Bool)
    (seeds : List Nat) (ae : Nat → Bool) (s : Nat → α) (o : Nat → Int) (seq : Nat → Nat)
    (pos : Nat)
    (h : growthLoop (SweepCmp dir) nb s o N
      (addSeeds (SweepCmp dir) s o seeds (ae, [], fun _ => false)).2.1
      (addSeeds (SweepCmp dir) s o seeds (ae, [], fun _ => false)).2.2 (fun _ => 0) 0
        = Growth.done seq pos) :
    regionGrowPass N nb dir seeds ae s o =
      Pass.done (addSeeds (SweepCmp dir) s o seeds (ae, [], fun _ => false)).1 seq pos
        (rewrite N dir seq s o).1 (rewrite N dir seq s o).2 := by
  simp only [regionGrowPass, h]

theorem regionGrowPass_nil (N : Nat) (nb : Nat → List Nat) (dir : Bool)
    (ae : Nat → Bool) (s : Nat → α) (o : Nat → Int) (hN : 0 < N) :
    regionGrowPass N nb dir [] ae s o = Pass.emptyFront ae := by
  obtain ⟨n, rfl⟩ := Nat.exists_eq_succ_of_ne_zero (Nat.pos_iff_ne_zero.1 hN)
  simp only [regionGrowPass, addSeeds_nil, growthLoop_nil]

/-- A pass with a non-empty seed list completes, for every field: the growth loop ends
through its `while` test and the rewrite runs. -/
theorem regionGrowPass_weak {N : Nat} {nb : Nat → List Nat} (hnb : InRange N nb)
    (dir : Bool) (seeds : List Nat) (ae : Nat → Bool) (s : Nat → α) (o : Nat → Int)
    (hnd : seeds.Nodup) (hlt : ∀ k ∈ seeds, k < N) (hne : seeds ≠ []) :
    ∃ vis seq pos, regionGrowPass N nb dir seeds ae s o =
      Pass.done (addSeeds (SweepCmp dir) s o seeds (ae, [], fun _ => false)).1 seq pos
        (rewrite N dir seq s o).1 (rewrite N dir seq s o).2 ∧
      WeakInv (α := α) N [] vis seq pos := by
  obtain ⟨vis, seq, pos, h1, h2⟩ := growthLoop_weak hnb (SweepCmp dir) s o _ _
    (addSeeds_weakInv (SweepCmp dir) s o N seeds ae hnd hlt)
    (addSeeds_front_ne_nil (SweepCmp dir) s o seeds _ (Or.inl hne))
  exact ⟨vis, seq, pos, regionGrowPass_of_done N nb dir seeds ae s o seq pos h1, h2⟩

end PassWeak

section Authorized
variable {α : Type} [LinearOrder α]

theorem getCriticalPoints_nil (N : Nat) (nb : Nat → List Nat) (s : Nat → α) (o : Nat → Int) :
    getCriticalPoints N nb s o [] [] =
      ((List.range N).filter (fun k => decide (getCriticalType nb k s o = -1)),
       (List.range N).filter (fun k => decide (getCriticalType nb k s o = 1))) := by
  simp only [getCriticalPoints, collectCriticalPoints_eq, List.nil_append,
    getCriticalType_lt_zero, getCriticalType_gt_zero]

theorem getCriticalPointsMasked_nil (N : Nat) (nb : Nat → List Nat) (bl : Bool)
    (s : Nat → α) (o : Nat → Int) (extrema : Nat → Bool) :
    getCriticalPointsMasked N nb bl s o [] [] extrema =
      ((List.range N).filter
        (fun k => xor bl (extrema k) && decide (getCriticalType nb k s o = -1)),
       (List.range N).filter
        (fun k => xor bl (extrema k) && decide (getCriticalType nb k s o = 1))) := by
  simp only [getCriticalPointsMasked, collectCriticalPoints_eq, List.nil_append]
  congr 1
  · apply List.filter_congr
    intro k _
    cases xor bl (extrema k)
    · simp
    · simp [getCriticalType_lt_zero]
  · apply List.filter_congr
    intro k _
    cases xor bl (extrema k)
    · simp
    · simp [getCriticalType_gt_zero]

theorem nodup_filter_range (N : Nat) (p : Nat → Bool) : ((List.range N).filter p).Nodup :=
  (List.nodup_range N).filter _

theorem lt_of_mem_filter_range {N k : Nat} {p : Nat → Bool}
    (h : k ∈ (List.range N).filter p) : k < N :=
  List.mem_range.1 (List.mem_filter.1 h).1

end Authorized

section Main
variable {α : Type} [LinearOrder α] [Add α]

theorem mainLoop_zero (N : Nat) (nb : Nat → List Nat) (pf : Bool) (eps : Option α)
    (A B : List Nat) (ae : Nat → Bool) (s : Nat → α) (o : Nat → Int) (it : Nat)
    (need : Bool) :
    mainLoop N nb pf eps A B 0 ae s o it need = some ⟨0, s, o, it, need⟩ := rfl

theorem mainLoop_emptyMin (N : Nat) (nb : Nat → List Nat) (pf : Bool) (eps : Option α)
    (B : List Nat) (rem : Nat) (ae : Nat → Bool) (s : Nat → α) (o : Nat → Int) (it : Nat)
    (need : Bool) (hN : 0 < N) (hrem : 0 < rem) :
    mainLoop N nb pf eps [] B rem ae s o it need = some ⟨-1, s, o, it, need⟩ := by
  obtain ⟨rem, rfl⟩ := Nat.exists_eq_succ_of_ne_zero (Nat.pos_iff_ne_zero.1 hrem)
  simp only [mainLoop, regionGrowPass_nil N nb true ae s o hN]

theorem mainLoop_emptyMax (N : Nat) (nb : Nat → List Nat) (pf : Bool) (eps : Option α)
    (A : List Nat) (rem : Nat) (ae : Nat → Bool) (s : Nat → α) (o : Nat → Int) (it : Nat)
    (need : Bool) (hN : 0 < N) (hrem : 0 < rem) {ae1 : Nat → Bool} {seq1 : Nat → Nat}
    {pos1 : Nat} {s1 : Nat → α} {o1 : Nat → Int}
    (h1 : regionGrowPass N nb true A ae s o = Pass.done ae1 seq1 pos1 s1 o1) :
    mainLoop N nb pf eps A [] rem ae s o it need = some ⟨-1, s1, o1, it, need⟩ := by
  obtain ⟨rem, rfl⟩ := Nat.exists_eq_succ_of_ne_zero (Nat.pos_iff_ne_zero.1 hrem)
  simp only [mainLoop, h1, regionGrowPass_nil N nb false ae1 s1 o1 hN]

theorem mainLoop_step (N : Nat) (nb : Nat → List Nat) (pf : Bool) (eps : Option α)
    (A B : List Nat) (rem : Nat) (ae : Nat → Bool) (s : Nat → α) (o : Nat → Int) (it : Nat)
    (need : Bool) {ae1 ae2 : Nat → Bool} {seq1 seq2 : Nat → Nat} {pos1 pos2 : Nat}
    {s1 s2 : Nat → α} {o1 o2 : Nat → Int}
    (h1 : regionGrowPass N nb true A ae s o = Pass.done ae1 seq1 pos1 s1 o1)
    (h2 : regionGrowPass N nb false B ae1 s1 o1 = Pass.done ae2 seq2 pos2 s2 o2) :
    mainLoop N nb pf eps A B (rem + 1) ae s o it need =
      if testConvergence A B (getCriticalPoints N nb s2 o2 [] []).1
          (getCriticalPoints N nb s2 o2 [] []).2 ae2 = false then
        some ⟨0, if pf then (addPerturbation N eps s2 o2).2 else s2, o2, it + 1,
          testConvergence A B (getCriticalPoints N nb s2 o2 [] []).1
            (getCriticalPoints N nb s2 o2 [] []).2 ae2⟩
      else
        mainLoop N nb pf eps A B rem ae2 (if pf then (addPerturbation N eps s2 o2).2 else s2)
          o2 (it + 1)
          (testConvergence A B (getCriticalPoints N nb s2 o2 [] []).1
            (getCriticalPoints N nb s2 o2 [] []).2 ae2) := by
  simp only [mainLoop, h1, h2]
  cases testConvergence A B (getCriticalPoints N nb s2 o2 [] []).1
          (getCriticalPoints N nb s2 o2 [] []).2 ae2 <;> simp

/-- Hoare rule of the main loop when both passes complete in every iteration: an
invariant of the loop head holds of the returned state, and the status is 0. -/
theorem mainLoop_induct (N : Nat) (nb : Nat → List Nat) (pf : Bool) (eps : Option α)
    (A B : List Nat)
    (I : (Nat → Bool) → (Nat → α) → (Nat → Int) → Nat → Bool → Prop)
    (hstep : ∀ ae s o it need, I ae s o it need →
      ∃ ae1 seq1 pos1 s1 o1 ae2 seq2 pos2 s2 o2,
        regionGrowPass N nb true A ae s o = Pass.done ae1 seq1 pos1 s1 o1 ∧
        regionGrowPass N nb false B ae1 s1 o1 = Pass.done ae2 seq2 pos2 s2 o2 ∧
        I ae2 (if pf then (addPerturbation N eps s2 o2).2 else s2) o2 (it + 1)
          (testConvergence A B (getCriticalPoints N nb s2 o2 [] []).1
            (getCriticalPoints N nb s2 o2 [] []).2 ae2))
    (rem : Nat) (ae : Nat → Bool) (s : Nat → α) (o : Nat → Int) (it : Nat) (need : Bool)
    (h : I ae s o it need) :
    ∃ r ae', mainLoop N nb pf eps A B rem ae s o it need = some r ∧ r.status = 0 ∧
      I ae' r.scalars r.offsets r.iteration r.needForMoreIterations ∧
      (r.needForMoreIterations = false ∨ (r.needForMoreIterations = need ∧ rem = 0) ∨
        (r.needForMoreIterations = true ∧ r.iteration = it + rem)) ∧
      it ≤ r.iteration ∧ r.iteration ≤ it + rem ∧ (0 < rem → it < r.iteration) := by
  induction rem generalizing ae s o it need with
  | zero =>
    exact ⟨_, ae, mainLoop_zero N nb pf eps A B ae s o it need, rfl, h,
      Or.inr (Or.inl ⟨rfl, rfl⟩), le_rfl, le_rfl, fun h => absurd h (lt_irrefl _)⟩
  | succ rem ih =>
    obtain ⟨ae1, seq1, pos1, s1, o1, ae2, seq2, pos2, s2, o2, h1, h2, h3⟩ :=
      hstep ae s o it need h
    rw [mainLoop_step N nb pf eps A B rem ae s o it need h1 h2]
    by_cases hc : testConvergence A B (getCriticalPoints N nb s2 o2 [] []).1
          (getCriticalPoints N nb s2 o2 [] []).2 ae2 = false
    · rw [if_pos hc]
      refine ⟨_, ae2, rfl, rfl, h3, Or.inl hc, ?_, ?_, ?_⟩
      · show it ≤ it + 1
        omega
      · show it + 1 ≤ it + (rem + 1)
        omega
      · intro _
        show it < it + 1
        omega
    · rw [if_neg hc]
      obtain ⟨r, ae', hr, hs, hI, hx, hle, hle', _⟩ := ih ae2 _ o2 (it + 1) _ h3
      refine ⟨r, ae', hr, hs, hI, ?_, by omega, by omega, fun _ => by omega⟩
      rcases hx with hx | ⟨hx, hx'⟩ | ⟨hx, hx'⟩
      · exact Or.inl hx
      · right; right
        rw [hx]
        subst hx'
        refine ⟨by simpa using hc, ?_⟩
        rw [mainLoop_zero] at hr
        cases hr
        show it + 1 = it + (0 + 1)
        omega
      · exact Or.inr (Or.inr ⟨hx, by omega⟩)

end Main

section ExecWeak
variable {α : Type} [LinearOrder α] [Zero α]

theorem authorized_eq (N : Nat) (nb : Nat → List Nat) (bl : Bool)
    (inS : Nat → Option α) (inO : Nat → Int) (ids : List Int) :
    authorized N nb bl inS inO ids =
      ((List.range N).filter (fun k => xor bl (userExtrema N ids k) &&
          decide (getCriticalType nb k (preprocessScalars inS) (preprocessOffsets inO)
            = -1)),
       (List.range N).filter (fun k => xor bl (userExtrema N ids k) &&
          decide (getCriticalType nb k (preprocessScalars inS) (preprocessOffsets inO)
            = 1))) := by
  simp only [authorized, preprocess, getCriticalPointsMasked_nil]

theorem authorized_nodup (N : Nat) (nb : Nat → List Nat) (bl : Bool)
    (inS : Nat → Option α) (inO : Nat → Int) (ids : List Int) :
    (authorized N nb bl inS inO ids).1.Nodup ∧ (authorized N nb bl inS inO ids).2.Nodup := by
  rw [authorized_eq]
  exact ⟨nodup_filter_range _ _, nodup_filter_range _ _⟩

theorem authorized_lt (N : Nat) (nb : Nat → List Nat) (bl : Bool)
    (inS : Nat → Option α) (inO : Nat → Int) (ids : List Int) :
    (∀ k ∈ (authorized N nb bl inS inO ids).1, k < N) ∧
      (∀ k ∈ (authorized N nb bl inS inO ids).2, k < N) := by
  rw [authorized_eq]
  exact ⟨fun k hk => lt_of_mem_filter_range hk, fun k hk => lt_of_mem_filter_range hk⟩

variable [Add α]

theorem execute_eq (N : Nat) (nb : Nat → List Nat) (bl pf : Bool) (eps : Option α)
    (inS : Nat → Option α) (inO : Nat → Int) (ids : List Int) :
    execute N nb bl pf eps inS inO ids =
      mainLoop N nb pf eps (authorized N nb bl inS inO ids).1
        (authorized N nb bl inS inO ids).2 N (fun _ => false) (preprocessScalars inS)
        (preprocessOffsets inO) 0 true := rfl

/-- What `execute` does on every input with in-range neighbour ids: it returns; the status
is -1 exactly when a seed list is empty (and the loop runs); a predicate on the scalars
that the rewrite and the perturbation step keep holds of the output. -/
theorem execute_weak {N : Nat} {nb : Nat → List Nat} (hnb : InRange N nb) (bl pf : Bool)
    (eps : Option α) (inS : Nat → Option α) (inO : Nat → Int) (ids : List Int)
    (Q : Nat → (Nat → α) → Prop) (hQ0 : Q 0 (preprocessScalars inS))
    (hrw : ∀ it dir seq s o, Q it s → (∀ k, seq k < N) → Q it (rewrite N dir seq s o).1)
    (hpert : ∀ it s o, Q it s →
      Q (it + 1) (if pf then (addPerturbation N eps s o).2 else s)) :
    ∃ r, execute N nb bl pf eps inS inO ids = some r ∧ Q r.iteration r.scalars ∧
      (r.status = -1 ↔ 0 < N ∧ ((authorized N nb bl inS inO ids).1 = [] ∨
        (authorized N nb bl inS inO ids).2 = [])) ∧
      (r.status = 0 ∨ r.status = -1) ∧
      ((authorized N nb bl inS inO ids).1 = [] →
        r.scalars = preprocessScalars inS ∧ r.offsets = preprocessOffsets inO) ∧
      (r.status = -1 → r.iteration = 0 ∧ r.needForMoreIterations = true) ∧
      r.iteration ≤ N ∧ (r.status = 0 → 0 < N → 0 < r.iteration) ∧
      (r.needForMoreIterations = true → r.status = 0 → r.iteration = N) := by
  rw [execute_eq]
  generalize hA : (authorized N nb bl inS inO ids).1 = A
  generalize hB : (authorized N nb bl inS inO ids).2 = B
  have hAnd : A.Nodup := hA ▸ (authorized_nodup N nb bl inS inO ids).1
  have hBnd : B.Nodup := hB ▸ (authorized_nodup N nb bl inS inO ids).2
  have hAlt : ∀ k ∈ A, k < N := hA ▸ (authorized_lt N nb bl inS inO ids).1
  have hBlt : ∀ k ∈ B, k < N := hB ▸ (authorized_lt N nb bl inS inO ids).2
  rcases Nat.eq_zero_or_pos N with hN | hN
  · subst hN
    refine ⟨_, mainLoop_zero _ _ _ _ _ _ _ _ _ _ _, hQ0, ?_, Or.inl rfl, fun _ => ⟨rfl, rfl⟩,
      ?_, le_rfl, ?_, fun _ _ => rfl⟩
    · simp
    · intro h; simp at h
    · intro _ h; exact absurd h (lt_irrefl _)
  by_cases hAe : A = []
  · subst hAe
    refine ⟨⟨-1, preprocessScalars inS, preprocessOffsets inO, 0, true⟩, ?_, hQ0, ?_, Or.inr rfl,
      fun _ => ⟨rfl, rfl⟩, fun _ => ⟨rfl, rfl⟩, Nat.zero_le _, ?_, ?_⟩
    · rw [mainLoop_emptyMin _ _ _ _ _ _ _ _ _ _ _ hN hN]
    · simp [hN]
    · intro h; simp at h
    · intro _ h; simp at h
  obtain ⟨vis1, seq1, pos1, hp1, hw1⟩ :=
    regionGrowPass_weak hnb true A (fun _ => false) (preprocessScalars inS) (preprocessOffsets inO) hAnd hAlt hAe
  by_cases hBe : B = []
  · subst hBe
    refine ⟨⟨-1, (rewrite N true seq1 (preprocessScalars inS) (preprocessOffsets inO)).1,
      (rewrite N true seq1 (preprocessScalars inS) (preprocessOffsets inO)).2, 0, true⟩, ?_, ?_, ?_, Or.inr rfl,
      fun h => absurd h hAe, fun _ => ⟨rfl, rfl⟩, Nat.zero_le _, ?_, ?_⟩
    · rw [mainLoop_emptyMax _ _ _ _ _ _ _ _ _ _ _ hN hN hp1]
    · exact hrw 0 true seq1 _ _ hQ0 (hw1.seq_lt hN)
    · simp [hN]
    · intro h; simp at h
    · intro _ h; simp at h
  obtain ⟨r, ae', hr, hs, hI, hx, _, hle, hpos⟩ := mainLoop_induct N nb pf eps A B
    (fun _ s _ it _ => Q it s) (by
      intro ae s o it need hq
      obtain ⟨vis1, seq1, pos1, hp1, hw1⟩ := regionGrowPass_weak hnb true A ae s o hAnd hAlt hAe
      obtain ⟨vis2, seq2, pos2, hp2, hw2⟩ := regionGrowPass_weak hnb false B
        (addSeeds (SweepCmp true) s o A (ae, [], fun _ => false)).1
        (rewrite N true seq1 s o).1 (rewrite N true seq1 s o).2 hBnd hBlt hBe
      refine ⟨_, _, _, _, _, _, _, _, _, _, hp1, hp2, ?_⟩
      apply hpert
      apply hrw _ _ _ _ _ _ (hw2.seq_lt hN)
      exact hrw _ _ _ _ _ hq (hw1.seq_lt hN))
    N (fun _ => false) (preprocessScalars inS) (preprocessOffsets inO) 0 true hQ0
  refine ⟨r, hr, hI, ?_, Or.inl hs, fun h => absurd h hAe, ?_, by omega, fun _ _ => hpos hN, ?_⟩
  · rw [hs]; simp [hAe, hBe]
  · intro h; rw [hs] at h; simp at h
  · intro hneed _
    rcases hx with hx | ⟨_, hx⟩ | ⟨_, hx⟩
    · rw [hx] at hneed; simp at hneed
    · omega
    · omega

end ExecWeak

section Claims
variable {α : Type} [LinearOrder α] [Add α] [Zero α]

/-- C6 (as written) fails for an `idType` wider than `SimplexId`: the pre-processing
stores the input offset `2^32` as 0. -/
theorem C6_offset_copy_counterexample :
    (preprocess (fun _ => some (0 : Int)) (fun _ => 4294967296)).2 0 = 0 ∧
    (preprocess (fun _ => some (0 : Int)) (fun _ => 4294967296)).2 0 ≠
      (fun _ : Nat => (4294967296 : Int)) 0 := by
  decide

/-- C6 (amended). Value closure and NaN removal. Pre-processing sets output scalar `k` to
0 when the input scalar `k` is `NaN` (`none`) and to the input scalar otherwise, and output
offset `k` to input offset `k` converted to `SimplexId`, which is input offset `k` when
that fits in 32 bits. With `addPerturbation` disabled and neighbour ids in range,
`execute` returns, and every output scalar of a vertex is the pre-processed scalar of some
vertex: no output scalar is `NaN`. -/
theorem C6_value_closure {N : Nat} {nb : Nat → List Nat} (hnb : InRange N nb) (bl : Bool)
    (eps : Option α) (inS : Nat → Option α) (inO : Nat → Int) (ids : List Int) :
    (∀ k, (inS k = none → (preprocess inS inO).1 k = 0) ∧
      (∀ x, inS k = some x → (preprocess inS inO).1 k = x) ∧
      (preprocess inS inO).2 k = toSimplexId (inO k) ∧
      (-2147483648 ≤ inO k → inO k < 2147483648 → (preprocess inS inO).2 k = inO k)) ∧
    ∃ r, execute N nb bl false eps inS inO ids = some r ∧
      ∀ i, i < N → ∃ j, j < N ∧ r.scalars i = (preprocess inS inO).1 j := by
  constructor
  · intro k
    refine ⟨fun h => ?_, fun x h => ?_, rfl, fun h1 h2 => toSimplexId_of_range h1 h2⟩
    · simp [preprocess, preprocessScalars, h]
    · simp [preprocess, preprocessScalars, h]
  · obtain ⟨r, hr, hQ, _⟩ := execute_weak hnb bl false eps inS inO ids
      (fun _ s => ∀ i, i < N → ∃ j, j < N ∧ s i = preprocessScalars inS j)
      (fun i hi => ⟨i, hi, rfl⟩)
      (fun it dir seq s o hq hseq i hi => by
        obtain ⟨j, hj, hj2⟩ := rewrite_closure N dir seq s o (fun k _ => hseq k) i hi
        obtain ⟨j3, hj3, hj4⟩ := hq j hj
        exact ⟨j3, hj3, hj2.trans hj4⟩)
      (fun it s o hq => by simpa using hq)
    exact ⟨r, hr, hQ⟩

/-- C6 amended, at the path 0 - 1 - 2 - 3 with input scalars `[0, NaN, 1, 7]`, offsets
`[0, 1, 2, 3]` and the whitelist `[0, 1, 3]`: `execute` returns 0 after rewriting. -/
theorem C6_value_closure_witness :
    InRange 4 chain4 ∧
    (execute 4 chain4 false false none (fieldOf none [some (0 : Int), none, some 1, some 7])
      (fieldOf 0 [0, 1, 2, 3]) [0, 1, 3]).map (fun r => r.status) = some 0 ∧
    (∀ k, (fieldOf none [some (0 : Int), none, some 1, some 7] k = none →
        (preprocess (fieldOf none [some (0 : Int), none, some 1, some 7])
          (fieldOf 0 [0, 1, 2, 3])).1 k = 0) ∧
      (∀ x, fieldOf none [some (0 : Int), none, some 1, some 7] k = some x →
        (preprocess (fieldOf none [some (0 : Int), none, some 1, some 7])
          (fieldOf 0 [0, 1, 2, 3])).1 k = x) ∧
      (preprocess (fieldOf none [some (0 : Int), none, some 1, some 7])
        (fieldOf 0 [0, 1, 2, 3])).2 k = toSimplexId (fieldOf 0 [0, 1, 2, 3] k) ∧
      (-2147483648 ≤ fieldOf (0 : Int) [0, 1, 2, 3] k →
        fieldOf (0 : Int) [0, 1, 2, 3] k < 2147483648 →
        (preprocess (fieldOf none [some (0 : Int), none, some 1, some 7])
          (fieldOf 0 [0, 1, 2, 3])).2 k = fieldOf 0 [0, 1, 2, 3] k)) ∧
    ∃ r, execute 4 chain4 false false none
        (fieldOf none [some (0 : Int), none, some 1, some 7]) (fieldOf 0 [0, 1, 2, 3])
        [0, 1, 3] = some r ∧
      ∀ i, i < 4 → ∃ j, j < 4 ∧ r.scalars i =
        (preprocess (fieldOf none [some (0 : Int), none, some 1, some 7])
          (fieldOf 0 [0, 1, 2, 3])).1 j :=
  have h : InRange 4 chain4 := by unfold InRange; decide
  ⟨h, by decide,
    C6_value_closure h false none (fieldOf none [some (0 : Int), none, some 1, some 7])
      (fieldOf 0 [0, 1, 2, 3]) [0, 1, 3]⟩

/-- C8. Empty seed set aborts. For every input with in-range neighbour ids `execute`
returns; it returns -1 if and only if `N ≥ 1` and one of the authorized lists is empty, and
0 in every other case; when the authorized minima are empty the output scalars and offsets
are the pre-processed copies of the input. -/
theorem C8_empty_seed_aborts {N : Nat} {nb : Nat → List Nat} (hnb : InRange N nb)
    (bl pf : Bool) (eps : Option α) (inS : Nat → Option α) (inO : Nat → Int)
    (ids : List Int) :
    ∃ r, execute N nb bl pf eps inS inO ids = some r ∧
      (r.status = -1 ↔ 1 ≤ N ∧ ((authorized N nb bl inS inO ids).1 = [] ∨
        (authorized N nb bl inS inO ids).2 = [])) ∧
      (r.status ≠ -1 → r.status = 0) ∧
      ((authorized N nb bl inS inO ids).1 = [] →
        ∀ k, r.scalars k = (preprocess inS inO).1 k ∧ r.offsets k = (preprocess inS inO).2 k) := by
  obtain ⟨r, hr, _, h1, h2, h3, _⟩ := execute_weak hnb bl pf eps inS inO ids
    (fun _ _ => True) trivial (fun _ _ _ _ _ _ _ => trivial) (fun _ _ _ _ => trivial)
  refine ⟨r, hr, h1, fun hne => h2.resolve_right hne, fun hA k => ?_⟩
  obtain ⟨e1, e2⟩ := h3 hA
  rw [e1, e2]
  exact ⟨rfl, rfl⟩

/-- C8, at the path 0 - 1 - 2 with scalars `[1, NaN, 2]` and no identifier. -/
theorem C8_empty_seed_aborts_witness :
    InRange 3 chain3 ∧
    ∃ r, execute 3 chain3 false false none (fieldOf none [some (1 : Int), none, some 2])
        (fieldOf 0 [0, 1, 2]) [] = some r ∧
      (r.status = -1 ↔ 1 ≤ 3 ∧
        ((authorized 3 chain3 false (fieldOf none [some (1 : Int), none, some 2])
          (fieldOf 0 [0, 1, 2]) []).1 = [] ∨
         (authorized 3 chain3 false (fieldOf none [some (1 : Int), none, some 2])
          (fieldOf 0 [0, 1, 2]) []).2 = [])) ∧
      (r.status ≠ -1 → r.status = 0) ∧
      ((authorized 3 chain3 false (fieldOf none [some (1 : Int), none, some 2])
          (fieldOf 0 [0, 1, 2]) []).1 = [] →
        ∀ k, r.scalars k =
            (preprocess (fieldOf none [some (1 : Int), none, some 2]) (fieldOf 0 [0, 1, 2])).1 k ∧
          r.offsets k =
            (preprocess (fieldOf none [some (1 : Int), none, some 2]) (fieldOf 0 [0, 1, 2])).2 k) :=
  have h : InRange 3 chain3 := by unfold InRange; decide
  ⟨h, C8_empty_seed_aborts h false false none _ _ []⟩

/-- C9: a mesh with a component without seed is not rejected. On the mesh with the two
edges 0 - 1 and 2 - 3, scalars `[0, 1, 2, 3]`, offsets `[0, 1, 2, 3]` and the whitelist
`[0, 1]`, the ascending pass has the seed 0; its front empties after 2 of the 4 vertices
and nothing tests `adjustmentPos`: the rewrite runs over all 4 entries of
`adjustmentSequence = [0, 1, 0, 0]`, whose zero-initialised tail makes it rewrite vertex 0
again (scalar 0 becomes 1, offset 4) while vertices 2 and 3 keep their old offsets; and
`execute` returns 0 after 4 iterations. -/
theorem C9_disconnected_counterexample :
    authorized 4 twoEdges false (fieldOf none [some (0 : Int), some 1, some 2, some 3])
      (fieldOf 0 [0, 1, 2, 3]) [0, 1] = ([0], [1]) ∧
    (regionGrowPass 4 twoEdges true [0] (fun _ => false)
      (preprocess (fieldOf none [some (0 : Int), some 1, some 2, some 3])
        (fieldOf 0 [0, 1, 2, 3])).1
      (preprocess (fieldOf none [some (0 : Int), some 1, some 2, some 3])
        (fieldOf 0 [0, 1, 2, 3])).2).summary 4 =
      some ([0, 1, 0, 0], 2, [1, 1, 2, 3], [4, 2, 2, 3]) ∧
    (execute 4 twoEdges false false none (fieldOf none [some (0 : Int), some 1, some 2, some 3])
      (fieldOf 0 [0, 1, 2, 3]) [0, 1]).map
        (fun r => (r.status, r.iteration, (List.range 4).map r.scalars,
          (List.range 4).map r.offsets)) = some (0, 4, [1, 1, 2, 3], [1, 4, 2, 3]) := by
  decide

/-- C10 as stated fails. On the star with centre 0 and leaves 1, 2, all scalars 0, offsets
`[0, 1, 2]` and the whitelist `[0, 1]`, the main loop runs all 3 iterations, the
convergence test fails in the last one, and `execute` returns 0: the status it also returns
on the path 0 - 1 - 2 - 3 with scalars `[0, 5, 1, 7]`, where it converges in one iteration. -/
theorem C10_nonconvergence_counterexample :
    (execute 3 star3 false false none (fieldOf none [some (0 : Int), some 0, some 0])
      (fieldOf 0 [0, 1, 2]) [0, 1]).map
        (fun r => (r.status, r.iteration, r.needForMoreIterations)) = some (0, 3, true) ∧
    (execute 4 chain4 false false none (fieldOf none [some (0 : Int), some 5, some 1, some 7])
      (fieldOf 0 [0, 1, 2, 3]) [0, 1, 3]).map
        (fun r => (r.status, r.iteration, r.needForMoreIterations)) = some (0, 1, false) := by
  decide

/-- C10, amended. With in-range neighbour ids, when the main loop has performed all `N`
iterations (the last convergence test failing or not) `execute` returns 0, the status it
also returns when it leaves the loop through the convergence break: the status does not
tell the two apart. -/
theorem C10_status_after_cap {N : Nat} {nb : Nat → List Nat} (hnb : InRange N nb)
    (bl pf : Bool) (eps : Option α) (inS : Nat → Option α) (inO : Nat → Int)
    (ids : List Int) :
    ∃ r, execute N nb bl pf eps inS inO ids = some r ∧
      (r.iteration = N → r.status = 0) ∧
      (r.needForMoreIterations = false → r.status = 0) := by
  obtain ⟨r, hr, _, h1, h2, _, h4, _⟩ := execute_weak hnb bl pf eps inS inO ids
    (fun _ _ => True) trivial (fun _ _ _ _ _ _ _ => trivial) (fun _ _ _ _ => trivial)
  refine ⟨r, hr, fun hit => h2.resolve_right fun h => ?_, fun hn => h2.resolve_right fun h => ?_⟩
  · have := (h1.1 h).1
    have := (h4 h).1
    omega
  · have := (h4 h).2
    rw [hn] at this
    exact Bool.false_ne_true this

/-- C10 amended, at the star with centre 0 and leaves 1, 2. -/
theorem C10_status_after_cap_witness :
    InRange 3 star3 ∧
    ∃ r, execute 3 star3 false false none (fieldOf none [some (0 : Int), some 0, some 0])
        (fieldOf 0 [0, 1, 2]) [0, 1] = some r ∧
      (r.iteration = 3 → r.status = 0) ∧
      (r.needForMoreIterations = false → r.status = 0) :=
  have h : InRange 3 star3 := by unfold InRange; decide
  ⟨h, C10_status_after_cap h false false none _ _ [0, 1]⟩

end Claims

section Sorting
variable {α : Type}

theorem sortInsert_perm (cmp : Triple α → Triple α → Bool) (t : Triple α)
    (l : List (Triple α)) : List.Perm (sortInsert cmp t l) (t :: l) := by
  induction l with
  | nil => exact List.Perm.refl _
  | cons x xs ih =>
    simp only [sortInsert]
    split_ifs
    · exact (List.Perm.cons x ih).trans (List.Perm.swap t x xs)
    · exact List.Perm.refl _

theorem sort_perm (cmp : Triple α → Triple α → Bool) (l : List (Triple α)) :
    List.Perm (sort cmp l) l := by
  induction l with
  | nil => exact List.Perm.refl _
  | cons x xs ih =>
    show List.Perm (sortInsert cmp x (sort cmp xs)) (x :: xs)
    exact (sortInsert_perm cmp x _).trans (List.Perm.cons x ih)

end Sorting

section PerturbBoundIter
variable {α : Type} [LinearOrder α] [Add α]

theorem le_iterate_add (e : α) (hinfl : ∀ x : α, x ≤ x + e) (k : Nat) (x : α) :
    x ≤ (fun y => y + e)^[k] x := by
  induction k with
  | zero => exact le_rfl
  | succ k ih =>
    rw [Function.iterate_succ_apply']
    exact ih.trans (hinfl _)

theorem iterate_add_le_iterate_add (e : α) (hinfl : ∀ x : α, x ≤ x + e) {j k : Nat}
    (hjk : j ≤ k) (x : α) : (fun y => y + e)^[j] x ≤ (fun y => y + e)^[k] x := by
  obtain ⟨d, rfl⟩ := Nat.exists_eq_add_of_le hjk
  rw [Nat.add_comm, Function.iterate_add_apply]
  exact le_iterate_add e hinfl d _

theorem perturbationLoop_le_iterate_some (e : α) (hinfl : ∀ x : α, x ≤ x + e)
    (hmono : ∀ x y : α, x ≤ y → x + e ≤ y + e) (lo B : α) (P : Nat → Prop)
    (l : List (Triple α)) (p : α) (s : Nat → α) (k : Nat)
    (hl : ∀ t ∈ l, lo ≤ t.1 ∧ t.1 ≤ B) (hp : p ≤ (fun y => y + e)^[k] B)
    (hs : ∀ i, P i → lo ≤ s i ∧ s i ≤ (fun y => y + e)^[k + l.length] B) :
    ∀ i, P i → lo ≤ perturbationLoop e (some p) l s i ∧
      perturbationLoop e (some p) l s i ≤ (fun y => y + e)^[k + l.length] B := by
  induction l generalizing p s k with
  | nil => simpa [perturbationLoop] using hs
  | cons t rest ih =>
    simp only [perturbationLoop, liftedValue]
    have ht := hl t (List.mem_cons_self _ _)
    have hv1 : lo ≤ (if t.1 ≤ p then p + e else t.1) := by
      split_ifs with h
      · exact ht.1.trans (h.trans (hinfl p))
      · exact ht.1
    have hv2 : (if t.1 ≤ p then p + e else t.1) ≤ (fun y => y + e)^[k + 1] B := by
      split_ifs with h
      · rw [Function.iterate_succ_apply']
        exact hmono _ _ hp
      · exact ht.2.trans (le_iterate_add e hinfl _ B)
    have hlen : k + (t :: rest).length = (k + 1) + rest.length := by
      simp only [List.length_cons]; omega
    rw [hlen]
    apply ih _ _ (k + 1) (fun t' ht' => hl t' (List.mem_cons_of_mem _ ht')) hv2
    intro i hi
    by_cases hiv : i = t.2.2
    · subst hiv
      simp only [Function.update_same]
      exact ⟨hv1, hv2.trans (iterate_add_le_iterate_add e hinfl (by omega) B)⟩
    · rw [Function.update_noteq hiv]
      have := hs i hi
      rw [hlen] at this
      exact this

theorem perturbationLoop_le_iterate_none (e : α) (hinfl : ∀ x : α, x ≤ x + e)
    (hmono : ∀ x y : α, x ≤ y → x + e ≤ y + e) (lo B : α) (P : Nat → Prop)
    (l : List (Triple α)) (s : Nat → α)
    (hl : ∀ t ∈ l, lo ≤ t.1 ∧ t.1 ≤ B) (hs : ∀ i, P i → lo ≤ s i ∧ s i ≤ B) :
    ∀ i, P i → lo ≤ perturbationLoop e none l s i ∧
      perturbationLoop e none l s i ≤ (fun y => y + e)^[l.length - 1] B := by
  cases l with
  | nil => simpa [perturbationLoop] using hs
  | cons t rest =>
    simp only [perturbationLoop, liftedValue]
    have ht := hl t (List.mem_cons_self _ _)
    have h := perturbationLoop_le_iterate_some e hinfl hmono lo B P rest t.1
      (Function.update s t.2.2 t.1) 0
      (fun t' ht' => hl t' (List.mem_cons_of_mem _ ht')) ht.2 (by
        intro i hi
        by_cases hiv : i = t.2.2
        · subst hiv
          simp only [Function.update_same]
          exact ⟨ht.1, ht.2.trans (le_iterate_add e hinfl _ B)⟩
        · rw [Function.update_noteq hiv]
          exact ⟨(hs i hi).1, (hs i hi).2.trans (le_iterate_add e hinfl _ B)⟩)
    simpa using h

/-- One call of `addPerturbation` keeps the lower bound of the scalars, and an upper bound
`B` of the scalars becomes `B` with `epsilon` added `N - 1` times in the scalar type. -/
theorem addPerturbation_le_iterate (N : Nat) (e : α) (hinfl : ∀ x : α, x ≤ x + e)
    (hmono : ∀ x y : α, x ≤ y → x + e ≤ y + e) (lo B : α) (s : Nat → α)
    (o : Nat → Int) (hs : ∀ i, i < N → lo ≤ s i ∧ s i ≤ B) :
    ∀ i, i < N → lo ≤ (addPerturbation N (some e) s o).2 i ∧
      (addPerturbation N (some e) s o).2 i ≤ (fun y => y + e)^[N - 1] B := by
  simp only [addPerturbation]
  have hlen : (sort (SweepCmp true)
      ((List.range N).map (fun i => ((s i, o i, i) : Triple α)))).length = N := by
    rw [(sort_perm _ _).length_eq]; simp
  have h := perturbationLoop_le_iterate_none e hinfl hmono lo B (fun i => i < N)
    (sort (SweepCmp true) ((List.range N).map (fun i => ((s i, o i, i) : Triple α)))) s
    (by
      intro t ht
      rw [(sort_perm _ _).mem_iff] at ht
      simp only [List.mem_map, List.mem_range] at ht
      obtain ⟨i, hi, rfl⟩ := ht
      exact hs i hi) hs
  rw [hlen] at h
  exact h

end PerturbBoundIter

section ClaimC7
variable {α : Type} [LinearOrder α] [Add α] [Zero α]

set_option maxRecDepth 100000

/-- C7 as stated fails with perturbation, in `double`. On the path 0 - 1 - 2 with all
scalars 64, offsets `[0, 1, 2]`, the whitelist `[0, 2]` and `epsilon` the `double` nearest
`10⁻¹⁴`, `execute` returns 0 after `K = 1` iteration with the output scalars 64, 64 + 1 ulp
and 64 + 2 ulp (1 ulp of 64 is `2^53` units of `2^-99`): output scalar 2 is above
`max + K * epsilon`, and also above `max + K * (N - 1) * epsilon`, since every lifting by
`epsilon` (about 0.7 ulp) is rounded up to one ulp. -/
theorem C7_monotone_bound_counterexample :
    (execute 3 chain3 false true (some Binary64.epsilon)
      (fun k => some (binary64Field [64 * 2 ^ 99, 64 * 2 ^ 99, 64 * 2 ^ 99] k))
      (fieldOf 0 [0, 1, 2]) [0, 2]).map
        (fun r => (r.status, r.iteration,
          (List.range 3).map (fun k => (r.scalars k).units - 64 * 2 ^ 99),
          decide ((r.scalars 2).units ≤
            64 * 2 ^ 99 + (r.iteration : Int) * Binary64.epsilon.units),
          decide ((r.scalars 2).units ≤
            64 * 2 ^ 99 + ((r.iteration * (3 - 1) : Nat) : Int) * Binary64.epsilon.units))) =
      some (0, 1, [0, 2 ^ 53, 2 ^ 54], false, false) := by
  decide

/-- C7, amended. For in-range neighbour ids and `NaN`-free input scalars lying in
`[lo, hi]`, when adding `epsilon` in the scalar type never decreases a value and is
monotone (as the rounded addition of `float` and `double` is for `0 ≤ epsilon`): `execute`
returns, and every output scalar is at least `lo` and at most `hi` with `epsilon` added
`K * (N - 1)` times in the scalar type, where `K` is the number of iterations performed
when perturbation is enabled and `K = 0` when it is disabled. -/
theorem C7_monotone_bound {N : Nat} {nb : Nat → List Nat} (hnb : InRange N nb)
    (bl pf : Bool) (e : α) (hinfl : ∀ x : α, x ≤ x + e)
    (hmono : ∀ x y : α, x ≤ y → x + e ≤ y + e) (x : Nat → α) (lo hi : α)
    (hx : ∀ k, k < N → lo ≤ x k ∧ x k ≤ hi) (inO : Nat → Int) (ids : List Int) :
    ∃ r, execute N nb bl pf (some e) (fun k => some (x k)) inO ids = some r ∧
      ∀ i, i < N → lo ≤ r.scalars i ∧
        r.scalars i ≤ (fun y => y + e)^[(if pf then r.iteration else 0) * (N - 1)] hi := by
  obtain ⟨r, hr, hQ, _⟩ := execute_weak hnb bl pf (some e) (fun k => some (x k)) inO ids
    (fun it s => ∀ i, i < N → lo ≤ s i ∧
      s i ≤ (fun y => y + e)^[(if pf then it else 0) * (N - 1)] hi)
    (by
      intro i hi
      have := hx i hi
      simpa [preprocessScalars] using this)
    (fun it dir seq s o hq hseq i hi => by
      obtain ⟨j, hj, hj'⟩ := rewrite_closure N dir seq s o (fun k _ => hseq k) i hi
      rw [hj']
      exact hq j hj)
    (fun it s o hq => by
      cases pf
      · simpa using hq
      · simp only [if_true] at hq ⊢
        have h := addPerturbation_le_iterate N e hinfl hmono lo _ s o hq
        intro i hi
        refine ⟨(h i hi).1, (h i hi).2.trans (le_of_eq ?_)⟩
        rw [← Function.iterate_add_apply]
        congr 1
        rw [Nat.add_mul, Nat.one_mul, Nat.add_comm])
  exact ⟨r, hr, hQ⟩

/-- C7 amended, in `double` at the path 0 - 1 - 2 with all scalars 64 and `epsilon` the
`double` nearest `10⁻¹⁴`. -/
theorem C7_monotone_bound_witness :
    InRange 3 chain3 ∧ (∀ x : Binary64, x ≤ x + Binary64.epsilon) ∧
    (∀ x y : Binary64, x ≤ y → x + Binary64.epsilon ≤ y + Binary64.epsilon) ∧
    (∀ k, k < 3 →
      Binary64.ofUnits (64 * 2 ^ 99) ≤
          binary64Field [64 * 2 ^ 99, 64 * 2 ^ 99, 64 * 2 ^ 99] k ∧
        binary64Field [64 * 2 ^ 99, 64 * 2 ^ 99, 64 * 2 ^ 99] k ≤
          Binary64.ofUnits (64 * 2 ^ 99)) ∧
    ∃ r, execute 3 chain3 false true (some Binary64.epsilon)
        (fun k => some (binary64Field [64 * 2 ^ 99, 64 * 2 ^ 99, 64 * 2 ^ 99] k))
        (fieldOf 0 [0, 1, 2]) [0, 2] = some r ∧
      ∀ i, i < 3 → Binary64.ofUnits (64 * 2 ^ 99) ≤ r.scalars i ∧
        r.scalars i ≤ (fun y => y + Binary64.epsilon)^[(if true then r.iteration else 0)
          * (3 - 1)] (Binary64.ofUnits (64 * 2 ^ 99)) :=
  have h : InRange 3 chain3 := by unfold InRange; decide
  have h1 : ∀ x : Binary64, x ≤ x + Binary64.epsilon := fun x =>
    Binary64.le_add_right x Binary64.epsilon (by decide)
  have h2 : ∀ x y : Binary64, x ≤ y → x + Binary64.epsilon ≤ y + Binary64.epsilon :=
    fun _ _ hxy => Binary64.add_le_add_right hxy Binary64.epsilon
  have h3 : ∀ k, k < 3 →
      Binary64.ofUnits (64 * 2 ^ 99) ≤
          binary64Field [64 * 2 ^ 99, 64 * 2 ^ 99, 64 * 2 ^ 99] k ∧
        binary64Field [64 * 2 ^ 99, 64 * 2 ^ 99, 64 * 2 ^ 99] k ≤
          Binary64.ofUnits (64 * 2 ^ 99) := by decide
  ⟨h, h1, h2, h3,
    C7_monotone_bound h false true Binary64.epsilon h1 h2
      (binary64Field [64 * 2 ^ 99, 64 * 2 ^ 99, 64 * 2 ^ 99])
      (Binary64.ofUnits (64 * 2 ^ 99)) (Binary64.ofUnits (64 * 2 ^ 99)) h3
      (fieldOf 0 [0, 1, 2]) [0, 2]⟩

end ClaimC7

section Cmp
variable {α : Type} [LinearOrder α]

theorem SweepCmp_true_iff (a b : Triple α) :
    SweepCmp true a b = true ↔ a.1 < b.1 ∨ (a.1 = b.1 ∧ a.2.1 < b.2.1) := by
  simp [SweepCmp]

theorem SweepCmp_false_eq (a b : Triple α) : SweepCmp false a b = SweepCmp true b a := by
  unfold SweepCmp
  have h : decide (a.1 = b.1) = decide (b.1 = a.1) := by simp only [eq_comm]
  simp only [Bool.false_eq_true, if_false, if_true, gt_iff_lt, h]

theorem SweepCmp_tripleOf (s : Nat → α) (o : Nat → Int) (u w : Nat) :
    SweepCmp true (tripleOf s o u) (tripleOf s o w) = isLowerThan u w s o := rfl

theorem SweepCmp_trans {dir : Bool} {a b c : Triple α} (h1 : SweepCmp dir a b = true)
    (h2 : SweepCmp dir b c = true) : SweepCmp dir a c = true := by
  have key : ∀ a b c : Triple α, SweepCmp true a b = true → SweepCmp true b c = true →
      SweepCmp true a c = true := by
    intro a b c h1 h2
    rw [SweepCmp_true_iff] at *
    rcases h1 with h1 | ⟨h1, h1'⟩ <;> rcases h2 with h2 | ⟨h2, h2'⟩
    · exact Or.inl (lt_trans h1 h2)
    · exact Or.inl (h2 ▸ h1)
    · exact Or.inl (h1 ▸ h2)
    · exact Or.inr ⟨h1.trans h2, by omega⟩
  cases dir
  · rw [SweepCmp_false_eq] at *
    exact key c b a h2 h1
  · exact key a b c h1 h2

theorem SweepCmp_asymm {dir : Bool} {a b : Triple α} (h1 : SweepCmp dir a b = true) :
    SweepCmp dir b a = false := by
  have key : ∀ a b : Triple α, SweepCmp true a b = true → SweepCmp true b a = false := by
    intro a b h
    rw [Bool.eq_false_iff, Ne, SweepCmp_true_iff]
    rw [SweepCmp_true_iff] at h
    rintro (h2 | ⟨h2, h3⟩)
    · rcases h with h | ⟨h, _⟩
      · exact lt_asymm h h2
      · rw [h] at h2; exact lt_irrefl _ h2
    · rcases h with h | ⟨_, h⟩
      · rw [h2] at h; exact lt_irrefl _ h
      · omega
  cases dir
  · rw [SweepCmp_false_eq] at *
    exact key b a h1
  · exact key a b h1

theorem SweepCmp_total (dir : Bool) {a b : Triple α} (h : a.2.1 ≠ b.2.1) :
    SweepCmp dir a b = true ∨ SweepCmp dir b a = true := by
  have key : ∀ a b : Triple α, a.2.1 ≠ b.2.1 →
      SweepCmp true a b = true ∨ SweepCmp true b a = true := by
    intro a b h
    simp only [SweepCmp_true_iff]
    rcases lt_trichotomy a.1 b.1 with h1 | h1 | h1
    · exact Or.inl (Or.inl h1)
    · rcases lt_or_gt_of_ne h with h' | h'
      · exact Or.inl (Or.inr ⟨h1, h'⟩)
      · exact Or.inr (Or.inr ⟨h1.symm, h'⟩)
    · exact Or.inr (Or.inl h1)
  cases dir
  · simp only [SweepCmp_false_eq]
    exact (key a b h).symm
  · exact key a b h

end Cmp

section Emplace
variable {α : Type}

theorem mem_setEmplace_self {cmp : Triple α → Triple α → Bool} {t : Triple α}
    {f : List (Triple α)} (h : ∀ y ∈ f, cmp t y = true ∨ cmp y t = true) :
    t ∈ setEmplace cmp t f := by
  induction f with
  | nil => simp [setEmplace]
  | cons x xs ih =>
    simp only [setEmplace]
    split_ifs with h1 h2
    · exact List.mem_cons_self _ _
    · exact List.mem_cons_of_mem _ (ih fun y hy => h y (List.mem_cons_of_mem _ hy))
    · rcases h x (List.mem_cons_self _ _) with h' | h'
      · exact absurd h' h1
      · exact absurd h' h2

theorem pairwise_setEmplace (cmp : Triple α → Triple α → Bool)
    (htrans : ∀ a b c, cmp a b = true → cmp b c = true → cmp a c = true) {t : Triple α}
    {f : List (Triple α)} (h : f.Pairwise (fun a b => cmp a b = true)) :
    (setEmplace cmp t f).Pairwise (fun a b => cmp a b = true) := by
  induction f with
  | nil => simp [setEmplace]
  | cons x xs ih =>
    rw [List.pairwise_cons] at h
    simp only [setEmplace]
    split_ifs with h1 h2
    · rw [List.pairwise_cons]
      refine ⟨?_, List.pairwise_cons.2 h⟩
      intro y hy
      rcases List.mem_cons.1 hy with rfl | hy
      · exact h1
      · exact htrans _ _ _ h1 (h.1 y hy)
    · rw [List.pairwise_cons]
      refine ⟨?_, ih h.2⟩
      intro y hy
      rcases mem_setEmplace hy with rfl | hy
      · exact h2
      · exact h.1 y hy
    · exact List.pairwise_cons.2 h

theorem mem_frontVertices {f : List (Triple α)} {v : Nat} :
    v ∈ frontVertices f ↔ ∃ t ∈ f, t.2.2 = v := by
  simp [frontVertices]

end Emplace

section Strong
variable {α : Type} [LinearOrder α]

/-- On a field with distinct offsets, emplacing the tuple of a vertex that is not in the
front really inserts it. -/
theorem tripleOf_mem_setEmplace {N : Nat} {s : Nat → α} {o : Nat → Int}
    (ho : DistinctOffsets N o) (dir : Bool) {f : List (Triple α)} {u : Nat} (hu : u < N)
    (hkeys : ∀ t ∈ f, t = tripleOf s o t.2.2) (hlt : ∀ v ∈ frontVertices f, v < N)
    (hnot : u ∉ frontVertices f) :
    tripleOf s o u ∈ setEmplace (SweepCmp dir) (tripleOf s o u) f := by
  apply mem_setEmplace_self
  intro y hy
  apply SweepCmp_total
  rw [hkeys y hy]
  show o u ≠ o y.2.2
  intro hc
  have hyv : y.2.2 ∈ frontVertices f := mem_frontVertices.2 ⟨y, hy, rfl⟩
  have := ho u hu y.2.2 (hlt _ hyv) hc
  exact hnot (this ▸ hyv)

omit [LinearOrder α] in
theorem visitNeighbors_mono (cmp : Triple α → Triple α → Bool) (s : Nat → α) (o : Nat → Int)
    (l : List Nat) (st : List (Triple α) × (Nat → Bool)) (x : Nat) (h : st.2 x = true) :
    (visitNeighbors cmp s o l st).2 x = true := by
  induction l generalizing st with
  | nil => exact h
  | cons u l ih =>
    rw [visitNeighbors_cons]
    apply ih
    cases hv : st.2 u
    · by_cases hxu : x = u
      · subst hxu; simp
      · simp [Function.update_noteq hxu, h]
    · simpa [hv] using h

omit [LinearOrder α] in
theorem visitNeighbors_visited (cmp : Triple α → Triple α → Bool) (s : Nat → α)
    (o : Nat → Int) (l : List Nat) (st : List (Triple α) × (Nat → Bool)) (u : Nat)
    (hu : u ∈ l) : (visitNeighbors cmp s o l st).2 u = true := by
  induction l generalizing st with
  | nil => simp at hu
  | cons w l ih =>
    rw [visitNeighbors_cons]
    rcases List.mem_cons.1 hu with rfl | hu
    · apply visitNeighbors_mono
      cases hv : st.2 u
      · simp
      · simp [hv]
    · exact ih _ hu

/-- The neighbour loop (and the seed loop) on a field with distinct offsets: the front keeps
the tuples of its vertices, sorted; its vertices are in range and visited; every visited
vertex is in the list `P` or in the front. -/
theorem visitNeighbors_strong {N : Nat} (s : Nat → α) {o : Nat → Int}
    (ho : DistinctOffsets N o) (dir : Bool) (P l : List Nat) (hl : ∀ u ∈ l, u < N)
    (st : List (Triple α) × (Nat → Bool))
    (hk : ∀ y ∈ st.1, y = tripleOf s o y.2.2)
    (hm : ∀ v ∈ frontVertices st.1, v < N ∧ st.2 v = true)
    (hv : ∀ v, st.2 v = true → v ∈ P ++ frontVertices st.1)
    (hs : st.1.Pairwise (fun a b => SweepCmp dir a b = true)) :
    (∀ y ∈ (visitNeighbors (SweepCmp dir) s o l st).1, y = tripleOf s o y.2.2) ∧
      (∀ v ∈ frontVertices (visitNeighbors (SweepCmp dir) s o l st).1,
        v < N ∧ (visitNeighbors (SweepCmp dir) s o l st).2 v = true) ∧
      (∀ v, (visitNeighbors (SweepCmp dir) s o l st).2 v = true →
        v ∈ P ++ frontVertices (visitNeighbors (SweepCmp dir) s o l st).1) ∧
      (visitNeighbors (SweepCmp dir) s o l st).1.Pairwise
        (fun a b => SweepCmp dir a b = true) := by
  refine visitNeighbors_induct (SweepCmp dir) s o
    (fun f vis' => (∀ y ∈ f, y = tripleOf s o y.2.2) ∧
      (∀ v ∈ frontVertices f, v < N ∧ vis' v = true) ∧
      (∀ v, vis' v = true → v ∈ P ++ frontVertices f) ∧
      f.Pairwise (fun a b => SweepCmp dir a b = true))
    l ?_ st ⟨hk, hm, hv, hs⟩
  intro f vis' u hu ⟨hk, hm, hv, hs⟩ hvu
  have huN : u < N := hl u hu
  have hnot : u ∉ frontVertices f := fun hc => by
    have := (hm u hc).2
    rw [hvu] at this
    exact Bool.false_ne_true this
  refine ⟨?_, ?_, ?_, pairwise_setEmplace (SweepCmp dir)
    (fun _ _ _ h1 h2 => SweepCmp_trans h1 h2) hs⟩
  · intro y hy
    rcases mem_setEmplace hy with rfl | hy
    · rfl
    · exact hk y hy
  · intro v hv'
    by_cases hvu' : v = u
    · subst hvu'; exact ⟨huN, by simp⟩
    · rw [Function.update_noteq hvu']
      rcases mem_frontVertices_setEmplace hv' with hv' | hv'
      · exact absurd hv' hvu'
      · exact hm v hv'
  · intro v hv'
    by_cases hvu' : v = u
    · subst hvu'
      apply List.mem_append_right
      exact mem_frontVertices.2 ⟨_, tripleOf_mem_setEmplace ho dir huN hk
        (fun v hv => (hm v hv).1) hnot, rfl⟩
    · rw [Function.update_noteq hvu'] at hv'
      rcases List.mem_append.1 (hv v hv') with hv'' | hv''
      · exact List.mem_append_left _ hv''
      · apply List.mem_append_right
        obtain ⟨y, hy, hy'⟩ := mem_frontVertices.1 hv''
        exact mem_frontVertices.2 ⟨y, mem_setEmplace_of_mem hy, hy'⟩

/-- One execution of the body of the growth loop keeps the strong invariant. -/
theorem StrongInv.strongStep {N : Nat} {nb : Nat → List Nat} (hnb : InRange N nb)
    {s : Nat → α} {o : Nat → Int} (ho : DistinctOffsets N o) {dir : Bool} {seeds : List Nat}
    {t : Triple α} {rest : List (Triple α)} {vis : Nat → Bool} {seq : Nat → Nat} {pos : Nat}
    (h : StrongInv N nb s o dir seeds (t :: rest) vis seq pos) :
    StrongInv N nb s o dir seeds
      (visitNeighbors (SweepCmp dir) s o (nb t.2.2) (rest, vis)).1
      (visitNeighbors (SweepCmp dir) s o (nb t.2.2) (rest, vis)).2
      (Function.update seq pos t.2.2) (pos + 1) := by
  have hw := h.weak.step hnb (SweepCmp dir) s o
  have htN : t.2.2 < N := (h.weak.mem t.2.2 (by simp [frontVertices])).1
  have hJ := visitNeighbors_strong s ho dir (popped seq pos ++ [t.2.2]) (nb t.2.2)
    (fun u hu => hnb _ htN u hu) (rest, vis)
    (fun y hy => h.keys y (List.mem_cons_of_mem _ hy))
    (fun v hv => h.weak.mem v (List.mem_append_right _ (by
        simp only [frontVertices, List.map_cons, List.mem_cons]
        exact Or.inr hv)))
    (fun v hv => by
      have := h.visited v hv
      simpa [frontVertices, List.append_assoc] using this)
    (List.pairwise_cons.1 h.sorted).2
  refine ⟨hw, hJ.1, ?_, ?_, hJ.2.2.2, ?_⟩
  · rw [popped_succ]; exact hJ.2.2.1
  · rw [popped_succ]
    intro p hp u hu
    rcases List.mem_append.1 hp with hp | hp
    · exact visitNeighbors_mono _ _ _ _ _ _ (h.closed p hp u hu)
    · rw [List.mem_singleton] at hp
      subst hp
      exact visitNeighbors_visited _ _ _ _ _ _ hu
  · intro k hk
    exact visitNeighbors_mono _ _ _ _ _ _ (h.seeds k hk)

omit [LinearOrder α] in
theorem addSeeds_eq_visitNeighbors (cmp : Triple α → Triple α → Bool) (s : Nat → α)
    (o : Nat → Int) (l : List Nat) (st : (Nat → Bool) × List (Triple α) × (Nat → Bool))
    (hl : l.Nodup) (hl' : ∀ k ∈ l, st.2.2 k = false) :
    (addSeeds cmp s o l st).2 = visitNeighbors cmp s o l st.2 := by
  induction l generalizing st with
  | nil => rfl
  | cons k l ih =>
    rw [addSeeds_cons, visitNeighbors_cons]
    rw [List.nodup_cons] at hl
    rw [ih _ hl.2]
    · simp [hl' k (List.mem_cons_self _ _)]
    · intro k' hk'
      have hne : k' ≠ k := fun hc => hl.1 (hc ▸ hk')
      simp only [Function.update_noteq hne]
      exact hl' k' (List.mem_cons_of_mem _ hk')

/-- After the seed loop, on a field with distinct offsets, the growth loop starts from a
state with the strong invariant. -/
theorem addSeeds_strongInv {N : Nat} (nb : Nat → List Nat) {s : Nat → α} {o : Nat → Int}
    (ho : DistinctOffsets N o) (dir : Bool) (seeds : List Nat) (ae : Nat → Bool)
    (hl : seeds.Nodup) (hl' : ∀ k ∈ seeds, k < N) :
    StrongInv N nb s o dir seeds
      (addSeeds (SweepCmp dir) s o seeds (ae, [], fun _ => false)).2.1
      (addSeeds (SweepCmp dir) s o seeds (ae, [], fun _ => false)).2.2 (fun _ => 0) 0 := by
  have hw := addSeeds_weakInv (SweepCmp dir) s o N seeds ae hl hl'
  have he := addSeeds_eq_visitNeighbors (SweepCmp dir) s o seeds (ae, [], fun _ => false) hl
    (fun _ _ => rfl)
  have hJ := visitNeighbors_strong s ho dir [] seeds hl' (([] : List (Triple α)), fun _ => false)
    (by simp) (by simp [frontVertices]) (by simp) List.Pairwise.nil
  rw [← he] at hJ
  refine ⟨hw, hJ.1, ?_, ?_, hJ.2.2.2, ?_⟩
  · simpa [popped_zero] using hJ.2.2.1
  · simp [popped_zero]
  · intro k hk
    rw [(addSeeds_marks (SweepCmp dir) s o seeds (ae, [], fun _ => false) k).2]
    simp [hk]

end Strong

section StrongGrowth
variable {α : Type} [LinearOrder α]

theorem StrongInv.strongBound {N : Nat} {nb : Nat → List Nat} {s : Nat → α} {o : Nat → Int}
    {dir : Bool} {seeds : List Nat} {f : List (Triple α)} {vis : Nat → Bool}
    {seq : Nat → Nat} {pos : Nat} (h : StrongInv N nb s o dir seeds f vis seq pos) :
    pos + f.length ≤ N := h.weak.bound

/-- When the growth loop ends on a connected mesh, every vertex has been dequeued exactly
once: `adjustmentPos = N` and the sequence is a bijection onto the vertices. -/
theorem StrongInv.seqPerm {N : Nat} {nb : Nat → List Nat} (hc : ConnectedMesh N nb)
    {s : Nat → α} {o : Nat → Int} {dir : Bool} {seeds : List Nat} (hne : seeds ≠ [])
    {vis : Nat → Bool} {seq : Nat → Nat} {pos : Nat}
    (h : StrongInv N nb s o dir seeds [] vis seq pos) : pos = N ∧ SeqPerm N seq := by
  have hvis : ∀ v, vis v = true → v ∈ popped seq pos := fun v hv => by
    simpa [frontVertices] using h.visited v hv
  have hlt : ∀ v ∈ popped seq pos, v < N := fun v hv =>
    (h.weak.mem v (List.mem_append_left _ hv)).1
  obtain ⟨k0, hk0⟩ := List.exists_mem_of_ne_nil seeds hne
  have hk0p : k0 ∈ popped seq pos := hvis k0 (h.seeds k0 hk0)
  have hreach : ∀ v, Relation.ReflTransGen (fun a b => b ∈ nb a) k0 v →
      v ∈ popped seq pos := by
    intro v hr
    induction hr with
    | refl => exact hk0p
    | tail _ hbc ih => exact hvis _ (h.closed _ ih _ hbc)
  have hall : ∀ v, v < N → v ∈ popped seq pos := fun v hv =>
    hreach v (hc k0 (hlt k0 hk0p) v hv)
  have hnd : (popped seq pos).Nodup := (List.nodup_append.1 h.weak.nodup).1
  have hpos : pos = N := by
    have h1 : pos ≤ N := by simpa using h.weak.bound
    have h2 : List.range N ⊆ popped seq pos := fun v hv => hall v (List.mem_range.1 hv)
    have h3 := (List.Nodup.subperm (List.nodup_range N) h2).length_le
    rw [List.length_range, length_popped] at h3
    omega
  subst hpos
  refine ⟨rfl, fun k hk => hlt _ (mem_popped.2 ⟨k, hk, rfl⟩), ?_, ?_⟩
  · intro i hi j hj hij
    exact List.inj_on_of_nodup_map hnd (List.mem_range.2 hi) (List.mem_range.2 hj) hij
  · intro v hv
    exact mem_popped.1 (hall v hv)

/-- The growth loop of a pass on a connected mesh and a field with distinct offsets, from
the state the seed loop leaves: it ends through its `while` test with the strong invariant,
after dequeuing every vertex once. An additional invariant `J` kept by the body comes out
as well. -/
theorem growthLoop_strong {N : Nat} {nb : Nat → List Nat} (hnb : InRange N nb)
    (hc : ConnectedMesh N nb) {s : Nat → α} {o : Nat → Int} (ho : DistinctOffsets N o)
    (dir : Bool) (seeds : List Nat) (ae : Nat → Bool) (hnd : seeds.Nodup)
    (hlt : ∀ k ∈ seeds, k < N) (hne : seeds ≠ [])
    (J : List (Triple α) → (Nat → Bool) → (Nat → Nat) → Nat → Prop)
    (hJ0 : J (addSeeds (SweepCmp dir) s o seeds (ae, [], fun _ => false)).2.1
      (addSeeds (SweepCmp dir) s o seeds (ae, [], fun _ => false)).2.2 (fun _ => 0) 0)
    (hJ : ∀ t rest vis seq pos, StrongInv N nb s o dir seeds (t :: rest) vis seq pos →
      J (t :: rest) vis seq pos →
      J (visitNeighbors (SweepCmp dir) s o (nb t.2.2) (rest, vis)).1
        (visitNeighbors (SweepCmp dir) s o (nb t.2.2) (rest, vis)).2
        (Function.update seq pos t.2.2) (pos + 1)) :
    ∃ vis seq, growthLoop (SweepCmp dir) nb s o N
        (addSeeds (SweepCmp dir) s o seeds (ae, [], fun _ => false)).2.1
        (addSeeds (SweepCmp dir) s o seeds (ae, [], fun _ => false)).2.2 (fun _ => 0) 0
          = Growth.done seq N ∧
      StrongInv N nb s o dir seeds [] vis seq N ∧ SeqPerm N seq ∧ J [] vis seq N := by
  obtain ⟨vis, seq, pos, h1, h2, h3⟩ := growthLoop_induct (SweepCmp dir) nb s o N
    (fun f vis seq pos => StrongInv N nb s o dir seeds f vis seq pos ∧ J f vis seq pos)
    (fun _ _ _ _ h => h.1.strongBound)
    (fun t rest vis seq pos h => ⟨h.1.strongStep hnb ho, hJ t rest vis seq pos h.1 h.2⟩)
    N _ _ _ 0 ⟨addSeeds_strongInv nb ho dir seeds ae hnd hlt, hJ0⟩
    (addSeeds_front_ne_nil (SweepCmp dir) s o seeds _ (Or.inl hne)) (by omega)
  obtain ⟨hp, hperm⟩ := h2.seqPerm hc hne
  subst hp
  exact ⟨vis, seq, h1, h2, hperm, h3⟩

end StrongGrowth

section RewriteStrong
variable {α : Type} [LinearOrder α]

theorem rewriteStep_offset (dir : Bool) (seq : Nat → Nat)
    (st : (Nat → α) × (Nat → Int) × Int) (k : Nat) :
    (rewriteStep dir seq st k).2.2 = (if dir then st.2.2 + 1 else st.2.2 - 1) ∧
    (rewriteStep dir seq st k).2.1 =
      Function.update st.2.1 (seq k) (if dir then st.2.2 + 1 else st.2.2 - 1) := by
  unfold rewriteStep
  cases dir <;> simp

theorem rewriteStep_scalars_of_ne (dir : Bool) (seq : Nat → Nat)
    (st : (Nat → α) × (Nat → Int) × Int) (k i : Nat) (hi : i ≠ seq k) :
    (rewriteStep dir seq st k).1 i = st.1 i := by
  unfold rewriteStep
  cases dir
  · simp only [Bool.false_eq_true, if_false]
    split_ifs
    · simp [Function.update_noteq hi]
    · rfl
  · simp only [if_true]
    split_ifs
    · simp [Function.update_noteq hi]
    · rfl

theorem rewriteStep_scalars_mono (dir : Bool) (seq : Nat → Nat)
    (st : (Nat → α) × (Nat → Int) × Int) (k : Nat) (hk : k ≠ 0)
    (hne : seq (k - 1) ≠ seq k) :
    if dir then (rewriteStep dir seq st k).1 (seq (k - 1)) ≤ (rewriteStep dir seq st k).1 (seq k)
    else (rewriteStep dir seq st k).1 (seq k) ≤ (rewriteStep dir seq st k).1 (seq (k - 1)) := by
  rw [rewriteStep_scalars_of_ne dir seq st k _ hne]
  unfold rewriteStep
  cases dir
  · simp only [Bool.false_eq_true, if_false]
    split_ifs with hc
    · simp
    · simp only [hk, ne_eq, not_false_eq_true, true_and, ge_iff_le, not_le] at hc
      exact le_of_lt hc
  · simp only [if_true]
    split_ifs with hc
    · simp
    · simp only [hk, ne_eq, not_false_eq_true, true_and, not_le] at hc
      exact le_of_lt hc

/-- The state of the rewrite loop after `n ≤ N` steps along an injective sequence. -/
theorem rewrite_steps (N : Nat) (dir : Bool) (seq : Nat → Nat) (s : Nat → α) (o : Nat → Int)
    (hinj : ∀ i, i < N → ∀ j, j < N → seq i = seq j → i = j) (n : Nat) (hn : n ≤ N) :
    let st := (List.range n).foldl (rewriteStep dir seq)
      (s, o, if dir then 0 else (N : Int) + 1)
    st.2.2 = (if dir then (n : Int) else (N : Int) + 1 - n) ∧
    (∀ k, k < n → st.2.1 (seq k) = if dir then (k : Int) + 1 else (N : Int) - k) ∧
    (∀ v, (∀ k, k < n → seq k ≠ v) → st.2.1 v = o v ∧ st.1 v = s v) ∧
    (∀ k, k + 1 < n → if dir then st.1 (seq k) ≤ st.1 (seq (k + 1))
      else st.1 (seq (k + 1)) ≤ st.1 (seq k)) := by
  induction n with
  | zero =>
    refine ⟨?_, fun k hk => absurd hk (Nat.not_lt_zero _), fun v _ => ⟨rfl, rfl⟩,
      fun k hk => absurd hk (Nat.not_lt_zero _)⟩
    cases dir <;> simp
  | succ n ih =>
    obtain ⟨ih1, ih2, ih3, ih4⟩ := ih (by omega)
    intro st
    have hst : st = rewriteStep dir seq ((List.range n).foldl (rewriteStep dir seq)
      (s, o, if dir then 0 else (N : Int) + 1)) n := foldl_range_succ _ _ _
    generalize hprev : (List.range n).foldl (rewriteStep dir seq)
      (s, o, if dir then 0 else (N : Int) + 1) = prev at ih1 ih2 ih3 ih4 hst
    have hoff := rewriteStep_offset dir seq prev n
    rw [← hst] at hoff
    have hne : ∀ k, k < n → seq k ≠ seq n := fun k hk hc => by
      have := hinj k (by omega) n (by omega) hc
      omega
    have hsc : ∀ i, i ≠ seq n → st.1 i = prev.1 i := fun i hi => by
      rw [hst]; exact rewriteStep_scalars_of_ne dir seq prev n i hi
    refine ⟨?_, ?_, ?_, ?_⟩
    · rw [hoff.1, ih1]
      cases dir <;> (simp; try omega)
    · intro k hk
      rw [hoff.2]
      by_cases hkn : k = n
      · subst hkn
        rw [Function.update_same, ih1]
        cases dir <;> (simp; try omega)
      · rw [Function.update_noteq (hne k (by omega))]
        exact ih2 k (by omega)
    · intro v hv
      have hv' := ih3 v (fun k hk => hv k (by omega))
      have hvn : v ≠ seq n := fun hc => hv n (by omega) hc.symm
      constructor
      · rw [hoff.2, Function.update_noteq hvn]
        exact hv'.1
      · rw [hsc v hvn]
        exact hv'.2
    · intro k hk
      by_cases hkn : k + 1 = n
      · subst hkn
        have := rewriteStep_scalars_mono dir seq prev (k + 1) (by omega)
          (by simpa using hne k (by omega))
        rw [← hst] at this
        simpa using this
      · rw [hsc _ (hne k (by omega)), hsc _ (hne (k + 1) (by omega))]
        exact ih4 k (by omega)

end RewriteStrong

section OffsetsAfter
variable {α : Type} [LinearOrder α]

theorem offsetsPerm_of_bounded {N : Nat} {o : Nat → Int} (hd : DistinctOffsets N o)
    (hb : ∀ i, i < N → 1 ≤ o i ∧ o i ≤ N) : OffsetsPerm N o := by
  unfold OffsetsPerm
  have hnd : ((List.range N).map o).Nodup := by
    apply List.Nodup.map_on _ (List.nodup_range N)
    intro x hx y hy hxy
    exact hd x (List.mem_range.1 hx) y (List.mem_range.1 hy) hxy
  have hsub : (List.range N).map o ⊆ (List.range N).map (fun k : Nat => (k : Int) + 1) := by
    intro m hm
    obtain ⟨i, hi, rfl⟩ := List.mem_map.1 hm
    have := hb i (List.mem_range.1 hi)
    refine List.mem_map.2 ⟨(o i - 1).toNat, List.mem_range.2 ?_, ?_⟩
    · omega
    · omega
  exact (List.Nodup.subperm hnd hsub).perm_of_length_le (by simp)

/-- The field after the rewrite along a bijective sequence: the offsets count up (or down)
along the sequence, the scalars are weakly monotone along it, and nothing outside the mesh
is written. -/
theorem rewrite_perm {N : Nat} (dir : Bool) {seq : Nat → Nat} (s : Nat → α) (o : Nat → Int)
    (hp : SeqPerm N seq) :
    (∀ k, k < N → (rewrite N dir seq s o).2 (seq k) =
      if dir then (k : Int) + 1 else (N : Int) - k) ∧
    (∀ i j, i ≤ j → j < N →
      if dir then (rewrite N dir seq s o).1 (seq i) ≤ (rewrite N dir seq s o).1 (seq j)
      else (rewrite N dir seq s o).1 (seq j) ≤ (rewrite N dir seq s o).1 (seq i)) ∧
    (∀ v, N ≤ v → (rewrite N dir seq s o).1 v = s v ∧ (rewrite N dir seq s o).2 v = o v) := by
  have h := rewrite_steps N dir seq s o hp.2.1 N le_rfl
  obtain ⟨_, h2, h3, h4⟩ := h
  refine ⟨h2, ?_, ?_⟩
  · intro i j hij hj
    induction j with
    | zero =>
      have : i = 0 := by omega
      subst this
      cases dir <;> simp
    | succ j ih =>
      by_cases hij' : i = j + 1
      · subst hij'
        cases dir <;> simp
      · have h5 := ih (by omega) (by omega)
        have h6 := h4 j hj
        cases dir
        · simp only [Bool.false_eq_true, if_false] at h5 h6 ⊢
          exact h6.trans h5
        · simp only [if_true] at h5 h6 ⊢
          exact h5.trans h6
  · intro v hv
    have := h3 v (fun k hk hc => by
      have := hp.1 k hk
      omega)
    exact ⟨this.2, this.1⟩

theorem rewrite_offsets_bounded {N : Nat} (dir : Bool) {seq : Nat → Nat} (s : Nat → α)
    (o : Nat → Int) (hp : SeqPerm N seq) :
    DistinctOffsets N (rewrite N dir seq s o).2 ∧
      ∀ i, i < N → 1 ≤ (rewrite N dir seq s o).2 i ∧ (rewrite N dir seq s o).2 i ≤ N := by
  have h := (rewrite_perm dir s o hp).1
  constructor
  · intro i hi j hj hij
    obtain ⟨a, ha, rfl⟩ := hp.2.2 i hi
    obtain ⟨b, hb, rfl⟩ := hp.2.2 j hj
    rw [h a ha, h b hb] at hij
    have : a = b := by
      cases dir
      · simp only [Bool.false_eq_true, if_false] at hij; omega
      · simp only [if_true] at hij; omega
    rw [this]
  · intro i hi
    obtain ⟨a, ha, rfl⟩ := hp.2.2 i hi
    rw [h a ha]
    cases dir
    · simp only [Bool.false_eq_true, if_false]; omega
    · simp only [if_true]; omega

/-- After the rewrite along a bijective sequence the symbolic order is the sequence order
(ascending pass) or its reverse (descending pass). -/
theorem rewrite_order {N : Nat} (dir : Bool) {seq : Nat → Nat} (s : Nat → α) (o : Nat → Int)
    (hp : SeqPerm N seq) (i j : Nat) (hi : i < N) (hj : j < N) :
    isLowerThan (seq i) (seq j) (rewrite N dir seq s o).1 (rewrite N dir seq s o).2 =
      if dir then decide (i < j) else decide (j < i) := by
  obtain ⟨h1, h2, _⟩ := rewrite_perm dir s o hp
  have key : ∀ a b, a < N → b < N → a < b →
      (if dir then
        isLowerThan (seq a) (seq b) (rewrite N dir seq s o).1 (rewrite N dir seq s o).2 = true
      else
        isLowerThan (seq b) (seq a) (rewrite N dir seq s o).1 (rewrite N dir seq s o).2
          = true) := by
    intro a b ha hb hab
    have hm := h2 a b (le_of_lt hab) hb
    cases dir
    · simp only [Bool.false_eq_true, if_false] at hm ⊢
      rw [isLowerThan_iff, h1 a ha, h1 b hb]
      simp only [Bool.false_eq_true, if_false]
      rcases lt_or_eq_of_le hm with h | h
      · exact Or.inl h
      · exact Or.inr ⟨h, by omega⟩
    · simp only [if_true] at hm ⊢
      rw [isLowerThan_iff, h1 a ha, h1 b hb]
      simp only [if_true]
      rcases lt_or_eq_of_le hm with h | h
      · exact Or.inl h
      · exact Or.inr ⟨h, by omega⟩
  rcases lt_trichotomy i j with hij | hij | hij
  · have := key i j hi hj hij
    cases dir
    · simp only [Bool.false_eq_true, if_false] at this ⊢
      rw [isLowerThan_asymm this]
      simp; omega
    · simp only [if_true] at this ⊢
      rw [this]; simp [hij]
  · subst hij
    rw [isLowerThan_irrefl]
    cases dir <;> simp
  · have := key j i hj hi hij
    cases dir
    · simp only [Bool.false_eq_true, if_false] at this ⊢
      rw [this]; simp [hij]
    · simp only [if_true] at this ⊢
      rw [isLowerThan_asymm this]
      simp; omega

/-- A pass on a connected mesh and a field with distinct offsets: it completes after
dequeuing every vertex exactly once. An additional invariant `J` of the growth loop comes
out as well. -/
theorem regionGrowPass_strong {N : Nat} {nb : Nat → List Nat} (hnb : InRange N nb)
    (hc : ConnectedMesh N nb) {s : Nat → α} {o : Nat → Int} (ho : DistinctOffsets N o)
    (dir : Bool) (seeds : List Nat) (ae : Nat → Bool) (hnd : seeds.Nodup)
    (hlt : ∀ k ∈ seeds, k < N) (hne : seeds ≠ [])
    (J : List (Triple α) → (Nat → Bool) → (Nat → Nat) → Nat → Prop)
    (hJ0 : J (addSeeds (SweepCmp dir) s o seeds (ae, [], fun _ => false)).2.1
      (addSeeds (SweepCmp dir) s o seeds (ae, [], fun _ => false)).2.2 (fun _ => 0) 0)
    (hJ : ∀ t rest vis seq pos, StrongInv N nb s o dir seeds (t :: rest) vis seq pos →
      J (t :: rest) vis seq pos →
      J (visitNeighbors (SweepCmp dir) s o (nb t.2.2) (rest, vis)).1
        (visitNeighbors (SweepCmp dir) s o (nb t.2.2) (rest, vis)).2
        (Function.update seq pos t.2.2) (pos + 1)) :
    ∃ vis seq, regionGrowPass N nb dir seeds ae s o =
        Pass.done (addSeeds (SweepCmp dir) s o seeds (ae, [], fun _ => false)).1 seq N
          (rewrite N dir seq s o).1 (rewrite N dir seq s o).2 ∧
      StrongInv N nb s o dir seeds [] vis seq N ∧ SeqPerm N seq ∧ J [] vis seq N := by
  obtain ⟨vis, seq, h1, h2, h3, h4⟩ :=
    growthLoop_strong hnb hc ho dir seeds ae hnd hlt hne J hJ0 hJ
  exact ⟨vis, seq, regionGrowPass_of_done N nb dir seeds ae s o seq N h1, h2, h3, h4⟩

end OffsetsAfter

section Concrete

theorem connectedMesh_of_hub {N : Nat} {nb : Nat → List Nat} (c : Nat)
    (h : ∀ v, v < N → Relation.ReflTransGen (fun a b => b ∈ nb a) c v ∧
      Relation.ReflTransGen (fun a b => b ∈ nb a) v c) : ConnectedMesh N nb :=
  fun u hu v hv => (h u hu).2.trans (h v hv).1

theorem star3_inRange : InRange 3 star3 := by unfold InRange; decide

theorem star3_symmetric : SymmetricNeighbors 3 star3 := by
  unfold SymmetricNeighbors; decide

theorem star3_connected : ConnectedMesh 3 star3 := by
  have e01 : (fun a b => b ∈ star3 a) 0 1 := by decide
  have e02 : (fun a b => b ∈ star3 a) 0 2 := by decide
  have e10 : (fun a b => b ∈ star3 a) 1 0 := by decide
  have e20 : (fun a b => b ∈ star3 a) 2 0 := by decide
  apply connectedMesh_of_hub 0
  intro v hv
  have h : v = 0 ∨ v = 1 ∨ v = 2 := by omega
  rcases h with rfl | rfl | rfl
  · exact ⟨Relation.ReflTransGen.refl, Relation.ReflTransGen.refl⟩
  · exact ⟨Relation.ReflTransGen.single e01, Relation.ReflTransGen.single e10⟩
  · exact ⟨Relation.ReflTransGen.single e02, Relation.ReflTransGen.single e20⟩

/-- The offsets `[2, 1, 2^32 + 1]` are pairwise distinct; stored in a `SimplexId` they are
`[2, 1, 1]`. -/
theorem distinctOffsets_wide3 :
    DistinctOffsets 3 (fieldOf 0 [2, 1, 4294967297]) ∧
    (List.range 3).map (preprocessOffsets (fieldOf 0 [2, 1, 4294967297])) = [2, 1, 1] := by
  constructor
  · unfold DistinctOffsets; decide
  · decide

theorem chain4_inRange : InRange 4 chain4 := by unfold InRange; decide

theorem chain4_connected : ConnectedMesh 4 chain4 := by
  have e01 : (fun a b => b ∈ chain4 a) 0 1 := by decide
  have e12 : (fun a b => b ∈ chain4 a) 1 2 := by decide
  have e23 : (fun a b => b ∈ chain4 a) 2 3 := by decide
  have e10 : (fun a b => b ∈ chain4 a) 1 0 := by decide
  have e21 : (fun a b => b ∈ chain4 a) 2 1 := by decide
  have e32 : (fun a b => b ∈ chain4 a) 3 2 := by decide
  apply connectedMesh_of_hub 0
  intro v hv
  interval_cases v
  · exact ⟨.refl, .refl⟩
  · exact ⟨.single e01, .single e10⟩
  · exact ⟨.tail (.single e01) e12, .tail (.single e21) e10⟩
  · exact ⟨.tail (.tail (.single e01) e12) e23, .tail (.tail (.single e32) e21) e10⟩

theorem chain4_symmetric : SymmetricNeighbors 4 chain4 := by
  unfold SymmetricNeighbors; decide

theorem distinctOffsets_id4 : DistinctOffsets 4 (fieldOf 0 [0, 1, 2, 3]) := by
  unfold DistinctOffsets; decide

theorem distinctOffsets_stored4 :
    DistinctOffsets 4 (preprocessOffsets (fieldOf 0 [0, 1, 2, 3])) := by
  unfold DistinctOffsets; decide

theorem eps_one_pos : ∀ e : Int, some (1 : Int) = some e → 0 < e := by
  intro e h
  cases h
  decide

end Concrete

section ClaimC1
variable {α : Type} [LinearOrder α]

/-- What a pass does to the offsets on a connected mesh and a field with distinct offsets. -/
theorem regionGrowPass_offsets {N : Nat} {nb : Nat → List Nat} (hnb : InRange N nb)
    (hc : ConnectedMesh N nb) (dir : Bool) (seeds : List Nat) (ae : Nat → Bool)
    (s : Nat → α) (o : Nat → Int) (ho : DistinctOffsets N o) (hnd : seeds.Nodup)
    (hlt : ∀ k ∈ seeds, k < N) (hne : seeds ≠ []) :
    ∃ ae1 seq s1 o1, regionGrowPass N nb dir seeds ae s o = Pass.done ae1 seq N s1 o1 ∧
      SeqPerm N seq ∧
      (∀ k, k < N → o1 (seq k) = if dir then (k : Int) + 1 else (N : Int) - k) ∧
      OffsetsPerm N o1 ∧ DistinctOffsets N o1 := by
  obtain ⟨vis, seq, hp, _, hperm, _⟩ := regionGrowPass_strong (s := s) hnb hc ho dir seeds ae
    hnd hlt hne
    (fun _ _ _ _ => True) trivial (fun _ _ _ _ _ _ _ => trivial)
  have hb := rewrite_offsets_bounded dir s o hperm
  exact ⟨_, seq, _, _, hp, hperm, (rewrite_perm dir s o hperm).1,
    offsetsPerm_of_bounded hb.1 hb.2, hb.1⟩

variable [Add α] [Zero α]

/-- C1 (as written) fails for an `idType` wider than `SimplexId`. On the star with centre
0 and leaves 1, 2 (symmetric, connected), all scalars 0, the input offsets
`[2, 1, 2^32 + 1]` are pairwise distinct but are stored as `[2, 1, 1]`; with the whitelist
`[0, 1, 2]` `execute` returns 0 after one iteration with the output offsets `[1, 2, 1]`. -/
theorem C1_offset_permutation_counterexample :
    InRange 3 star3 ∧ SymmetricNeighbors 3 star3 ∧ ConnectedMesh 3 star3 ∧
    DistinctOffsets 3 (fieldOf 0 [2, 1, 4294967297]) ∧
    (execute 3 star3 false false none (fieldOf none [some (0 : Int), some 0, some 0])
      (fieldOf 0 [2, 1, 4294967297]) [0, 1, 2]).map
        (fun r => (r.status, r.iteration, (List.range 3).map r.offsets)) =
      some (0, 1, [1, 2, 1]) :=
  ⟨star3_inRange, star3_symmetric, star3_connected, distinctOffsets_wide3.1, by decide⟩

/-- C1 (amended). Offset permutation. On a connected mesh with in-range neighbour ids and
input offsets that are pairwise distinct as the pre-processing stores them (converted to
`SimplexId`), `execute` returns, and whenever it returns 0 after at least one iteration the
output offsets are a permutation of `1, …, N`. Every pass on a field with distinct offsets
and a non-empty seed list completes with all `N` vertices dequeued and sets
`offsets[adjustmentSequence[k]]` to `k + 1` (ascending) or `N - k` (descending), again a
permutation of `1, …, N`. -/
theorem C1_offset_permutation {N : Nat} {nb : Nat → List Nat} (hnb : InRange N nb)
    (hc : ConnectedMesh N nb) (bl pf : Bool) (eps : Option α) (inS : Nat → Option α)
    (inO : Nat → Int) (ids : List Int) (ho : DistinctOffsets N (preprocessOffsets inO)) :
    (∃ r, execute N nb bl pf eps inS inO ids = some r ∧
      (r.status = 0 → 1 ≤ r.iteration → OffsetsPerm N r.offsets)) ∧
    (∀ (dir : Bool) (seeds : List Nat) (ae : Nat → Bool) (s : Nat → α) (o : Nat → Int),
      DistinctOffsets N o → seeds.Nodup → (∀ k ∈ seeds, k < N) → seeds ≠ [] →
      ∃ ae1 seq s1 o1, regionGrowPass N nb dir seeds ae s o = Pass.done ae1 seq N s1 o1 ∧
        SeqPerm N seq ∧
        (∀ k, k < N → o1 (seq k) = if dir then (k : Int) + 1 else (N : Int) - k) ∧
        OffsetsPerm N o1 ∧ DistinctOffsets N o1) := by
  refine ⟨?_, fun dir seeds ae s o ho' hnd hlt hne =>
    regionGrowPass_offsets hnb hc dir seeds ae s o ho' hnd hlt hne⟩
  obtain ⟨r, hr, _, h1, _, _, _, hle, _⟩ := execute_weak hnb bl pf eps inS inO ids
    (fun _ _ => True) trivial (fun _ _ _ _ _ _ _ => trivial) (fun _ _ _ _ => trivial)
  refine ⟨r, hr, fun hs hit => ?_⟩
  have hN : 0 < N := by omega
  have hAB : (authorized N nb bl inS inO ids).1 ≠ [] ∧
      (authorized N nb bl inS inO ids).2 ≠ [] := by
    constructor
    · intro hA
      have := h1.2 ⟨hN, Or.inl hA⟩
      omega
    · intro hB
      have := h1.2 ⟨hN, Or.inr hB⟩
      omega
  obtain ⟨r', ae', hr', _, hI, _⟩ := mainLoop_induct N nb pf eps
    (authorized N nb bl inS inO ids).1 (authorized N nb bl inS inO ids).2
    (fun _ _ o it _ => DistinctOffsets N o ∧ (1 ≤ it → OffsetsPerm N o))
    (by
      intro ae s o it need ⟨hd, _⟩
      obtain ⟨ae1, seq1, s1, o1, hp1, _, _, _, hd1⟩ := regionGrowPass_offsets hnb hc true
        (authorized N nb bl inS inO ids).1 ae s o hd (authorized_nodup N nb bl inS inO ids).1
        (authorized_lt N nb bl inS inO ids).1 hAB.1
      obtain ⟨ae2, seq2, s2, o2, hp2, _, _, hperm2, hd2⟩ := regionGrowPass_offsets hnb hc false
        (authorized N nb bl inS inO ids).2 ae1 s1 o1 hd1
        (authorized_nodup N nb bl inS inO ids).2 (authorized_lt N nb bl inS inO ids).2 hAB.2
      exact ⟨ae1, seq1, N, s1, o1, ae2, seq2, N, s2, o2, hp1, hp2, hd2, fun _ => hperm2⟩)
    N (fun _ => false) (preprocessScalars inS) (preprocessOffsets inO) 0 true ⟨ho, fun h => absurd h (by omega)⟩
  rw [execute_eq, hr'] at hr
  cases hr
  exact hI.2 hit

/-- C1 amended, at the path 0 - 1 - 2 - 3 with scalars `[0, 5, 1, 7]`, where `execute` returns 0
after one iteration. -/
theorem C1_offset_permutation_witness :
    InRange 4 chain4 ∧ ConnectedMesh 4 chain4 ∧ DistinctOffsets 4 (preprocessOffsets (fieldOf 0 [0, 1, 2, 3])) ∧
    (execute 4 chain4 false false none
        (fieldOf none [some (0 : Int), some 5, some 1, some 7]) (fieldOf 0 [0, 1, 2, 3])
        [0, 1, 3]).map (fun r => (r.status, r.iteration)) = some (0, 1) ∧
    ∃ r, execute 4 chain4 false false none
        (fieldOf none [some (0 : Int), some 5, some 1, some 7]) (fieldOf 0 [0, 1, 2, 3])
        [0, 1, 3] = some r ∧
      (r.status = 0 → 1 ≤ r.iteration → OffsetsPerm 4 r.offsets) :=
  ⟨chain4_inRange, chain4_connected, distinctOffsets_stored4, by decide,
    (C1_offset_permutation chain4_inRange chain4_connected false false none
      (fieldOf none [some (0 : Int), some 5, some 1, some 7]) (fieldOf 0 [0, 1, 2, 3])
      [0, 1, 3] distinctOffsets_stored4).1⟩

end ClaimC1

section SortSorted
variable {α : Type}

theorem pairwise_sortInsert (cmp : Triple α → Triple α → Bool)
    (htrans : ∀ a b c, cmp a b = true → cmp b c = true → cmp a c = true) {t : Triple α}
    {l : List (Triple α)} (h : l.Pairwise (fun a b => cmp a b = true))
    (htot : ∀ x ∈ l, cmp t x = true ∨ cmp x t = true) :
    (sortInsert cmp t l).Pairwise (fun a b => cmp a b = true) := by
  induction l with
  | nil => simp [sortInsert]
  | cons x xs ih =>
    rw [List.pairwise_cons] at h
    simp only [sortInsert]
    split_ifs with h1
    · rw [List.pairwise_cons]
      refine ⟨?_, ih h.2 (fun y hy => htot y (List.mem_cons_of_mem _ hy))⟩
      intro y hy
      rcases List.mem_cons.1 ((sortInsert_perm cmp t xs).mem_iff.1 hy) with rfl | hy
      · exact h1
      · exact h.1 y hy
    · have h2 : cmp t x = true := (htot x (List.mem_cons_self _ _)).resolve_right h1
      rw [List.pairwise_cons]
      refine ⟨?_, List.pairwise_cons.2 h⟩
      intro y hy
      rcases List.mem_cons.1 hy with rfl | hy
      · exact h2
      · exact htrans _ _ _ h2 (h.1 y hy)

theorem pairwise_sort (cmp : Triple α → Triple α → Bool)
    (htrans : ∀ a b c, cmp a b = true → cmp b c = true → cmp a c = true)
    {l : List (Triple α)}
    (htot : l.Pairwise (fun a b => cmp a b = true ∨ cmp b a = true)) :
    (sort cmp l).Pairwise (fun a b => cmp a b = true) := by
  induction l with
  | nil => exact List.Pairwise.nil
  | cons x xs ih =>
    rw [List.pairwise_cons] at htot
    show (sortInsert cmp x (sort cmp xs)).Pairwise _
    apply pairwise_sortInsert cmp htrans (ih htot.2)
    intro y hy
    exact htot.1 y ((sort_perm cmp xs).mem_iff.1 hy)

theorem frontVertices_map_tripleOf (s : Nat → α) (o : Nat → Int) (l : List Nat) :
    frontVertices (l.map (tripleOf s o)) = l := by
  simp [frontVertices, tripleOf, Function.comp_def]

end SortSorted

section PerturbOrder
variable {α : Type} [LinearOrderedAddCommGroup α]

/-- The lifting loop of `addPerturbation` along tuples of pairwise different vertices: the
new scalars are strictly increasing along the list and above `prev`, and the scalars of
the other vertices are unchanged. -/
theorem perturbationLoop_strict (e : α) (he : 0 < e) (l : List (Triple α))
    (prev : Option α) (s : Nat → α) (hnd : (frontVertices l).Nodup) :
    (∀ v, v ∉ frontVertices l → perturbationLoop e prev l s v = s v) ∧
    (∀ t ∈ l, ∀ p, prev = some p → p < perturbationLoop e prev l s t.2.2) ∧
    l.Pairwise (fun a b =>
      perturbationLoop e prev l s a.2.2 < perturbationLoop e prev l s b.2.2) := by
  induction l generalizing prev s with
  | nil =>
    refine ⟨fun _ _ => rfl, fun t ht => absurd ht (List.not_mem_nil _), List.Pairwise.nil⟩
  | cons t rest ih =>
    simp only [frontVertices, List.map_cons, List.nodup_cons] at hnd
    simp only [perturbationLoop]
    generalize hval : liftedValue e prev t.1 = value
    obtain ⟨ih1, ih2, ih3⟩ := ih (some value) (Function.update s t.2.2 value) hnd.2
    have htv : perturbationLoop e (some value) rest (Function.update s t.2.2 value) t.2.2
        = value := by
      rw [ih1 _ hnd.1]; simp
    refine ⟨?_, ?_, ?_⟩
    · intro v hv
      simp only [frontVertices, List.map_cons, List.mem_cons, not_or] at hv
      rw [ih1 v hv.2, Function.update_noteq hv.1]
    · intro t' ht' p hp
      have hpv : p < value := by
        subst hp
        rw [← hval]
        simp only [liftedValue]
        split_ifs with hc
        · exact lt_add_of_pos_right p he
        · exact not_le.1 hc
      rcases List.mem_cons.1 ht' with rfl | ht'
      · rw [htv]; exact hpv
      · exact hpv.trans (ih2 t' ht' value rfl)
    · rw [List.pairwise_cons]
      refine ⟨fun t' ht' => ?_, ih3⟩
      rw [htv]
      exact ih2 t' ht' value rfl

/-- With `0 < epsilon` and distinct offsets, of two different vertices the one that is lower
before `addPerturbation` has the strictly smaller scalar after it. -/
theorem addPerturbation_pair {N : Nat} (e : α) (he : 0 < e) (s : Nat → α) {o : Nat → Int}
    (ho : DistinctOffsets N o) (a b : Nat) (ha : a < N) (hb : b < N) (hab : a ≠ b) :
    (isLowerThan a b s o = true ∧
      (addPerturbation N (some e) s o).2 a < (addPerturbation N (some e) s o).2 b) ∨
    (isLowerThan b a s o = true ∧
      (addPerturbation N (some e) s o).2 b < (addPerturbation N (some e) s o).2 a) := by
  simp only [addPerturbation]
  set l := (List.range N).map (tripleOf s o) with hl
  have hl' : (List.range N).map (fun i => ((s i, o i, i) : Triple α)) = l := rfl
  rw [hl']
  have hperm := sort_perm (SweepCmp true) l
  have htot : l.Pairwise (fun x y => SweepCmp true x y = true ∨ SweepCmp true y x = true) := by
    rw [hl, List.pairwise_map]
    apply List.Pairwise.imp_of_mem _ (List.nodup_range N)
    intro x y hx hy hxy
    apply SweepCmp_total
    show o x ≠ o y
    exact fun hc => hxy (ho x (List.mem_range.1 hx) y (List.mem_range.1 hy) hc)
  have hsorted := pairwise_sort (SweepCmp true) (fun _ _ _ h1 h2 => SweepCmp_trans h1 h2) htot
  have hnd : (frontVertices (sort (SweepCmp true) l)).Nodup := by
    have : List.Perm (frontVertices (sort (SweepCmp true) l)) (frontVertices l) :=
      List.Perm.map _ hperm
    rw [this.nodup_iff, hl, frontVertices_map_tripleOf]
    exact List.nodup_range N
  obtain ⟨_, _, hstrict⟩ := perturbationLoop_strict e he (sort (SweepCmp true) l) none s hnd
  have hboth := hsorted.and hstrict
  have hsym := List.Pairwise.forall (R := fun x y : Triple α =>
      (SweepCmp true x y = true ∧
        perturbationLoop e none (sort (SweepCmp true) l) s x.2.2 <
          perturbationLoop e none (sort (SweepCmp true) l) s y.2.2) ∨
      (SweepCmp true y x = true ∧
        perturbationLoop e none (sort (SweepCmp true) l) s y.2.2 <
          perturbationLoop e none (sort (SweepCmp true) l) s x.2.2))
    (fun x y h => h.symm) (hboth.imp (fun h => Or.inl h))
  have hma : tripleOf s o a ∈ sort (SweepCmp true) l :=
    hperm.mem_iff.2 (List.mem_map.2 ⟨a, List.mem_range.2 ha, rfl⟩)
  have hmb : tripleOf s o b ∈ sort (SweepCmp true) l :=
    hperm.mem_iff.2 (List.mem_map.2 ⟨b, List.mem_range.2 hb, rfl⟩)
  have hne : tripleOf s o a ≠ tripleOf s o b := fun hc => hab (by
    have := congrArg (fun t : Triple α => t.2.2) hc
    exact this)
  rcases hsym hma hmb hne with ⟨h1, h2⟩ | ⟨h1, h2⟩
  · rw [SweepCmp_tripleOf] at h1
    exact Or.inl ⟨h1, h2⟩
  · rw [SweepCmp_tripleOf] at h1
    exact Or.inr ⟨h1, h2⟩

/-- With `0 < epsilon` and distinct offsets `addPerturbation` keeps the symbolic order of
every two vertices. -/
theorem addPerturbation_order {N : Nat} (eps : Option α) (heps : ∀ e, eps = some e → 0 < e)
    (s : Nat → α) {o : Nat → Int} (ho : DistinctOffsets N o) (a b : Nat) (ha : a < N)
    (hb : b < N) :
    isLowerThan a b (addPerturbation N eps s o).2 o = isLowerThan a b s o := by
  cases eps with
  | none => rfl
  | some e =>
    by_cases hab : a = b
    · subst hab; rw [isLowerThan_irrefl, isLowerThan_irrefl]
    rcases addPerturbation_pair e (heps e rfl) s ho a b ha hb hab with ⟨h1, h2⟩ | ⟨h1, h2⟩
    · rw [h1, isLowerThan_iff]
      exact Or.inl h2
    · rw [isLowerThan_asymm h1]
      apply isLowerThan_asymm
      rw [isLowerThan_iff]
      exact Or.inl h2

/-- With `0 < epsilon`, distinct offsets and in-range neighbour ids `addPerturbation` keeps
the critical type of every vertex. -/
theorem addPerturbation_getCriticalType {N : Nat} {nb : Nat → List Nat} (hnb : InRange N nb)
    (eps : Option α) (heps : ∀ e, eps = some e → 0 < e) (s : Nat → α) {o : Nat → Int}
    (ho : DistinctOffsets N o) (v : Nat) (hv : v < N) :
    getCriticalType nb v (addPerturbation N eps s o).2 o = getCriticalType nb v s o :=
  getCriticalType_congr nb v s _ o o fun u hu =>
    ⟨addPerturbation_order eps heps s ho u v (hnb v hv u hu) hv,
      addPerturbation_order eps heps s ho v u hv (hnb v hv u hu)⟩

end PerturbOrder

section Convergence

theorem testConvergence_eq_false (A B mn mx : List Nat) (ae : Nat → Bool) :
    testConvergence A B mn mx ae = false ↔
      mx.length ≤ B.length ∧ mn.length ≤ A.length ∧
        (∀ k ∈ mn, ae k = true) ∧ (∀ k ∈ mx, ae k = true) := by
  unfold testConvergence
  by_cases h1 : mx.length > B.length
  · simp [h1]
  · by_cases h2 : mn.length > A.length
    · simp [h1, h2]
    · simp only [h1, h2, if_false, Bool.not_false, if_true]
      by_cases h3 : mn.any (fun k => !ae k) = true
      · simp only [h3, Bool.not_true, Bool.false_eq_true, if_false]
        simp only [List.any_eq_true, Bool.not_eq_true'] at h3
        obtain ⟨k, hk, hk'⟩ := h3
        simp only [Bool.true_eq_false, false_iff, not_and]
        intro _ _ h
        have := h k hk
        rw [hk'] at this
        exact absurd this Bool.false_ne_true
      · simp only [Bool.not_eq_true] at h3
        simp only [h3, Bool.not_false, if_true]
        have h3' : ∀ k ∈ mn, ae k = true := by
          intro k hk
          by_contra hc
          have : mn.any (fun k => !ae k) = true :=
            List.any_eq_true.2 ⟨k, hk, by simpa using hc⟩
          rw [h3] at this
          exact Bool.false_ne_true this
        constructor
        · intro h4
          refine ⟨by omega, by omega, h3', ?_⟩
          intro k hk
          by_contra hc
          have : mx.any (fun k => !ae k) = true :=
            List.any_eq_true.2 ⟨k, hk, by simpa using hc⟩
          rw [h4] at this
          exact Bool.false_ne_true this
        · rintro ⟨_, _, _, h4⟩
          rw [Bool.eq_false_iff]
          intro hc
          obtain ⟨k, hk, hk'⟩ := List.any_eq_true.1 hc
          have := h4 k hk
          rw [this] at hk'
          simp at hk'

theorem userExtrema_foldl (N : Nat) (ids : List Int) (ext : Nat → Bool) (v : Nat) :
    ids.foldl
      (fun extrema identifierId =>
        if 0 ≤ identifierId ∧ identifierId < (N : Int) then
          Function.update extrema identifierId.toNat true
        else extrema) ext v = true ↔
      ext v = true ∨ (v < N ∧ (v : Int) ∈ ids) := by
  induction ids generalizing ext with
  | nil => simp
  | cons i ids ih =>
    rw [List.foldl_cons, ih]
    by_cases hi : 0 ≤ i ∧ i < (N : Int)
    · rw [if_pos hi]
      by_cases hv : v = i.toNat
      · subst hv
        have : ((i.toNat : Nat) : Int) = i := Int.toNat_of_nonneg hi.1
        simp only [Function.update_same, true_or, List.mem_cons, this, true_iff]
        right
        exact ⟨by omega, trivial⟩
      · rw [Function.update_noteq hv]
        have : (v : Int) ≠ i := fun hc => hv (by omega)
        simp [this]
    · rw [if_neg hi]
      have : v < N → (v : Int) ≠ i := fun hv hc => hi (by omega)
      simp only [List.mem_cons]
      constructor
      · rintro (h | ⟨h1, h2⟩)
        · exact Or.inl h
        · exact Or.inr ⟨h1, Or.inr h2⟩
      · rintro (h | ⟨h1, h2 | h2⟩)
        · exact Or.inl h
        · exact absurd h2 (this h1)
        · exact Or.inr ⟨h1, h2⟩

/-- The constraint bit of `v` is set iff `v` is a vertex id that a listed identifier
converts to. -/
theorem userExtrema_iff (N : Nat) (ids : List Int) (v : Nat) :
    userExtrema N ids v = true ↔ v < N ∧ (v : Int) ∈ ids.map toSimplexId := by
  have h := userExtrema_foldl N (ids.map toSimplexId) (fun _ => false) v
  rw [List.foldl_map] at h
  unfold userExtrema
  rw [h]
  simp

end Convergence

section AuthorizedMem
variable {α : Type} [LinearOrder α] [Zero α]

theorem mem_authorized_fst (N : Nat) (nb : Nat → List Nat) (bl : Bool)
    (inS : Nat → Option α) (inO : Nat → Int) (ids : List Int) (v : Nat) :
    v ∈ (authorized N nb bl inS inO ids).1 ↔
      v < N ∧ xor bl (userExtrema N ids v) = true ∧
        getCriticalType nb v (preprocessScalars inS) (preprocessOffsets inO) = -1 := by
  rw [authorized_eq]
  simp [List.mem_filter]

theorem mem_authorized_snd (N : Nat) (nb : Nat → List Nat) (bl : Bool)
    (inS : Nat → Option α) (inO : Nat → Int) (ids : List Int) (v : Nat) :
    v ∈ (authorized N nb bl inS inO ids).2 ↔
      v < N ∧ xor bl (userExtrema N ids v) = true ∧
        getCriticalType nb v (preprocessScalars inS) (preprocessOffsets inO) = 1 := by
  rw [authorized_eq]
  simp [List.mem_filter]

end AuthorizedMem

section Converged
variable {α : Type} [LinearOrder α]

theorem getCriticalPoints_congr (N : Nat) (nb : Nat → List Nat) (s s' : Nat → α)
    (o o' : Nat → Int)
    (h : ∀ v, v < N → getCriticalType nb v s' o' = getCriticalType nb v s o) :
    getCriticalPoints N nb s' o' [] [] = getCriticalPoints N nb s o [] [] := by
  rw [getCriticalPoints_nil, getCriticalPoints_nil]
  congr 1
  · apply List.filter_congr
    intro v hv
    rw [h v (List.mem_range.1 hv)]
  · apply List.filter_congr
    intro v hv
    rw [h v (List.mem_range.1 hv)]

theorem mem_getCriticalPoints_fst (N : Nat) (nb : Nat → List Nat) (s : Nat → α)
    (o : Nat → Int) (v : Nat) :
    v ∈ (getCriticalPoints N nb s o [] []).1 ↔ v < N ∧ getCriticalType nb v s o = -1 := by
  rw [getCriticalPoints_nil]
  simp [List.mem_filter]

theorem mem_getCriticalPoints_snd (N : Nat) (nb : Nat → List Nat) (s : Nat → α)
    (o : Nat → Int) (v : Nat) :
    v ∈ (getCriticalPoints N nb s o [] []).2 ↔ v < N ∧ getCriticalType nb v s o = 1 := by
  rw [getCriticalPoints_nil]
  simp [List.mem_filter]

end Converged

section ConvergedExec
variable {α : Type} [LinearOrderedAddCommGroup α]

/-- On a connected mesh with distinct input offsets and `0 < epsilon`: when `execute`
leaves the main loop through the convergence break, the minima and maxima of the returned
field are authorized and not more numerous than the authorized ones. -/
theorem execute_converged {N : Nat} {nb : Nat → List Nat} (hnb : InRange N nb)
    (hc : ConnectedMesh N nb) (bl pf : Bool) (eps : Option α)
    (heps : ∀ e, eps = some e → 0 < e) (inS : Nat → Option α) (inO : Nat → Int)
    (ids : List Int) (ho : DistinctOffsets N (preprocessOffsets inO)) :
    ∃ r, execute N nb bl pf eps inS inO ids = some r ∧
      (r.status = 0 → r.needForMoreIterations = false →
        (∀ k ∈ (getCriticalPoints N nb r.scalars r.offsets [] []).1,
          k ∈ (authorized N nb bl inS inO ids).1 ∨ k ∈ (authorized N nb bl inS inO ids).2) ∧
        (∀ k ∈ (getCriticalPoints N nb r.scalars r.offsets [] []).2,
          k ∈ (authorized N nb bl inS inO ids).1 ∨ k ∈ (authorized N nb bl inS inO ids).2) ∧
        (getCriticalPoints N nb r.scalars r.offsets [] []).1.length ≤
          (authorized N nb bl inS inO ids).1.length ∧
        (getCriticalPoints N nb r.scalars r.offsets [] []).2.length ≤
          (authorized N nb bl inS inO ids).2.length) := by
  obtain ⟨r, hr, _, h1, _, _, h4, hle, _⟩ := execute_weak hnb bl pf eps inS inO ids
    (fun _ _ => True) trivial (fun _ _ _ _ _ _ _ => trivial) (fun _ _ _ _ => trivial)
  refine ⟨r, hr, fun hs hneed => ?_⟩
  generalize hA : (authorized N nb bl inS inO ids).1 = A at *
  generalize hB : (authorized N nb bl inS inO ids).2 = B at *
  have hAnd : A.Nodup := hA ▸ (authorized_nodup N nb bl inS inO ids).1
  have hBnd : B.Nodup := hB ▸ (authorized_nodup N nb bl inS inO ids).2
  have hAlt : ∀ k ∈ A, k < N := hA ▸ (authorized_lt N nb bl inS inO ids).1
  have hBlt : ∀ k ∈ B, k < N := hB ▸ (authorized_lt N nb bl inS inO ids).2
  rcases Nat.eq_zero_or_pos N with hN | hN
  · subst hN
    rw [execute_eq, mainLoop_zero] at hr
    cases hr
    simp at hneed
  have hAB : A ≠ [] ∧ B ≠ [] := by
    constructor
    · intro h
      have := h1.2 ⟨hN, Or.inl h⟩
      omega
    · intro h
      have := h1.2 ⟨hN, Or.inr h⟩
      omega
  obtain ⟨r', ae', hr', _, hI, _⟩ := mainLoop_induct N nb pf eps A B
    (fun ae s o _ need => DistinctOffsets N o ∧ (∀ v, ae v = true → v ∈ A ∨ v ∈ B) ∧
      (need = false →
        (∀ k ∈ (getCriticalPoints N nb s o [] []).1, k ∈ A ∨ k ∈ B) ∧
        (∀ k ∈ (getCriticalPoints N nb s o [] []).2, k ∈ A ∨ k ∈ B) ∧
        (getCriticalPoints N nb s o [] []).1.length ≤ A.length ∧
        (getCriticalPoints N nb s o [] []).2.length ≤ B.length))
    (by
      intro ae s o it need ⟨hd, hae, _⟩
      obtain ⟨vis1, seq1, hp1, _, hperm1, _⟩ := regionGrowPass_strong (s := s) hnb hc hd true A
        ae hAnd hAlt hAB.1 (fun _ _ _ _ => True) trivial (fun _ _ _ _ _ _ _ => trivial)
      have hd1 := (rewrite_offsets_bounded true s o hperm1).1
      obtain ⟨vis2, seq2, hp2, _, hperm2, _⟩ := regionGrowPass_strong
        (s := (rewrite N true seq1 s o).1) hnb hc hd1 false B
        (addSeeds (SweepCmp true) s o A (ae, [], fun _ => false)).1 hBnd hBlt hAB.2
        (fun _ _ _ _ => True) trivial (fun _ _ _ _ _ _ _ => trivial)
      have hd2 := (rewrite_offsets_bounded false (rewrite N true seq1 s o).1
        (rewrite N true seq1 s o).2 hperm2).1
      refine ⟨_, _, _, _, _, _, _, _, _, _, hp1, hp2, hd2, ?_, ?_⟩
      · intro v hv
        rw [(addSeeds_marks _ _ _ _ _ v).1, (addSeeds_marks _ _ _ _ _ v).1] at hv
        simp only [Bool.or_eq_true, decide_eq_true_eq] at hv
        rcases hv with (hv | hv) | hv
        · exact hae v hv
        · exact Or.inl hv
        · exact Or.inr hv
      · intro hconv
        rw [testConvergence_eq_false] at hconv
        obtain ⟨c1, c2, c3, c4⟩ := hconv
        have hmarks : ∀ v, (addSeeds (SweepCmp false) (rewrite N true seq1 s o).1
            (rewrite N true seq1 s o).2 B
            ((addSeeds (SweepCmp true) s o A (ae, [], fun _ => false)).1, [],
              fun _ => false)).1 v = true → v ∈ A ∨ v ∈ B := by
          intro v hv
          rw [(addSeeds_marks _ _ _ _ _ v).1, (addSeeds_marks _ _ _ _ _ v).1] at hv
          simp only [Bool.or_eq_true, decide_eq_true_eq] at hv
          rcases hv with (hv | hv) | hv
          · exact hae v hv
          · exact Or.inl hv
          · exact Or.inr hv
        have hcongr : getCriticalPoints N nb
            (if pf then (addPerturbation N eps
              (rewrite N false seq2 (rewrite N true seq1 s o).1 (rewrite N true seq1 s o).2).1
              (rewrite N false seq2 (rewrite N true seq1 s o).1 (rewrite N true seq1 s o).2).2).2
            else (rewrite N false seq2 (rewrite N true seq1 s o).1
              (rewrite N true seq1 s o).2).1)
            (rewrite N false seq2 (rewrite N true seq1 s o).1 (rewrite N true seq1 s o).2).2
            [] [] =
          getCriticalPoints N nb
            (rewrite N false seq2 (rewrite N true seq1 s o).1 (rewrite N true seq1 s o).2).1
            (rewrite N false seq2 (rewrite N true seq1 s o).1 (rewrite N true seq1 s o).2).2
            [] [] := by
          cases pf
          · rfl
          · exact getCriticalPoints_congr N nb _ _ _ _ fun v hv =>
              addPerturbation_getCriticalType hnb eps heps _ hd2 v hv
        rw [hcongr]
        exact ⟨fun k hk => hmarks k (c3 k hk), fun k hk => hmarks k (c4 k hk), c2, c1⟩)
    N (fun _ => false) (preprocessScalars inS) (preprocessOffsets inO) 0 true
    ⟨ho, fun v hv => absurd hv Bool.false_ne_true, fun h => absurd h (by simp)⟩
  rw [execute_eq, hA, hB, hr'] at hr
  cases hr
  exact hI.2.2 hneed

end ConvergedExec

section ClaimsC3C4
variable {α : Type} [LinearOrderedAddCommGroup α]

/-- C4 as stated fails. On the path 0 - 1 - 2 - 3 with scalars `[0, 5, 1, 7]`, offsets
`[0, 1, 2, 3]` and the whitelist `[0, 1, 3]` there are two authorized maxima (1 and 3);
`execute` converges in one iteration, returns 0, and the output has one maximum. -/
theorem C4_extrema_count_counterexample :
    authorized 4 chain4 false (fieldOf none [some (0 : Int), some 5, some 1, some 7])
      (fieldOf 0 [0, 1, 2, 3]) [0, 1, 3] = ([0], [1, 3]) ∧
    (execute 4 chain4 false false none (fieldOf none [some (0 : Int), some 5, some 1, some 7])
      (fieldOf 0 [0, 1, 2, 3]) [0, 1, 3]).map
        (fun r => (r.status, r.needForMoreIterations,
          getCriticalPoints 4 chain4 r.scalars r.offsets [] [])) =
      some (0, false, [0], [3]) := by
  decide

/-- C4, amended. On a connected mesh with in-range neighbour ids, input offsets that are
pairwise distinct as the pre-processing stores them (converted to `SimplexId`) and
`0 < epsilon` added exactly, when `execute` returns 0 after the convergence break the
number of minima of the output field is at most the number of authorized minima, and the
number of maxima at most the number of authorized maxima (unmasked `getCriticalPoints`). -/
theorem C4_extrema_count_le {N : Nat} {nb : Nat → List Nat} (hnb : InRange N nb)
    (hc : ConnectedMesh N nb) (bl pf : Bool) (eps : Option α)
    (heps : ∀ e, eps = some e → 0 < e) (inS : Nat → Option α) (inO : Nat → Int)
    (ids : List Int) (ho : DistinctOffsets N (preprocessOffsets inO)) :
    ∃ r, execute N nb bl pf eps inS inO ids = some r ∧
      (r.status = 0 → r.needForMoreIterations = false →
        (getCriticalPoints N nb r.scalars r.offsets [] []).1.length ≤
          (authorized N nb bl inS inO ids).1.length ∧
        (getCriticalPoints N nb r.scalars r.offsets [] []).2.length ≤
          (authorized N nb bl inS inO ids).2.length) := by
  obtain ⟨r, hr, h⟩ := execute_converged hnb hc bl pf eps heps inS inO ids ho
  exact ⟨r, hr, fun hs hneed => (h hs hneed).2.2⟩

/-- C4 amended, at the path 0 - 1 - 2 - 3 with scalars `[0, 5, 1, 7]`, perturbation
enabled with `epsilon = 1`: `execute` returns 0 through the convergence break. -/
theorem C4_extrema_count_le_witness :
    InRange 4 chain4 ∧ ConnectedMesh 4 chain4 ∧
    (∀ e : Int, some (1 : Int) = some e → 0 < e) ∧
    DistinctOffsets 4 (preprocessOffsets (fieldOf 0 [0, 1, 2, 3])) ∧
    (execute 4 chain4 false true (some (1 : Int))
        (fieldOf none [some (0 : Int), some 5, some 1, some 7]) (fieldOf 0 [0, 1, 2, 3])
        [0, 1, 3]).map (fun r => (r.status, r.needForMoreIterations)) = some (0, false) ∧
    ∃ r, execute 4 chain4 false true (some (1 : Int))
        (fieldOf none [some (0 : Int), some 5, some 1, some 7]) (fieldOf 0 [0, 1, 2, 3])
        [0, 1, 3] = some r ∧
      (r.status = 0 → r.needForMoreIterations = false →
        (getCriticalPoints 4 chain4 r.scalars r.offsets [] []).1.length ≤
          (authorized 4 chain4 false (fieldOf none [some (0 : Int), some 5, some 1, some 7])
            (fieldOf 0 [0, 1, 2, 3]) [0, 1, 3]).1.length ∧
        (getCriticalPoints 4 chain4 r.scalars r.offsets [] []).2.length ≤
          (authorized 4 chain4 false (fieldOf none [some (0 : Int), some 5, some 1, some 7])
            (fieldOf 0 [0, 1, 2, 3]) [0, 1, 3]).2.length) :=
  ⟨chain4_inRange, chain4_connected, eps_one_pos, distinctOffsets_stored4, by decide,
    C4_extrema_count_le chain4_inRange chain4_connected false true (some (1 : Int))
      eps_one_pos (fieldOf none [some (0 : Int), some 5, some 1, some 7])
      (fieldOf 0 [0, 1, 2, 3]) [0, 1, 3] distinctOffsets_stored4⟩

end ClaimsC3C4

section SeedKept
variable {α : Type} [LinearOrder α]

/-- In the growth loop on a field with distinct offsets, a seed that no neighbour precedes
in the sweep order is dequeued before each of its neighbours. -/
theorem regionGrowPass_seed_first {N : Nat} {nb : Nat → List Nat} (hnb : InRange N nb)
    (hc : ConnectedMesh N nb) (dir : Bool) (seeds : List Nat) (ae : Nat → Bool)
    (s : Nat → α) (o : Nat → Int) (ho : DistinctOffsets N o) (hnd : seeds.Nodup)
    (hlt : ∀ k ∈ seeds, k < N) (hne : seeds ≠ []) :
    ∃ seq, regionGrowPass N nb dir seeds ae s o =
        Pass.done (addSeeds (SweepCmp dir) s o seeds (ae, [], fun _ => false)).1 seq N
          (rewrite N dir seq s o).1 (rewrite N dir seq s o).2 ∧
      SeqPerm N seq ∧
      ∀ v ∈ seeds,
        (∀ u ∈ nb v, SweepCmp dir (tripleOf s o u) (tripleOf s o v) = false) →
        ∀ k, k < N → seq k = v → ∀ j, j < k → seq j ∉ nb v := by
  obtain ⟨vis, seq, hp, _, hperm, hJ⟩ := regionGrowPass_strong (s := s) hnb hc ho dir seeds ae
    hnd hlt hne
    (fun f _ seq pos => ∀ v ∈ seeds,
      (∀ u ∈ nb v, SweepCmp dir (tripleOf s o u) (tripleOf s o v) = false) →
      (v ∈ frontVertices f → ∀ u ∈ nb v, u ∉ popped seq pos) ∧
      (∀ k, k < pos → seq k = v → ∀ j, j < k → seq j ∉ nb v))
    (fun v _ _ => ⟨fun _ u _ hu => by simp [popped_zero] at hu,
      fun k hk => absurd hk (Nat.not_lt_zero _)⟩)
    (by
      intro t rest vis seq pos hS hJ v hv hext
      obtain ⟨hJ1, hJ2⟩ := hJ v hv hext
      have hS' := hS.strongStep hnb ho
      have hvfront : v ∈ frontVertices (visitNeighbors (SweepCmp dir) s o (nb t.2.2)
          (rest, vis)).1 → v ∈ frontVertices rest := by
        intro hvf
        have hnd' := hS'.weak.nodup
        rw [popped_succ, List.nodup_append] at hnd'
        have hvp : v ∉ popped seq pos ++ [t.2.2] := fun hc => hnd'.2.2 hc hvf
        rw [List.mem_append, not_or, List.mem_singleton] at hvp
        have := hS.visited v (hS.seeds v hv)
        rcases List.mem_append.1 this with h | h
        · exact absurd h hvp.1
        · simp only [frontVertices, List.map_cons, List.mem_cons] at h
          rcases h with h | h
          · exact absurd h hvp.2
          · exact h
      constructor
      · intro hvf u hu
        have hvr := hvfront hvf
        have hvtr : v ∈ frontVertices (t :: rest) := by
          simp only [frontVertices, List.map_cons, List.mem_cons]
          exact Or.inr hvr
        rw [popped_succ, List.mem_append, not_or, List.mem_singleton]
        refine ⟨hJ1 hvtr u hu, fun hut => ?_⟩
        subst hut
        obtain ⟨y, hy, hyv⟩ := mem_frontVertices.1 hvr
        have h1 := (List.pairwise_cons.1 hS.sorted).1 y hy
        rw [hS.keys t (List.mem_cons_self _ _), hS.keys y (List.mem_cons_of_mem _ hy), hyv,
          hext _ hu] at h1
        exact Bool.false_ne_true h1
      · intro k hk hkv j hj
        by_cases hkp : k = pos
        · subst hkp
          rw [Function.update_same] at hkv
          rw [Function.update_noteq (by omega : j ≠ k)]
          have hvtr : v ∈ frontVertices (t :: rest) := by
            simp only [frontVertices, List.map_cons, List.mem_cons]
            exact Or.inl hkv.symm
          intro hmem
          exact hJ1 hvtr _ hmem (mem_popped.2 ⟨j, hj, rfl⟩)
        · rw [Function.update_noteq hkp] at hkv
          rw [Function.update_noteq (by omega : j ≠ pos)]
          exact hJ2 k (by omega) hkv j hj)
  exact ⟨seq, hp, hperm, fun v hv hext => (hJ v hv hext).2⟩

/-- A pass keeps the seeds that are extrema of the right kind of the field it starts
from: minima for the ascending pass, maxima for the descending one. -/
theorem regionGrowPass_seed_kept {N : Nat} {nb : Nat → List Nat} (hnb : InRange N nb)
    (hc : ConnectedMesh N nb) (dir : Bool) (seeds : List Nat) (ae : Nat → Bool)
    (s : Nat → α) (o : Nat → Int) (ho : DistinctOffsets N o) (hnd : seeds.Nodup)
    (hlt : ∀ k ∈ seeds, k < N) (hne : seeds ≠ []) :
    ∃ ae1 seq s1 o1, regionGrowPass N nb dir seeds ae s o = Pass.done ae1 seq N s1 o1 ∧
      ∀ v ∈ seeds, getCriticalType nb v s o = (if dir then -1 else 1) →
        getCriticalType nb v s1 o1 = (if dir then -1 else 1) := by
  obtain ⟨seq, hp, hperm, hfirst⟩ :=
    regionGrowPass_seed_first hnb hc dir seeds ae s o ho hnd hlt hne
  refine ⟨_, seq, _, _, hp, fun v hv hcrit => ?_⟩
  have hvN := hlt v hv
  obtain ⟨k, hk, rfl⟩ := hperm.2.2 v hvN
  have hpos : ∀ u ∈ nb (seq k), ∃ j, j < N ∧ seq j = u :=
    fun u hu => hperm.2.2 u (hnb _ hvN u hu)
  cases dir
  · simp only [Bool.false_eq_true, if_false] at hcrit ⊢
    rw [getCriticalType_eq_one] at hcrit ⊢
    have hext : ∀ u ∈ nb (seq k),
        SweepCmp false (tripleOf s o u) (tripleOf s o (seq k)) = false := by
      intro u hu
      rw [SweepCmp_false_eq, SweepCmp_tripleOf, ← isHigherThan_eq_isLowerThan]
      exact hcrit.2 u hu
    have hge : ∀ u ∈ nb (seq k), ∀ j, j < N → seq j = u → k ≤ j := by
      intro u hu j _ hju
      by_contra hc
      exact hfirst _ hv hext k hk rfl j (by omega) (hju ▸ hu)
    constructor
    · intro hall
      apply hcrit.1
      intro u hu
      obtain ⟨j, hj, rfl⟩ := hpos u hu
      have h1 := hall _ hu
      rw [rewrite_order false s o hperm j k hj hk] at h1
      simp only [Bool.false_eq_true, if_false, decide_eq_false_iff_not, not_lt] at h1
      have h2 := hge _ hu j hj rfl
      have : j = k := by omega
      rw [this]
      exact isLowerThan_irrefl _ _ _
    · intro u hu
      obtain ⟨j, hj, rfl⟩ := hpos u hu
      rw [isHigherThan_eq_isLowerThan, rewrite_order false s o hperm k j hk hj]
      have h2 := hge _ hu j hj rfl
      simp only [Bool.false_eq_true, if_false, decide_eq_false_iff_not, not_lt]
      exact h2
  · simp only [if_true] at hcrit ⊢
    rw [getCriticalType_eq_neg_one] at hcrit ⊢
    have hext : ∀ u ∈ nb (seq k),
        SweepCmp true (tripleOf s o u) (tripleOf s o (seq k)) = false := by
      intro u hu
      rw [SweepCmp_tripleOf]
      exact hcrit u hu
    intro u hu
    obtain ⟨j, hj, rfl⟩ := hpos u hu
    rw [rewrite_order true s o hperm j k hj hk]
    simp only [if_true, decide_eq_false_iff_not, not_lt]
    by_contra hc
    exact hfirst _ hv hext k hk rfl j (by omega) hu

end SeedKept

section ClaimC2
variable {α : Type} [LinearOrder α] [Zero α]

/-- C2 as stated fails. On the path 0 - 1 - 2 - 3 with scalars `[0, 5, 1, 7]`, offsets
`[0, 1, 2, 3]` and the whitelist `[0, 1, 3]`, vertex 1 is an authorized maximum; `execute`
returns 0 and the output field classifies vertex 1 as regular. On the mirrored field
`[7, 1, 5, 0]` vertex 1 is an authorized minimum and the output classifies it as regular. -/
theorem C2_authorized_preservation_counterexample :
    authorized 4 chain4 false (fieldOf none [some (0 : Int), some 5, some 1, some 7])
      (fieldOf 0 [0, 1, 2, 3]) [0, 1, 3] = ([0], [1, 3]) ∧
    (execute 4 chain4 false false none (fieldOf none [some (0 : Int), some 5, some 1, some 7])
      (fieldOf 0 [0, 1, 2, 3]) [0, 1, 3]).map
        (fun r => (r.status, getCriticalType chain4 1 r.scalars r.offsets)) = some (0, 0) ∧
    authorized 4 chain4 false (fieldOf none [some (7 : Int), some 1, some 5, some 0])
      (fieldOf 0 [0, 1, 2, 3]) [0, 1, 3] = ([1, 3], [0]) ∧
    (execute 4 chain4 false false none (fieldOf none [some (7 : Int), some 1, some 5, some 0])
      (fieldOf 0 [0, 1, 2, 3]) [0, 1, 3]).map
        (fun r => (r.status, getCriticalType chain4 1 r.scalars r.offsets)) = some (0, 0) := by
  decide

/-- C2, amended. On a connected mesh with in-range neighbour ids, a pass on a field with
pairwise distinct offsets completes and keeps every seed that is an extremum of its
direction in the field it starts from: a seed of the ascending pass classified -1 before
the pass is classified -1 after it, a seed of the descending pass classified 1 before the
pass is classified 1 after it. In particular, with input offsets that are pairwise
distinct as the pre-processing stores them (converted to `SimplexId`), every authorized
minimum is still classified -1 after the first ascending pass of `execute`. -/
theorem C2_seed_preservation {N : Nat} {nb : Nat → List Nat} (hnb : InRange N nb)
    (hc : ConnectedMesh N nb) (bl : Bool) (inS : Nat → Option α) (inO : Nat → Int)
    (ids : List Int) (ho : DistinctOffsets N (preprocessOffsets inO)) :
    (∀ (dir : Bool) (seeds : List Nat) (ae : Nat → Bool) (s : Nat → α) (o : Nat → Int),
      DistinctOffsets N o → seeds.Nodup → (∀ k ∈ seeds, k < N) → seeds ≠ [] →
      ∃ ae1 seq s1 o1, regionGrowPass N nb dir seeds ae s o = Pass.done ae1 seq N s1 o1 ∧
        ∀ v ∈ seeds, getCriticalType nb v s o = (if dir then -1 else 1) →
          getCriticalType nb v s1 o1 = (if dir then -1 else 1)) ∧
    ((authorized N nb bl inS inO ids).1 ≠ [] →
      ∃ ae1 seq s1 o1, regionGrowPass N nb true (authorized N nb bl inS inO ids).1
          (fun _ => false) (preprocess inS inO).1 (preprocess inS inO).2 =
            Pass.done ae1 seq N s1 o1 ∧
        ∀ v ∈ (authorized N nb bl inS inO ids).1, getCriticalType nb v s1 o1 = -1) := by
  refine ⟨fun dir seeds ae s o ho' hnd hlt hne =>
    regionGrowPass_seed_kept hnb hc dir seeds ae s o ho' hnd hlt hne, fun hne => ?_⟩
  obtain ⟨ae1, seq, s1, o1, hp, hkept⟩ := regionGrowPass_seed_kept hnb hc true
    (authorized N nb bl inS inO ids).1 (fun _ => false) (preprocess inS inO).1
    (preprocess inS inO).2 ho (authorized_nodup N nb bl inS inO ids).1
    (authorized_lt N nb bl inS inO ids).1 hne
  refine ⟨ae1, seq, s1, o1, hp, fun v hv => ?_⟩
  have := hkept v hv
  simp only [if_true] at this
  exact this ((mem_authorized_fst N nb bl inS inO ids v).1 hv).2.2

/-- C2 amended, at the path 0 - 1 - 2 - 3 with scalars `[7, 1, 5, 0]`. -/
theorem C2_seed_preservation_witness :
    InRange 4 chain4 ∧ ConnectedMesh 4 chain4 ∧ DistinctOffsets 4 (preprocessOffsets (fieldOf 0 [0, 1, 2, 3])) ∧
    ((authorized 4 chain4 false (fieldOf none [some (7 : Int), some 1, some 5, some 0])
        (fieldOf 0 [0, 1, 2, 3]) [0, 1, 3]).1 ≠ [] →
      ∃ ae1 seq s1 o1, regionGrowPass 4 chain4 true
          (authorized 4 chain4 false (fieldOf none [some (7 : Int), some 1, some 5, some 0])
            (fieldOf 0 [0, 1, 2, 3]) [0, 1, 3]).1
          (fun _ => false)
          (preprocess (fieldOf none [some (7 : Int), some 1, some 5, some 0])
            (fieldOf 0 [0, 1, 2, 3])).1
          (preprocess (fieldOf none [some (7 : Int), some 1, some 5, some 0])
            (fieldOf 0 [0, 1, 2, 3])).2 = Pass.done ae1 seq 4 s1 o1 ∧
        ∀ v ∈ (authorized 4 chain4 false
            (fieldOf none [some (7 : Int), some 1, some 5, some 0])
            (fieldOf 0 [0, 1, 2, 3]) [0, 1, 3]).1, getCriticalType chain4 v s1 o1 = -1) :=
  ⟨chain4_inRange, chain4_connected, distinctOffsets_stored4,
    (C2_seed_preservation chain4_inRange chain4_connected false
      (fieldOf none [some (7 : Int), some 1, some 5, some 0]) (fieldOf 0 [0, 1, 2, 3])
      [0, 1, 3] distinctOffsets_stored4).2⟩

end ClaimC2

section Sorted
variable {α : Type} [LinearOrder α]

theorem FieldSorted.lower_iff {N : Nat} {s : Nat → α} {o : Nat → Int}
    (h : FieldSorted N s o) {a b : Nat} (ha : a < N) (hb : b < N) :
    isLowerThan a b s o = true ↔ o a < o b := by
  rw [isLowerThan_iff]
  constructor
  · rintro (h1 | ⟨_, h1⟩)
    · by_contra hc
      rcases lt_or_eq_of_le (not_lt.1 hc) with h2 | h2
      · exact absurd (h.2.2 b hb a ha h2) (not_le.2 h1)
      · have := h.1 b hb a ha h2
        subst this
        exact lt_irrefl _ h1
    · exact h1
  · intro h1
    rcases lt_or_eq_of_le (h.2.2 a ha b hb h1) with h2 | h2
    · exact Or.inl h2
    · exact Or.inr ⟨h2, h1⟩

theorem FieldSorted.exists_offset {N : Nat} {s : Nat → α} {o : Nat → Int}
    (h : FieldSorted N s o) (m : Int) (h1 : 1 ≤ m) (h2 : m ≤ N) : ∃ v, v < N ∧ o v = m := by
  have hp := offsetsPerm_of_bounded h.1 h.2.1
  have hm : m ∈ (List.range N).map (fun k : Nat => (k : Int) + 1) :=
    List.mem_map.2 ⟨(m - 1).toNat, List.mem_range.2 (by omega), by omega⟩
  obtain ⟨v, hv, hv'⟩ := List.mem_map.1 (hp.mem_iff.2 hm)
  exact ⟨v, List.mem_range.1 hv, hv'⟩

theorem FieldSorted.rank_bounds {N : Nat} {s : Nat → α} {o : Nat → Int}
    (h : FieldSorted N s o) (dir : Bool) {v : Nat} (hv : v < N) :
    0 ≤ rankOf dir N o v ∧ rankOf dir N o v < N := by
  have := h.2.1 v hv
  unfold rankOf
  cases dir
  · simp only [Bool.false_eq_true, if_false]; omega
  · simp only [if_true]; omega

theorem FieldSorted.rank_inj {N : Nat} {s : Nat → α} {o : Nat → Int}
    (h : FieldSorted N s o) (dir : Bool) {u v : Nat} (hu : u < N) (hv : v < N)
    (huv : rankOf dir N o u = rankOf dir N o v) : u = v := by
  apply h.1 u hu v hv
  unfold rankOf at huv
  cases dir
  · simp only [Bool.false_eq_true, if_false] at huv; omega
  · simp only [if_true] at huv; omega

theorem FieldSorted.exists_rank {N : Nat} {s : Nat → α} {o : Nat → Int}
    (h : FieldSorted N s o) (dir : Bool) (p : Nat) (hp : p < N) :
    ∃ v, v < N ∧ rankOf dir N o v = p := by
  cases dir
  · obtain ⟨v, hv, hv'⟩ := h.exists_offset ((N : Int) - p) (by omega) (by omega)
    refine ⟨v, hv, ?_⟩
    unfold rankOf
    simp only [Bool.false_eq_true, if_false]; omega
  · obtain ⟨v, hv, hv'⟩ := h.exists_offset ((p : Int) + 1) (by omega) (by omega)
    refine ⟨v, hv, ?_⟩
    unfold rankOf
    simp only [if_true]; omega

/-- On a field sorted by its offsets the comparator of a pass compares the ranks. -/
theorem FieldSorted.sweepCmp_iff {N : Nat} {s : Nat → α} {o : Nat → Int}
    (h : FieldSorted N s o) (dir : Bool) {u v : Nat} (hu : u < N) (hv : v < N) :
    SweepCmp dir (tripleOf s o u) (tripleOf s o v) = true ↔
      rankOf dir N o u < rankOf dir N o v := by
  unfold rankOf
  cases dir
  · rw [SweepCmp_false_eq, SweepCmp_tripleOf, h.lower_iff hv hu]
    simp only [Bool.false_eq_true, if_false]; omega
  · rw [SweepCmp_tripleOf, h.lower_iff hu hv]
    simp only [if_true]; omega

/-- On a field sorted by its offsets, a vertex with a neighbour other than itself and no
neighbour of smaller rank is an extremum of the direction. -/
theorem FieldSorted.getCriticalType_of_first {N : Nat} {nb : Nat → List Nat}
    (hnb : InRange N nb) {s : Nat → α} {o : Nat → Int} (h : FieldSorted N s o) (dir : Bool)
    {v : Nat} (hv : v < N) (hnbr : ∃ u ∈ nb v, u ≠ v)
    (hfirst : ∀ u ∈ nb v, ¬ rankOf dir N o u < rankOf dir N o v) :
    getCriticalType nb v s o = if dir then -1 else 1 := by
  cases dir
  · simp only [Bool.false_eq_true, if_false]
    rw [getCriticalType_eq_one]
    constructor
    · intro hall
      obtain ⟨u, hu, huv⟩ := hnbr
      have huN := hnb v hv u hu
      have h1 := hall u hu
      have h2 := hfirst u hu
      rw [← h.sweepCmp_iff false huN hv, SweepCmp_false_eq, SweepCmp_tripleOf] at h2
      rcases isLowerThan_total (s := s) (fun hc => huv (h.1 u huN v hv hc)) with h3 | h3
      · rw [h1] at h3; exact Bool.false_ne_true h3
      · exact h2 h3
    · intro u hu
      have h2 := hfirst u hu
      rw [← h.sweepCmp_iff false (hnb v hv u hu) hv, SweepCmp_false_eq, SweepCmp_tripleOf] at h2
      rw [isHigherThan_eq_isLowerThan]
      simpa using h2
  · simp only [if_true]
    rw [getCriticalType_eq_neg_one]
    intro u hu
    have h2 := hfirst u hu
    rw [← h.sweepCmp_iff true (hnb v hv u hu) hv, SweepCmp_tripleOf] at h2
    simpa using h2

/-- The rewrite along a sequence on which the field is already sorted changes nothing. -/
theorem rewrite_fixed (N : Nat) (dir : Bool) (seq : Nat → Nat) (s : Nat → α) (o : Nat → Int)
    (hoff : ∀ k, k < N → o (seq k) = if dir then (k : Int) + 1 else (N : Int) - k)
    (hmono : ∀ k, k + 1 < N →
      if dir then s (seq k) ≤ s (seq (k + 1)) else s (seq (k + 1)) ≤ s (seq k)) :
    rewrite N dir seq s o = (s, o) := by
  have key : ∀ n, n ≤ N → (List.range n).foldl (rewriteStep dir seq)
      (s, o, if dir then 0 else (N : Int) + 1) =
      (s, o, if dir then (n : Int) else (N : Int) + 1 - n) := by
    intro n
    induction n with
    | zero => intro _; cases dir <;> simp
    | succ n ih =>
      intro hn
      rw [foldl_range_succ, ih (by omega)]
      have ho := hoff n (by omega)
      unfold rewriteStep
      cases dir
      · simp only [Bool.false_eq_true, if_false] at ho ⊢
        have hs : (if n ≠ 0 ∧ s (seq n) ≥ s (seq (n - 1)) then
            Function.update s (seq n) (s (seq (n - 1))) else s) = s := by
          split_ifs with hc
          · obtain ⟨m, rfl⟩ := Nat.exists_eq_succ_of_ne_zero hc.1
            have h1 := hmono m (by omega)
            simp only [Bool.false_eq_true, if_false] at h1
            have h2 : s (seq (m + 1)) = s (seq m) := le_antisymm h1 (by simpa using hc.2)
            simp only [Nat.succ_eq_add_one, Nat.add_sub_cancel]
            rw [← h2, Function.update_eq_self]
          · rfl
        rw [hs]
        have ho' : Function.update o (seq n) ((N : Int) + 1 - n - 1) = o := by
          have : (N : Int) + 1 - n - 1 = o (seq n) := by rw [ho]; omega
          rw [this, Function.update_eq_self]
        rw [ho']
        congr 2
        push_cast
        omega
      · simp only [if_true] at ho ⊢
        have hs : (if n ≠ 0 ∧ s (seq n) ≤ s (seq (n - 1)) then
            Function.update s (seq n) (s (seq (n - 1))) else s) = s := by
          split_ifs with hc
          · obtain ⟨m, rfl⟩ := Nat.exists_eq_succ_of_ne_zero hc.1
            have h1 := hmono m (by omega)
            simp only [if_true] at h1
            have h2 : s (seq (m + 1)) = s (seq m) := le_antisymm (by simpa using hc.2) h1
            simp only [Nat.succ_eq_add_one, Nat.add_sub_cancel]
            rw [← h2, Function.update_eq_self]
          · rfl
        rw [hs]
        have ho' : Function.update o (seq n) ((n : Int) + 1) = o := by
          rw [← ho, Function.update_eq_self]
        rw [ho']
        congr 2
  unfold rewrite
  rw [key N le_rfl]

end Sorted

section PassFixed
variable {α : Type} [LinearOrder α]

/-- A pass on a field sorted by its offsets, seeded with all the extrema of its direction,
dequeues the vertices in the order of the field and leaves the field unchanged. -/
theorem regionGrowPass_fixed {N : Nat} {nb : Nat → List Nat} (hnb : InRange N nb)
    (hsym : SymmetricNeighbors N nb) (hc : ConnectedMesh N nb) {s : Nat → α} {o : Nat → Int}
    (hF : FieldSorted N s o) (hnbr : ∀ v, v < N → ∃ u ∈ nb v, u ≠ v) (dir : Bool)
    (seeds : List Nat) (ae : Nat → Bool) (hnd : seeds.Nodup) (hlt : ∀ k ∈ seeds, k < N)
    (hne : seeds ≠ [])
    (hall : ∀ v, v < N → getCriticalType nb v s o = (if dir then -1 else 1) → v ∈ seeds) :
    ∃ seq, regionGrowPass N nb dir seeds ae s o =
      Pass.done (addSeeds (SweepCmp dir) s o seeds (ae, [], fun _ => false)).1 seq N s o := by
  obtain ⟨vis, seq, hp, _, hperm, hJ⟩ := regionGrowPass_strong (s := s) hnb hc hF.1 dir seeds ae
    hnd hlt hne
    (fun _ _ seq pos => ∀ k, k < pos → rankOf dir N o (seq k) = k)
    (fun k hk => absurd hk (Nat.not_lt_zero _))
    (by
      intro t rest vis seq pos hS hJ k hk
      by_cases hkp : k = pos
      · subst hkp
        rw [Function.update_same]
        have hposN : k < N := by
          have := hS.strongBound
          simp only [List.length_cons] at this
          omega
        obtain ⟨m, hm, hmr⟩ := hF.exists_rank dir k hposN
        have htN : t.2.2 < N :=
          (hS.weak.mem t.2.2 (List.mem_append_right _ (by simp [frontVertices]))).1
        have htnp : t.2.2 ∉ popped seq k := by
          intro hc
          have := (List.nodup_append.1 hS.weak.nodup).2.2 hc
          exact this (by simp [frontVertices])
        have hpop : ∀ u, u < N → rankOf dir N o u < k → u ∈ popped seq k := by
          intro u hu hr
          have hb := hF.rank_bounds dir hu
          have hj : (rankOf dir N o u).toNat < k := by omega
          have h1 := hJ _ hj
          have hseqj : seq (rankOf dir N o u).toNat < N :=
            (hS.weak.mem _ (List.mem_append_left _ (mem_popped.2 ⟨_, hj, rfl⟩))).1
          have h2 : seq (rankOf dir N o u).toNat = u :=
            hF.rank_inj dir hseqj hu (by rw [h1]; omega)
          exact mem_popped.2 ⟨_, hj, h2⟩
        have htr : ¬ rankOf dir N o t.2.2 < k := fun hc => htnp (hpop _ htN hc)
        have hmvis : vis m = true := by
          by_cases hex : ∃ u ∈ nb m, rankOf dir N o u < rankOf dir N o m
          · obtain ⟨u, hu, hur⟩ := hex
            have huN := hnb m hm u hu
            have hup := hpop u huN (by rw [hmr] at hur; exact hur)
            exact hS.closed u hup m (hsym m hm u hu)
          · have hfirst : ∀ u ∈ nb m, ¬ rankOf dir N o u < rankOf dir N o m :=
              fun u hu hc => hex ⟨u, hu, hc⟩
            exact hS.seeds m (hall m hm
              (hF.getCriticalType_of_first hnb dir hm (hnbr m hm) hfirst))
        have hmnp : m ∉ popped seq k := by
          intro hc
          obtain ⟨j, hj, hjm⟩ := mem_popped.1 hc
          have := hJ j hj
          rw [hjm, hmr] at this
          omega
        have hmf : m ∈ frontVertices (t :: rest) := by
          rcases List.mem_append.1 (hS.visited m hmvis) with h | h
          · exact absurd h hmnp
          · exact h
        obtain ⟨y, hy, hym⟩ := mem_frontVertices.1 hmf
        rcases List.mem_cons.1 hy with hyt | hy'
        · rw [← hyt, hym, hmr]
        · exfalso
          have h1 := (List.pairwise_cons.1 hS.sorted).1 y hy'
          rw [hS.keys t (List.mem_cons_self _ _), hS.keys y hy, hym,
            hF.sweepCmp_iff dir htN hm, hmr] at h1
          exact htr h1
      · rw [Function.update_noteq hkp]
        exact hJ k (by omega))
  have hoff : ∀ k, k < N → o (seq k) = if dir then (k : Int) + 1 else (N : Int) - k := by
    intro k hk
    have := hJ k hk
    unfold rankOf at this
    cases dir
    · simp only [Bool.false_eq_true, if_false] at this ⊢; omega
    · simp only [if_true] at this ⊢; omega
  have hmono : ∀ k, k + 1 < N →
      if dir then s (seq k) ≤ s (seq (k + 1)) else s (seq (k + 1)) ≤ s (seq k) := by
    intro k hk
    have h1 := hoff k (by omega)
    have h2 := hoff (k + 1) hk
    have hk1 := hperm.1 k (by omega)
    have hk2 := hperm.1 (k + 1) hk
    cases dir
    · simp only [Bool.false_eq_true, if_false] at h1 h2 ⊢
      exact hF.2.2 _ hk2 _ hk1 (by rw [h1, h2]; push_cast; omega)
    · simp only [if_true] at h1 h2 ⊢
      exact hF.2.2 _ hk1 _ hk2 (by rw [h1, h2]; push_cast; omega)
  rw [rewrite_fixed N dir seq s o hoff hmono] at hp
  exact ⟨seq, hp⟩

end PassFixed

section PerturbFixed
variable {α : Type} [LinearOrder α] [Add α]

theorem perturbationLoop_fixed (e : α) (l : List (Triple α)) (prev : Option α) (s : Nat → α)
    (hkeys : ∀ t ∈ l, t.1 = s t.2.2) (hprev : ∀ p, prev = some p → ∀ t ∈ l, p < t.1)
    (hinc : l.Pairwise (fun a b => a.1 < b.1)) : perturbationLoop e prev l s = s := by
  induction l generalizing prev with
  | nil => rfl
  | cons t rest ih =>
    simp only [perturbationLoop]
    have hval : liftedValue e prev t.1 = t.1 := by
      cases prev with
      | none => rfl
      | some p =>
        simp only [liftedValue]
        rw [if_neg (not_le.2 (hprev p rfl t (List.mem_cons_self _ _)))]
    rw [hval, hkeys t (List.mem_cons_self _ _), Function.update_eq_self]
    rw [List.pairwise_cons] at hinc
    apply ih _ (fun t' ht' => hkeys t' (List.mem_cons_of_mem _ ht'))
    · intro p hp t' ht'
      cases hp
      rw [← hkeys t (List.mem_cons_self _ _)]
      exact hinc.1 t' ht'
    · exact hinc.2

/-- `addPerturbation` changes nothing on a field whose scalars increase strictly with its
(distinct) offsets. -/
theorem addPerturbation_fixed {N : Nat} (eps : Option α) (s : Nat → α) {o : Nat → Int}
    (hF : FieldSorted N s o) (hstrict : ∀ e, eps = some e → StrictlySorted N s o) :
    (addPerturbation N eps s o).2 = s := by
  cases eps with
  | none => rfl
  | some e =>
    have hst := hstrict e rfl
    simp only [addPerturbation]
    set l := (List.range N).map (tripleOf s o) with hl
    have hl' : (List.range N).map (fun i => ((s i, o i, i) : Triple α)) = l := rfl
    rw [hl']
    have hperm := sort_perm (SweepCmp true) l
    have hmem : ∀ t ∈ sort (SweepCmp true) l, t = tripleOf s o t.2.2 ∧ t.2.2 < N := by
      intro t ht
      rw [hperm.mem_iff, hl] at ht
      obtain ⟨v, hv, rfl⟩ := List.mem_map.1 ht
      exact ⟨rfl, List.mem_range.1 hv⟩
    have htot : l.Pairwise (fun x y => SweepCmp true x y = true ∨ SweepCmp true y x = true) := by
      rw [hl, List.pairwise_map]
      apply List.Pairwise.imp_of_mem _ (List.nodup_range N)
      intro x y hx hy hxy
      apply SweepCmp_total
      show o x ≠ o y
      exact fun hc => hxy (hF.1 x (List.mem_range.1 hx) y (List.mem_range.1 hy) hc)
    have hsorted := pairwise_sort (SweepCmp true) (fun _ _ _ h1 h2 => SweepCmp_trans h1 h2) htot
    apply perturbationLoop_fixed
    · intro t ht
      have := (hmem t ht).1
      exact congrArg (fun t : Triple α => t.1) this
    · intro p hp
      cases hp
    · apply List.Pairwise.imp_of_mem _ hsorted
      intro a b ha hb hab
      obtain ⟨ha1, ha2⟩ := hmem a ha
      obtain ⟨hb1, hb2⟩ := hmem b hb
      rw [ha1, hb1, SweepCmp_tripleOf, hF.lower_iff ha2 hb2] at hab
      have := hst _ ha2 _ hb2 hab
      rw [ha1, hb1]
      exact this

end PerturbFixed

section SortedAfter
variable {α : Type} [LinearOrder α]

/-- After a completed descending pass the field is sorted by its offsets. -/
theorem fieldSorted_rewrite {N : Nat} {seq : Nat → Nat} (s : Nat → α) (o : Nat → Int)
    (hp : SeqPerm N seq) :
    FieldSorted N (rewrite N false seq s o).1 (rewrite N false seq s o).2 := by
  obtain ⟨hd, hb⟩ := rewrite_offsets_bounded false s o hp
  obtain ⟨h1, h2, _⟩ := rewrite_perm false s o hp
  refine ⟨hd, hb, ?_⟩
  intro a ha b hb' hab
  obtain ⟨i, hi, rfl⟩ := hp.2.2 a ha
  obtain ⟨j, hj, rfl⟩ := hp.2.2 b hb'
  rw [h1 i hi, h1 j hj] at hab
  simp only [Bool.false_eq_true, if_false] at hab
  have := h2 j i (by omega) hi
  simpa using this

theorem exists_ne_neighbor {N : Nat} {nb : Nat → List Nat} (hc : ConnectedMesh N nb)
    (h2 : ∃ a b, a < N ∧ b < N ∧ a ≠ b) (v : Nat) (hv : v < N) : ∃ u ∈ nb v, u ≠ v := by
  have hw : ∃ w, w < N ∧ w ≠ v := by
    obtain ⟨a, b, ha, hb, hab⟩ := h2
    by_cases hav : a = v
    · exact ⟨b, hb, fun hc => hab (hav.trans hc.symm)⟩
    · exact ⟨a, ha, hav⟩
  obtain ⟨w, hw, hwv⟩ := hw
  have key : ∀ x, Relation.ReflTransGen (fun a b => b ∈ nb a) x w → w ≠ x →
      ∃ u ∈ nb x, u ≠ x := by
    intro x hr
    induction hr using Relation.ReflTransGen.head_induction_on with
    | refl => intro h; exact absurd rfl h
    | @head a c hac _ ih =>
      intro hne
      by_cases hca : c = a
      · rw [hca] at ih; exact ih hne
      · exact ⟨c, hac, hca⟩
  exact key v (hc v hv w hw) hwv

end SortedAfter

section SortedPerturb
variable {α : Type} [LinearOrderedAddCommGroup α]

/-- `addPerturbation` with `0 < epsilon` keeps a field sorted by its offsets, and makes its
scalars strictly increasing with the offsets. -/
theorem fieldSorted_addPerturbation {N : Nat} (eps : Option α)
    (heps : ∀ e, eps = some e → 0 < e) {s : Nat → α} {o : Nat → Int}
    (hF : FieldSorted N s o) :
    FieldSorted N (addPerturbation N eps s o).2 o ∧
      (∀ e, eps = some e → StrictlySorted N (addPerturbation N eps s o).2 o) := by
  have hstrict : ∀ e, eps = some e → StrictlySorted N (addPerturbation N eps s o).2 o := by
    intro e he a ha b hb hab
    subst he
    have hne : a ≠ b := fun hc => by subst hc; exact lt_irrefl _ hab
    rcases addPerturbation_pair e (heps e rfl) s hF.1 a b ha hb hne with ⟨_, h⟩ | ⟨h, _⟩
    · exact h
    · rw [hF.lower_iff hb ha] at h
      omega
  refine ⟨⟨hF.1, hF.2.1, ?_⟩, hstrict⟩
  intro a ha b hb hab
  cases heq : eps with
  | none => subst heq; exact hF.2.2 a ha b hb hab
  | some e => rw [← heq]; exact le_of_lt (hstrict e heq a ha b hb hab)

end SortedPerturb

section ExecSorted
variable {α : Type} [LinearOrderedAddCommGroup α]

/-- On a connected mesh with distinct input offsets, the field `execute` returns after the
convergence break is the result of a descending rewrite along a bijective sequence,
followed by the optional perturbation. -/
theorem execute_after_desc {N : Nat} {nb : Nat → List Nat} (hnb : InRange N nb)
    (hc : ConnectedMesh N nb) (bl pf : Bool) (eps : Option α) (inS : Nat → Option α)
    (inO : Nat → Int) (ids : List Int) (ho : DistinctOffsets N (preprocessOffsets inO)) :
    ∃ r, execute N nb bl pf eps inS inO ids = some r ∧
      (r.status = 0 → r.needForMoreIterations = false →
        0 < N ∧ (authorized N nb bl inS inO ids).1 ≠ [] ∧
        (authorized N nb bl inS inO ids).2 ≠ [] ∧
        ∃ seq s1 o1, SeqPerm N seq ∧ r.offsets = (rewrite N false seq s1 o1).2 ∧
          r.scalars = if pf then (addPerturbation N eps (rewrite N false seq s1 o1).1
            (rewrite N false seq s1 o1).2).2 else (rewrite N false seq s1 o1).1) := by
  obtain ⟨r, hr, _, h1, _, _, h4, hle, _⟩ := execute_weak hnb bl pf eps inS inO ids
    (fun _ _ => True) trivial (fun _ _ _ _ _ _ _ => trivial) (fun _ _ _ _ => trivial)
  refine ⟨r, hr, fun hs hneed => ?_⟩
  generalize hA : (authorized N nb bl inS inO ids).1 = A at *
  generalize hB : (authorized N nb bl inS inO ids).2 = B at *
  have hAnd : A.Nodup := hA ▸ (authorized_nodup N nb bl inS inO ids).1
  have hBnd : B.Nodup := hB ▸ (authorized_nodup N nb bl inS inO ids).2
  have hAlt : ∀ k ∈ A, k < N := hA ▸ (authorized_lt N nb bl inS inO ids).1
  have hBlt : ∀ k ∈ B, k < N := hB ▸ (authorized_lt N nb bl inS inO ids).2
  rcases Nat.eq_zero_or_pos N with hN | hN
  · subst hN
    rw [execute_eq, mainLoop_zero] at hr
    cases hr
    simp at hneed
  have hAB : A ≠ [] ∧ B ≠ [] := by
    constructor
    · intro h
      have := h1.2 ⟨hN, Or.inl h⟩
      omega
    · intro h
      have := h1.2 ⟨hN, Or.inr h⟩
      omega
  obtain ⟨r', ae', hr', _, hI, _⟩ := mainLoop_induct N nb pf eps A B
    (fun _ s o _ need => DistinctOffsets N o ∧
      (need = false → ∃ seq s1 o1, SeqPerm N seq ∧ o = (rewrite N false seq s1 o1).2 ∧
        s = if pf then (addPerturbation N eps (rewrite N false seq s1 o1).1
          (rewrite N false seq s1 o1).2).2 else (rewrite N false seq s1 o1).1))
    (by
      intro ae s o it need ⟨hd, _⟩
      obtain ⟨vis1, seq1, hp1, _, hperm1, _⟩ := regionGrowPass_strong (s := s) hnb hc hd true A
        ae hAnd hAlt hAB.1 (fun _ _ _ _ => True) trivial (fun _ _ _ _ _ _ _ => trivial)
      have hd1 := (rewrite_offsets_bounded true s o hperm1).1
      obtain ⟨vis2, seq2, hp2, _, hperm2, _⟩ := regionGrowPass_strong
        (s := (rewrite N true seq1 s o).1) hnb hc hd1 false B
        (addSeeds (SweepCmp true) s o A (ae, [], fun _ => false)).1 hBnd hBlt hAB.2
        (fun _ _ _ _ => True) trivial (fun _ _ _ _ _ _ _ => trivial)
      have hd2 := (rewrite_offsets_bounded false (rewrite N true seq1 s o).1
        (rewrite N true seq1 s o).2 hperm2).1
      exact ⟨_, _, _, _, _, _, _, _, _, _, hp1, hp2, hd2,
        fun _ => ⟨seq2, _, _, hperm2, rfl, rfl⟩⟩)
    N (fun _ => false) (preprocessScalars inS) (preprocessOffsets inO) 0 true
    ⟨ho, fun h => absurd h (by simp)⟩
  rw [execute_eq, hA, hB, hr'] at hr
  cases hr
  exact ⟨hN, hAB.1, hAB.2, hI.2 hneed⟩

/-- On a connected mesh with distinct input offsets and `0 < epsilon`, the field `execute`
returns after the convergence break is sorted by its offsets, strictly when perturbation
is applied. -/
theorem execute_sorted {N : Nat} {nb : Nat → List Nat} (hnb : InRange N nb)
    (hc : ConnectedMesh N nb) (bl pf : Bool) (eps : Option α)
    (heps : ∀ e, eps = some e → 0 < e) (inS : Nat → Option α) (inO : Nat → Int)
    (ids : List Int) (ho : DistinctOffsets N (preprocessOffsets inO)) :
    ∃ r, execute N nb bl pf eps inS inO ids = some r ∧
      (r.status = 0 → r.needForMoreIterations = false →
        FieldSorted N r.scalars r.offsets ∧
        (pf = true → ∀ e, eps = some e → StrictlySorted N r.scalars r.offsets)) := by
  obtain ⟨r, hr, h⟩ := execute_after_desc hnb hc bl pf eps inS inO ids ho
  refine ⟨r, hr, fun hs hneed => ?_⟩
  obtain ⟨_, _, _, seq, s1, o1, hperm, ho', hs'⟩ := h hs hneed
  have hF := fieldSorted_rewrite s1 o1 hperm
  rw [ho', hs']
  cases pf
  · exact ⟨hF, fun h => absurd h (by simp)⟩
  · have := fieldSorted_addPerturbation eps heps hF
    exact ⟨this.1, fun _ => this.2⟩

end ExecSorted

section OffsetsFit
variable {α : Type} [LinearOrder α]

/-- Every offset the rewrite leaves is the old offset or one of `1, …, N`. -/
theorem rewrite_offsets_cases (N : Nat) (dir : Bool) (seq : Nat → Nat) (s : Nat → α)
    (o : Nat → Int) (v : Nat) :
    (rewrite N dir seq s o).2 v = o v ∨
      (1 ≤ (rewrite N dir seq s o).2 v ∧ (rewrite N dir seq s o).2 v ≤ N) := by
  have key : ∀ n, n ≤ N →
      ((List.range n).foldl (rewriteStep dir seq)
        (s, o, if dir then 0 else (N : Int) + 1)).2.2 =
          (if dir then (n : Int) else (N : Int) + 1 - n) ∧
      (((List.range n).foldl (rewriteStep dir seq)
        (s, o, if dir then 0 else (N : Int) + 1)).2.1 v = o v ∨
       (1 ≤ ((List.range n).foldl (rewriteStep dir seq)
          (s, o, if dir then 0 else (N : Int) + 1)).2.1 v ∧
        ((List.range n).foldl (rewriteStep dir seq)
          (s, o, if dir then 0 else (N : Int) + 1)).2.1 v ≤ N)) := by
    intro n
    induction n with
    | zero =>
      intro _
      refine ⟨?_, Or.inl rfl⟩
      cases dir <;> simp
    | succ n ih =>
      intro hn
      obtain ⟨ih1, ih2⟩ := ih (by omega)
      rw [foldl_range_succ]
      generalize (List.range n).foldl (rewriteStep dir seq)
        (s, o, if dir then 0 else (N : Int) + 1) = prev at ih1 ih2
      have hoff := rewriteStep_offset dir seq prev n
      rw [hoff.1, hoff.2, ih1]
      constructor
      · cases dir <;> (simp; try omega)
      · by_cases hv : v = seq n
        · subst hv
          rw [Function.update_same]
          right
          cases dir
          · simp only [Bool.false_eq_true, if_false]; omega
          · simp only [if_true]; omega
        · rw [Function.update_noteq hv]
          exact ih2
  exact (key N le_rfl).2

theorem regionGrowPass_done_eq {N : Nat} {nb : Nat → List Nat} {dir : Bool}
    {seeds : List Nat} {ae ae1 : Nat → Bool} {s s1 : Nat → α} {o o1 : Nat → Int}
    {seq : Nat → Nat} {pos : Nat}
    (h : regionGrowPass N nb dir seeds ae s o = Pass.done ae1 seq pos s1 o1) :
    s1 = (rewrite N dir seq s o).1 ∧ o1 = (rewrite N dir seq s o).2 := by
  simp only [regionGrowPass] at h
  split at h
  · cases h
  · cases h
  · cases h
    exact ⟨rfl, rfl⟩

variable [Add α]

/-- A predicate on the offsets that every rewrite keeps holds of the offsets the main loop
returns. -/
theorem mainLoop_offsets (N : Nat) (nb : Nat → List Nat) (pf : Bool) (eps : Option α)
    (A B : List Nat) (P : (Nat → Int) → Prop)
    (hP : ∀ (dir : Bool) (seq : Nat → Nat) (s : Nat → α) (o : Nat → Int),
      P o → P (rewrite N dir seq s o).2)
    (rem : Nat) (ae : Nat → Bool) (s : Nat → α) (o : Nat → Int) (it : Nat) (need : Bool)
    (r : Result α) (ho : P o) (h : mainLoop N nb pf eps A B rem ae s o it need = some r) :
    P r.offsets := by
  induction rem generalizing ae s o it need with
  | zero =>
    rw [mainLoop_zero] at h
    cases h
    exact ho
  | succ rem ih =>
    have h0 := h
    rw [mainLoop] at h
    cases h1 : regionGrowPass N nb true A ae s o with
    | outOfFuel => rw [h1] at h; cases h
    | emptyFront ae1 => rw [h1] at h; cases h; exact ho
    | done ae1 seq1 pos1 s1 o1 =>
      rw [h1] at h
      simp only [] at h
      have ho1 : P o1 := by
        rw [(regionGrowPass_done_eq h1).2]
        exact hP _ _ _ _ ho
      cases h2 : regionGrowPass N nb false B ae1 s1 o1 with
      | outOfFuel => rw [h2] at h; cases h
      | emptyFront ae2 => rw [h2] at h; cases h; exact ho1
      | done ae2 seq2 pos2 s2 o2 =>
        have ho2 : P o2 := by
          rw [(regionGrowPass_done_eq h2).2]
          exact hP _ _ _ _ ho1
        rw [mainLoop_step N nb pf eps A B rem ae s o it need h1 h2] at h0
        by_cases hc : testConvergence A B (getCriticalPoints N nb s2 o2 [] []).1
            (getCriticalPoints N nb s2 o2 [] []).2 ae2 = false
        · rw [if_pos hc] at h0
          cases h0
          exact ho2
        · rw [if_neg hc] at h0
          exact ih _ _ _ _ _ ho2 h0

end OffsetsFit

section SecondRun
variable {α : Type} [LinearOrder α] [Add α] [Zero α]

omit [LinearOrder α] [Add α] in
theorem preprocessScalars_some (s : Nat → α) : preprocessScalars (fun k => some (s k)) = s :=
  rfl

/-- `execute` on a field that is sorted by its offsets (strictly when perturbation is
applied), whose offsets are `SimplexId` values and whose extrema all pass the identifier
mask: one iteration, no change. -/
theorem execute_fixed {N : Nat} {nb : Nat → List Nat} (hnb : InRange N nb)
    (hsym : SymmetricNeighbors N nb) (hc : ConnectedMesh N nb) (bl pf : Bool)
    (eps : Option α) (s : Nat → α) (o : Nat → Int) (ids : List Int) (hN : 0 < N)
    (hfit : ∀ k, toSimplexId (o k) = o k) (hF : FieldSorted N s o)
    (hstrict : pf = true → ∀ e, eps = some e → StrictlySorted N s o)
    (hnbr : ∀ v, v < N → ∃ u ∈ nb v, u ≠ v)
    (hmask : ∀ v, v < N → getCriticalType nb v s o = -1 ∨ getCriticalType nb v s o = 1 →
      xor bl (userExtrema N ids v) = true) :
    execute N nb bl pf eps (fun k => some (s k)) o ids = some ⟨0, s, o, 1, false⟩ := by
  have hpre : preprocessOffsets o = o := funext hfit
  rw [execute_eq, preprocessScalars_some, hpre]
  have hauth : authorized N nb bl (fun k => some (s k)) o ids =
      getCriticalPoints N nb s o [] [] := by
    rw [authorized_eq, getCriticalPoints_nil, preprocessScalars_some, hpre]
    congr 1
    · apply List.filter_congr
      intro v hv
      by_cases hcrit : getCriticalType nb v s o = -1
      · simp [hcrit, hmask v (List.mem_range.1 hv) (Or.inl hcrit)]
      · simp [hcrit]
    · apply List.filter_congr
      intro v hv
      by_cases hcrit : getCriticalType nb v s o = 1
      · simp [hcrit, hmask v (List.mem_range.1 hv) (Or.inr hcrit)]
      · simp [hcrit]
  rw [hauth]
  generalize hA : (getCriticalPoints N nb s o [] []).1 = A
  generalize hB : (getCriticalPoints N nb s o [] []).2 = B
  have hAmem : ∀ v, v ∈ A ↔ v < N ∧ getCriticalType nb v s o = -1 := fun v => by
    rw [← hA]; exact mem_getCriticalPoints_fst N nb s o v
  have hBmem : ∀ v, v ∈ B ↔ v < N ∧ getCriticalType nb v s o = 1 := fun v => by
    rw [← hB]; exact mem_getCriticalPoints_snd N nb s o v
  have hAnd : A.Nodup := by
    rw [← hA, getCriticalPoints_nil]; exact nodup_filter_range _ _
  have hBnd : B.Nodup := by
    rw [← hB, getCriticalPoints_nil]; exact nodup_filter_range _ _
  have hfirst : ∀ dir : Bool, ∃ m, m < N ∧
      getCriticalType nb m s o = if dir then -1 else 1 := by
    intro dir
    obtain ⟨m, hm, hmr⟩ := hF.exists_rank dir 0 hN
    refine ⟨m, hm, hF.getCriticalType_of_first hnb dir hm (hnbr m hm) fun u hu => ?_⟩
    have := (hF.rank_bounds dir (hnb m hm u hu)).1
    rw [hmr]
    simpa using this
  have hAne : A ≠ [] := by
    obtain ⟨m, hm, hcrit⟩ := hfirst true
    exact List.ne_nil_of_mem ((hAmem m).2 ⟨hm, by simpa using hcrit⟩)
  have hBne : B ≠ [] := by
    obtain ⟨m, hm, hcrit⟩ := hfirst false
    exact List.ne_nil_of_mem ((hBmem m).2 ⟨hm, by simpa using hcrit⟩)
  obtain ⟨seq1, hp1⟩ := regionGrowPass_fixed hnb hsym hc hF hnbr true A (fun _ => false) hAnd
    (fun k hk => ((hAmem k).1 hk).1) hAne
    (fun v hv hcrit => (hAmem v).2 ⟨hv, by simpa using hcrit⟩)
  obtain ⟨seq2, hp2⟩ := regionGrowPass_fixed hnb hsym hc hF hnbr false B
    (addSeeds (SweepCmp true) s o A (fun _ => false, [], fun _ => false)).1 hBnd
    (fun k hk => ((hBmem k).1 hk).1) hBne
    (fun v hv hcrit => (hBmem v).2 ⟨hv, by simpa using hcrit⟩)
  obtain ⟨n, hn⟩ := Nat.exists_eq_succ_of_ne_zero (Nat.pos_iff_ne_zero.1 hN)
  have hstep := mainLoop_step N nb pf eps A B n (fun _ => false) s o 0 true hp1 hp2
  have hconv : testConvergence A B (getCriticalPoints N nb s o [] []).1
      (getCriticalPoints N nb s o [] []).2
      (addSeeds (SweepCmp false) s o B
        ((addSeeds (SweepCmp true) s o A (fun _ => false, [], fun _ => false)).1, [],
          fun _ => false)).1 = false := by
    rw [testConvergence_eq_false, hA, hB]
    refine ⟨le_rfl, le_rfl, fun k hk => ?_, fun k hk => ?_⟩
    · rw [(addSeeds_marks _ _ _ _ _ k).1, (addSeeds_marks _ _ _ _ _ k).1]
      simp [hk]
    · rw [(addSeeds_marks _ _ _ _ _ k).1]
      simp [hk]
  have hpert : (if pf then (addPerturbation N eps s o).2 else s) = s := by
    cases pf
    · rfl
    · exact addPerturbation_fixed eps s hF (hstrict rfl)
  rw [hconv, hpert] at hstep
  have hmain : mainLoop N nb pf eps A B N (fun _ => false) s o 0 true =
      mainLoop N nb pf eps A B (n + 1) (fun _ => false) s o 0 true :=
    congrArg (fun m => mainLoop N nb pf eps A B m (fun _ => false) s o 0 true) hn
  rw [hmain, hstep]
  simp

end SecondRun

section ClaimC5
variable {α : Type} [LinearOrderedAddCommGroup α]

/-- C5 (as written) fails for an `idType` wider than `SimplexId`. On the star with centre
0 and leaves 1, 2, all scalars 0, the pairwise distinct input offsets `[2, 1, 2^32 + 1]`
(stored as `[2, 1, 1]`) and the whitelist `[0, 1, 2]`, `execute` returns 0 through the
convergence break with offsets `[1, 2, 1]`; run again on its output it returns the offsets
`[2, 3, 1]`. -/
theorem C5_idempotence_counterexample :
    InRange 3 star3 ∧ SymmetricNeighbors 3 star3 ∧ ConnectedMesh 3 star3 ∧
    DistinctOffsets 3 (fieldOf 0 [2, 1, 4294967297]) ∧
    (execute 3 star3 false false none (fieldOf none [some (0 : Int), some 0, some 0])
      (fieldOf 0 [2, 1, 4294967297]) [0, 1, 2]).map
        (fun r => (r.status, r.needForMoreIterations, (List.range 3).map r.scalars,
          (List.range 3).map r.offsets)) = some (0, false, [0, 0, 0], [1, 2, 1]) ∧
    ((execute 3 star3 false false none (fieldOf none [some (0 : Int), some 0, some 0])
      (fieldOf 0 [2, 1, 4294967297]) [0, 1, 2]).bind
        (fun r => execute 3 star3 false false none (fun k => some (r.scalars k)) r.offsets
          [0, 1, 2])).map
        (fun r => (r.status, (List.range 3).map r.scalars, (List.range 3).map r.offsets)) =
      some (0, [0, 0, 0], [2, 3, 1]) :=
  ⟨star3_inRange, star3_symmetric, star3_connected, distinctOffsets_wide3.1, by decide,
    by decide⟩

/-- C5 (amended). Idempotence at a fixed point. On a connected symmetric mesh with fewer
than `2^31` vertices and in-range neighbour ids, with input offsets that are pairwise
distinct as the pre-processing stores them (converted to `SimplexId`) and `0 < epsilon`
added exactly: whenever `execute` returns 0 through the convergence break, running it again
on its output scalars and offsets with the same identifiers, mode and perturbation flag
returns 0 with the same scalars and offsets. -/
theorem C5_idempotence {N : Nat} {nb : Nat → List Nat} (hnb : InRange N nb)
    (hsym : SymmetricNeighbors N nb) (hc : ConnectedMesh N nb) (hN31 : N < 2147483648)
    (bl pf : Bool) (eps : Option α) (heps : ∀ e, eps = some e → 0 < e)
    (inS : Nat → Option α) (inO : Nat → Int) (ids : List Int)
    (ho : DistinctOffsets N (preprocessOffsets inO)) :
    ∃ r, execute N nb bl pf eps inS inO ids = some r ∧
      (r.status = 0 → r.needForMoreIterations = false →
        ∃ r2, execute N nb bl pf eps (fun k => some (r.scalars k)) r.offsets ids = some r2 ∧
          r2.status = 0 ∧ r2.scalars = r.scalars ∧ r2.offsets = r.offsets) := by
  obtain ⟨r, hr, hsorted⟩ := execute_sorted hnb hc bl pf eps heps inS inO ids ho
  obtain ⟨r', hr', hconv⟩ := execute_converged hnb hc bl pf eps heps inS inO ids ho
  obtain ⟨r'', hr'', hdesc⟩ := execute_after_desc hnb hc bl pf eps inS inO ids ho
  rw [hr] at hr' hr''
  cases hr'
  cases hr''
  refine ⟨r, hr, fun hs hneed => ?_⟩
  obtain ⟨hF, hstrict⟩ := hsorted hs hneed
  obtain ⟨c1, c2, _, _⟩ := hconv hs hneed
  obtain ⟨hN, _, hB, _⟩ := hdesc hs hneed
  have htwo : ∃ a b, a < N ∧ b < N ∧ a ≠ b := by
    obtain ⟨v, hv⟩ := List.exists_mem_of_ne_nil _ hB
    obtain ⟨hvN, _, hcrit⟩ := (mem_authorized_snd N nb bl inS inO ids v).1 hv
    rw [getCriticalType_eq_one] at hcrit
    have := hcrit.1
    push_neg at this
    obtain ⟨u, hu, hlow⟩ := this
    refine ⟨u, v, hnb v hvN u hu, hvN, fun huv => ?_⟩
    subst huv
    exact hlow (isLowerThan_irrefl _ _ _)
  have hmask : ∀ v, v < N →
      getCriticalType nb v r.scalars r.offsets = -1 ∨
        getCriticalType nb v r.scalars r.offsets = 1 →
      xor bl (userExtrema N ids v) = true := by
    intro v hv hcrit
    have hmem : v ∈ (authorized N nb bl inS inO ids).1 ∨
        v ∈ (authorized N nb bl inS inO ids).2 := by
      rcases hcrit with hcrit | hcrit
      · exact c1 v ((mem_getCriticalPoints_fst N nb _ _ v).2 ⟨hv, hcrit⟩)
      · exact c2 v ((mem_getCriticalPoints_snd N nb _ _ v).2 ⟨hv, hcrit⟩)
    rcases hmem with hmem | hmem
    · exact ((mem_authorized_fst N nb bl inS inO ids v).1 hmem).2.1
    · exact ((mem_authorized_snd N nb bl inS inO ids v).1 hmem).2.1
  have hfit : ∀ k, toSimplexId (r.offsets k) = r.offsets k := by
    rw [execute_eq] at hr
    exact mainLoop_offsets N nb pf eps _ _ (fun o => ∀ k, toSimplexId (o k) = o k)
      (fun dir seq s o ho k => by
        rcases rewrite_offsets_cases N dir seq s o k with h | h
        · rw [h]; exact ho k
        · exact toSimplexId_of_range (by omega) (by omega))
      N _ _ _ _ _ r (fun k => toSimplexId_idem _) hr
  exact ⟨_, execute_fixed hnb hsym hc bl pf eps r.scalars r.offsets ids hN hfit hF hstrict
    (exists_ne_neighbor hc htwo) hmask, rfl, rfl, rfl⟩

/-- C5 amended, at the path 0 - 1 - 2 - 3 with scalars `[0, 5, 1, 7]`, perturbation
enabled with `epsilon = 1`: `execute` returns 0 through the convergence break. -/
theorem C5_idempotence_witness :
    InRange 4 chain4 ∧ SymmetricNeighbors 4 chain4 ∧ ConnectedMesh 4 chain4 ∧
    4 < 2147483648 ∧ (∀ e : Int, some (1 : Int) = some e → 0 < e) ∧
    DistinctOffsets 4 (preprocessOffsets (fieldOf 0 [0, 1, 2, 3])) ∧
    (execute 4 chain4 false true (some (1 : Int))
        (fieldOf none [some (0 : Int), some 5, some 1, some 7]) (fieldOf 0 [0, 1, 2, 3])
        [0, 1, 3]).map (fun r => (r.status, r.needForMoreIterations)) = some (0, false) ∧
    ∃ r, execute 4 chain4 false true (some (1 : Int))
        (fieldOf none [some (0 : Int), some 5, some 1, some 7]) (fieldOf 0 [0, 1, 2, 3])
        [0, 1, 3] = some r ∧
      (r.status = 0 → r.needForMoreIterations = false →
        ∃ r2, execute 4 chain4 false true (some (1 : Int)) (fun k => some (r.scalars k))
            r.offsets [0, 1, 3] = some r2 ∧
          r2.status = 0 ∧ r2.scalars = r.scalars ∧ r2.offsets = r.offsets) :=
  ⟨chain4_inRange, chain4_symmetric, chain4_connected, by decide, eps_one_pos,
    distinctOffsets_stored4, by decide,
    C5_idempotence chain4_inRange chain4_symmetric chain4_connected (by decide) false true
      (some (1 : Int)) eps_one_pos (fieldOf none [some (0 : Int), some 5, some 1, some 7])
      (fieldOf 0 [0, 1, 2, 3]) [0, 1, 3] distinctOffsets_stored4⟩

end ClaimC5

section Classifier
variable {α : Type} [LinearOrder α]

theorem getCriticalTypeLoopNoReturn_eq (v : Nat) (s : Nat → α) (o : Nat → Int)
    (l : List Nat) (mn mx : Bool) :
    getCriticalTypeLoopNoReturn v s o l mn mx =
      if mn = true ∧ ∀ u ∈ l, isLowerThan u v s o = false then -1
      else if mx = true ∧ ∀ u ∈ l, isHigherThan u v s o = false then 1 else 0 := by
  induction l generalizing mn mx with
  | nil => simp [getCriticalTypeLoopNoReturn]
  | cons u l ih =>
    simp only [getCriticalTypeLoopNoReturn, List.mem_cons, forall_eq_or_imp]
    cases hl : isLowerThan u v s o <;> cases hh : isHigherThan u v s o <;>
      cases mn <;> cases mx <;> simp [ih]

/-- The early `return 0` of the neighbour loop does not change the result. -/
theorem getCriticalTypeNoReturn_eq (nb : Nat → List Nat) (v : Nat) (s : Nat → α)
    (o : Nat → Int) : getCriticalTypeNoReturn nb v s o = getCriticalType nb v s o := by
  simp only [getCriticalTypeNoReturn, getCriticalType, getCriticalTypeLoopNoReturn_eq,
    getCriticalTypeLoop_eq]

/-- Between two vertices with different offsets, "not lower" is "higher". -/
theorem isLowerThan_eq_false_iff {a b : Nat} {s : Nat → α} {o : Nat → Int}
    (hne : o a ≠ o b) : isLowerThan a b s o = false ↔ isLowerThan b a s o = true := by
  constructor
  · intro h
    rcases isLowerThan_total (s := s) hne with h1 | h1
    · rw [h] at h1; cases h1
    · exact h1
  · exact isLowerThan_asymm

/-- C11. For a field with pairwise distinct offsets and a vertex `v` with at least one
neighbour, none of them `v` itself, `getCriticalType` returns -1 iff `v` is lower than
every neighbour, 1 iff `v` is higher than every neighbour, and 0 iff neither holds; the
loop without its early `return 0` computes the same value. -/
theorem C11_classifier_definition (N : Nat) (nb : Nat → List Nat) (s : Nat → α)
    (o : Nat → Int) (v : Nat) (ho : DistinctOffsets N o) (hv : v < N)
    (hnb : ∀ u ∈ nb v, u < N ∧ u ≠ v) (hne : nb v ≠ []) :
    (getCriticalType nb v s o = -1 ↔ ∀ u ∈ nb v, isLowerThan v u s o = true) ∧
    (getCriticalType nb v s o = 1 ↔ ∀ u ∈ nb v, isHigherThan v u s o = true) ∧
    (getCriticalType nb v s o = 0 ↔
      ¬ (∀ u ∈ nb v, isLowerThan v u s o = true) ∧
        ¬ (∀ u ∈ nb v, isHigherThan v u s o = true)) ∧
    getCriticalTypeNoReturn nb v s o = getCriticalType nb v s o := by
  have hoff : ∀ u ∈ nb v, o u ≠ o v := fun u hu hc =>
    (hnb u hu).2 (ho u (hnb u hu).1 v hv hc)
  have h1 : (∀ u ∈ nb v, isLowerThan u v s o = false) ↔
      ∀ u ∈ nb v, isLowerThan v u s o = true :=
    forall₂_congr fun u hu => isLowerThan_eq_false_iff (hoff u hu)
  have h2 : (∀ u ∈ nb v, isHigherThan u v s o = false) ↔
      ∀ u ∈ nb v, isHigherThan v u s o = true :=
    forall₂_congr fun u hu => by
      rw [isHigherThan_eq_isLowerThan, isHigherThan_eq_isLowerThan]
      exact isLowerThan_eq_false_iff (hoff u hu).symm
  have h3 : (∀ u ∈ nb v, isHigherThan v u s o = true) →
      ¬ ∀ u ∈ nb v, isLowerThan v u s o = true := by
    intro hh hl
    obtain ⟨u, hu⟩ := List.exists_mem_of_ne_nil _ hne
    have ha := hh u hu
    rw [isHigherThan_eq_isLowerThan] at ha
    have hb := hl u hu
    rw [isLowerThan_asymm ha] at hb
    exact Bool.noConfusion hb
  refine ⟨?_, ?_, ?_, getCriticalTypeNoReturn_eq nb v s o⟩
  · rw [getCriticalType_eq_neg_one, h1]
  · rw [getCriticalType_eq_one, h1, h2]
    exact ⟨fun h => h.2, fun h => ⟨h3 h, h⟩⟩
  · rw [getCriticalType_eq]
    simp only [h1, h2]
    split_ifs with ha hb
    · exact ⟨fun h => absurd h (by decide), fun h => absurd ha h.1⟩
    · exact ⟨fun h => absurd h (by decide), fun h => absurd hb h.2⟩
    · exact ⟨fun _ => ⟨ha, hb⟩, fun _ => rfl⟩

end Classifier

/-- C11, at vertex 1 of the path 0 - 1 - 2 - 3 with scalars `[0, 5, 1, 7]`: a maximum. -/
theorem C11_classifier_definition_witness :
    DistinctOffsets 4 (fieldOf 0 [0, 1, 2, 3]) ∧ (∀ u ∈ chain4 1, u < 4 ∧ u ≠ 1) ∧
    chain4 1 ≠ [] ∧
    getCriticalType chain4 1 (fieldOf (0 : Int) [0, 5, 1, 7]) (fieldOf 0 [0, 1, 2, 3]) = 1 ∧
    (getCriticalType chain4 1 (fieldOf (0 : Int) [0, 5, 1, 7]) (fieldOf 0 [0, 1, 2, 3]) = 1 ↔
      ∀ u ∈ chain4 1,
        isHigherThan 1 u (fieldOf (0 : Int) [0, 5, 1, 7]) (fieldOf 0 [0, 1, 2, 3]) = true) :=
  ⟨distinctOffsets_id4, by decide, by decide, by decide,
    (C11_classifier_definition 4 chain4 (fieldOf (0 : Int) [0, 5, 1, 7])
      (fieldOf 0 [0, 1, 2, 3]) 1 distinctOffsets_id4 (by decide) (by decide)
      (by decide)).2.1⟩

section Isolated
variable {α : Type} [LinearOrder α]

/-- C12 (as written) fails: in a mesh without edges the only vertex is classified -1
and is listed among the minima. -/
theorem C12_isolated_regular_counterexample :
    noNeighbors 0 = [] ∧
    getCriticalType noNeighbors 0 (fieldOf (0 : Int) [3]) (fieldOf 0 [0]) = -1 ∧
    getCriticalType noNeighbors 0 (fieldOf (0 : Int) [3]) (fieldOf 0 [0]) ≠ 0 ∧
    getCriticalPoints 1 noNeighbors (fieldOf (0 : Int) [3]) (fieldOf 0 [0]) [] [] =
      ([0], []) := by
  decide

/-- C12 (amended). A vertex without neighbours is classified -1 (minimum): it is in the
minima list of `getCriticalPoints` and not in the maxima list. -/
theorem C12_isolated_vertex_is_minimum (N : Nat) (nb : Nat → List Nat) (s : Nat → α)
    (o : Nat → Int) (v : Nat) (hv : v < N) (h : nb v = []) :
    getCriticalType nb v s o = -1 ∧
    v ∈ (getCriticalPoints N nb s o [] []).1 ∧
    v ∉ (getCriticalPoints N nb s o [] []).2 := by
  have h1 : getCriticalType nb v s o = -1 := by
    rw [getCriticalType_eq_neg_one, h]
    intro u hu
    cases hu
  refine ⟨h1, (mem_getCriticalPoints_fst N nb s o v).2 ⟨hv, h1⟩, fun hc => ?_⟩
  have h2 := ((mem_getCriticalPoints_snd N nb s o v).1 hc).2
  rw [h1] at h2
  exact absurd h2 (by decide)

end Isolated

/-- C12 amended, at the mesh of one vertex and no edge. -/
theorem C12_isolated_vertex_is_minimum_witness :
    0 < 1 ∧ noNeighbors 0 = [] ∧
    getCriticalType noNeighbors 0 (fieldOf (0 : Int) [3]) (fieldOf 0 [0]) = -1 ∧
    0 ∈ (getCriticalPoints 1 noNeighbors (fieldOf (0 : Int) [3]) (fieldOf 0 [0]) [] []).1 ∧
    0 ∉ (getCriticalPoints 1 noNeighbors (fieldOf (0 : Int) [3]) (fieldOf 0 [0]) [] []).2 :=
  ⟨by decide, rfl,
    C12_isolated_vertex_is_minimum 1 noNeighbors (fieldOf (0 : Int) [3]) (fieldOf 0 [0]) 0
      (by decide) rfl⟩

section Batch
variable {α : Type} [LinearOrder α]

theorem pairwise_filter_range (N : Nat) (p : Nat → Bool) :
    ((List.range N).filter p).Pairwise (fun a b => a < b) :=
  List.Pairwise.filter p (List.pairwise_lt_range N)

/-- C13. Called with empty result lists, the masked `getCriticalPoints` returns the
vertices `k < N` with `considerIdentifierAsBlackList xor extrema[k]` and
`getCriticalType k = -1` (minima) resp. `= 1` (maxima), in increasing order of `k`; a
vertex whose xor bit is false is in neither list; the unmasked overload returns the same
filters without the mask condition; in both overloads the two lists are strictly
increasing and disjoint. -/
theorem C13_batch_classification (N : Nat) (nb : Nat → List Nat) (bl : Bool)
    (s : Nat → α) (o : Nat → Int) (extrema : Nat → Bool) :
    getCriticalPointsMasked N nb bl s o [] [] extrema =
      ((List.range N).filter
        (fun k => xor bl (extrema k) && decide (getCriticalType nb k s o = -1)),
       (List.range N).filter
        (fun k => xor bl (extrema k) && decide (getCriticalType nb k s o = 1))) ∧
    getCriticalPoints N nb s o [] [] =
      ((List.range N).filter (fun k => decide (getCriticalType nb k s o = -1)),
       (List.range N).filter (fun k => decide (getCriticalType nb k s o = 1))) ∧
    (∀ k, k ∈ (getCriticalPointsMasked N nb bl s o [] [] extrema).1 ↔
      k < N ∧ xor bl (extrema k) = true ∧ getCriticalType nb k s o = -1) ∧
    (∀ k, k ∈ (getCriticalPointsMasked N nb bl s o [] [] extrema).2 ↔
      k < N ∧ xor bl (extrema k) = true ∧ getCriticalType nb k s o = 1) ∧
    (∀ k, xor bl (extrema k) = false →
      k ∉ (getCriticalPointsMasked N nb bl s o [] [] extrema).1 ∧
      k ∉ (getCriticalPointsMasked N nb bl s o [] [] extrema).2) ∧
    (∀ k, k ∈ (getCriticalPoints N nb s o [] []).1 ↔
      k < N ∧ getCriticalType nb k s o = -1) ∧
    (∀ k, k ∈ (getCriticalPoints N nb s o [] []).2 ↔
      k < N ∧ getCriticalType nb k s o = 1) ∧
    (getCriticalPointsMasked N nb bl s o [] [] extrema).1.Pairwise (fun a b => a < b) ∧
    (getCriticalPointsMasked N nb bl s o [] [] extrema).2.Pairwise (fun a b => a < b) ∧
    (getCriticalPoints N nb s o [] []).1.Pairwise (fun a b => a < b) ∧
    (getCriticalPoints N nb s o [] []).2.Pairwise (fun a b => a < b) ∧
    (∀ k, k ∈ (getCriticalPointsMasked N nb bl s o [] [] extrema).1 →
      k ∉ (getCriticalPointsMasked N nb bl s o [] [] extrema).2) ∧
    (∀ k, k ∈ (getCriticalPoints N nb s o [] []).1 →
      k ∉ (getCriticalPoints N nb s o [] []).2) := by
  have hm1 : ∀ k, k ∈ (getCriticalPointsMasked N nb bl s o [] [] extrema).1 ↔
      k < N ∧ xor bl (extrema k) = true ∧ getCriticalType nb k s o = -1 := by
    intro k
    rw [getCriticalPointsMasked_nil]
    simp [List.mem_filter]
  have hm2 : ∀ k, k ∈ (getCriticalPointsMasked N nb bl s o [] [] extrema).2 ↔
      k < N ∧ xor bl (extrema k) = true ∧ getCriticalType nb k s o = 1 := by
    intro k
    rw [getCriticalPointsMasked_nil]
    simp [List.mem_filter]
  refine ⟨getCriticalPointsMasked_nil N nb bl s o extrema, getCriticalPoints_nil N nb s o,
    hm1, hm2, ?_, mem_getCriticalPoints_fst N nb s o, mem_getCriticalPoints_snd N nb s o,
    ?_, ?_, ?_, ?_, ?_, ?_⟩
  · intro k hk
    rw [hm1, hm2, hk]
    exact ⟨fun h => Bool.noConfusion h.2.1, fun h => Bool.noConfusion h.2.1⟩
  · rw [getCriticalPointsMasked_nil]
    exact pairwise_filter_range N _
  · rw [getCriticalPointsMasked_nil]
    exact pairwise_filter_range N _
  · rw [getCriticalPoints_nil]
    exact pairwise_filter_range N _
  · rw [getCriticalPoints_nil]
    exact pairwise_filter_range N _
  · intro k h1 h2
    have h3 := ((hm1 k).1 h1).2.2
    rw [((hm2 k).1 h2).2.2] at h3
    exact absurd h3 (by decide)
  · intro k h1 h2
    have h3 := ((mem_getCriticalPoints_fst N nb s o k).1 h1).2
    rw [((mem_getCriticalPoints_snd N nb s o k).1 h2).2] at h3
    exact absurd h3 (by decide)

/-- C14. For pairwise distinct offsets, `isLowerThan` is irreflexive, asymmetric and
transitive, exactly one of `isLowerThan a b` and `isLowerThan b a` holds for two distinct
vertices, and `isHigherThan a b = isLowerThan b a`. -/
theorem C14_strict_total_order (N : Nat) (s : Nat → α) (o : Nat → Int)
    (ho : DistinctOffsets N o) :
    (∀ a, isLowerThan a a s o = false) ∧
    (∀ a b, isLowerThan a b s o = true → isLowerThan b a s o = false) ∧
    (∀ a b c, isLowerThan a b s o = true → isLowerThan b c s o = true →
      isLowerThan a c s o = true) ∧
    (∀ a b, a < N → b < N → a ≠ b →
      (isLowerThan a b s o = true ∨ isLowerThan b a s o = true) ∧
        ¬ (isLowerThan a b s o = true ∧ isLowerThan b a s o = true)) ∧
    (∀ a b, isHigherThan a b s o = isLowerThan b a s o) := by
  refine ⟨fun a => isLowerThan_irrefl a s o, fun a b h => isLowerThan_asymm h,
    fun a b c h1 h2 => isLowerThan_trans h1 h2, fun a b ha hb hab => ⟨?_, ?_⟩,
    fun a b => isHigherThan_eq_isLowerThan a b s o⟩
  · exact isLowerThan_total fun hc => hab (ho a ha b hb hc)
  · rintro ⟨h1, h2⟩
    rw [isLowerThan_asymm h1] at h2
    exact Bool.noConfusion h2

end Batch

/-- C14, at the scalars `[0, 5, 1, 7]` with offsets `[0, 1, 2, 3]` and the vertices 0, 2. -/
theorem C14_strict_total_order_witness :
    DistinctOffsets 4 (fieldOf 0 [0, 1, 2, 3]) ∧
    ((isLowerThan 0 2 (fieldOf (0 : Int) [0, 5, 1, 7]) (fieldOf 0 [0, 1, 2, 3]) = true ∨
      isLowerThan 2 0 (fieldOf (0 : Int) [0, 5, 1, 7]) (fieldOf 0 [0, 1, 2, 3]) = true) ∧
      ¬ (isLowerThan 0 2 (fieldOf (0 : Int) [0, 5, 1, 7]) (fieldOf 0 [0, 1, 2, 3]) = true ∧
        isLowerThan 2 0 (fieldOf (0 : Int) [0, 5, 1, 7]) (fieldOf 0 [0, 1, 2, 3]) = true)) :=
  ⟨distinctOffsets_id4,
    (C14_strict_total_order 4 (fieldOf (0 : Int) [0, 5, 1, 7]) (fieldOf 0 [0, 1, 2, 3])
      distinctOffsets_id4).2.2.2.1 0 2 (by decide) (by decide) (by decide)⟩

section SortedTriples
variable {α : Type} [LinearOrder α]

theorem sortedTriples_perm (N : Nat) (s : Nat → α) (o : Nat → Int) :
    List.Perm (sortedTriples N s o) ((List.range N).map (tripleOf s o)) :=
  sort_perm (SweepCmp true) _

/-- The sorted tuples hold every vertex of the mesh once. -/
theorem frontVertices_sortedTriples_perm (N : Nat) (s : Nat → α) (o : Nat → Int) :
    List.Perm (frontVertices (sortedTriples N s o)) (List.range N) := by
  have h : List.Perm (frontVertices (sortedTriples N s o))
      (frontVertices ((List.range N).map (tripleOf s o))) :=
    List.Perm.map _ (sortedTriples_perm N s o)
  rwa [frontVertices_map_tripleOf] at h

theorem frontVertices_sortedTriples_nodup (N : Nat) (s : Nat → α) (o : Nat → Int) :
    (frontVertices (sortedTriples N s o)).Nodup :=
  (frontVertices_sortedTriples_perm N s o).nodup_iff.2 (List.nodup_range N)

theorem sortedTriples_key (N : Nat) (s : Nat → α) (o : Nat → Int) :
    ∀ t ∈ sortedTriples N s o, t = tripleOf s o t.2.2 := by
  intro t ht
  rw [(sortedTriples_perm N s o).mem_iff] at ht
  obtain ⟨i, _, rfl⟩ := List.mem_map.1 ht
  rfl

/-- With distinct offsets the sorted tuples ascend in the symbolic order. -/
theorem sortedTriples_pairwise {N : Nat} (s : Nat → α) {o : Nat → Int}
    (ho : DistinctOffsets N o) :
    (sortedTriples N s o).Pairwise (fun x y => SweepCmp true x y = true) := by
  have htot : ((List.range N).map (tripleOf s o)).Pairwise
      (fun x y => SweepCmp true x y = true ∨ SweepCmp true y x = true) := by
    rw [List.pairwise_map]
    apply List.Pairwise.imp_of_mem _ (List.nodup_range N)
    intro x y hx hy hxy
    apply SweepCmp_total
    show o x ≠ o y
    exact fun hc => hxy (ho x (List.mem_range.1 hx) y (List.mem_range.1 hy) hc)
  exact pairwise_sort (SweepCmp true) (fun _ _ _ h1 h2 => SweepCmp_trans h1 h2) htot

theorem frontVertices_sortedTriples_pairwise {N : Nat} (s : Nat → α) {o : Nat → Int}
    (ho : DistinctOffsets N o) :
    (frontVertices (sortedTriples N s o)).Pairwise
      (fun a b => isLowerThan a b s o = true) := by
  rw [frontVertices, List.pairwise_map]
  apply List.Pairwise.imp_of_mem _ (sortedTriples_pairwise s ho)
  intro x y hx hy h
  rw [sortedTriples_key N s o x hx, sortedTriples_key N s o y hy, SweepCmp_tripleOf] at h
  exact h

end SortedTriples

section PerturbChain
variable {α : Type} [LinearOrder α] [Add α]

theorem addPerturbation_some (N : Nat) (e : α) (s : Nat → α) (o : Nat → Int) :
    (addPerturbation N (some e) s o).2 = perturbationLoop e none (sortedTriples N s o) s :=
  rfl

/-- The write loop of `addPerturbation` along tuples of pairwise different vertices: the
other vertices keep their scalar, the first vertex gets the lifted value of its tuple, and
every further vertex the value of its tuple lifted above the new scalar of the vertex
before it. -/
theorem perturbationLoop_chain (e : α) (base : Nat → α) (l : List (Triple α))
    (prev : Option α) (s : Nat → α) (hnd : (frontVertices l).Nodup)
    (hl : ∀ t ∈ l, t.1 = base t.2.2) :
    (∀ v, v ∉ frontVertices l → perturbationLoop e prev l s v = s v) ∧
    (∀ t, l.head? = some t →
      perturbationLoop e prev l s t.2.2 = liftedValue e prev (base t.2.2)) ∧
    List.Chain' (fun p q => perturbationLoop e prev l s q =
      liftedValue e (some (perturbationLoop e prev l s p)) (base q)) (frontVertices l) := by
  induction l generalizing prev s with
  | nil =>
    exact ⟨fun _ _ => rfl, fun t ht => Option.noConfusion ht, List.chain'_nil⟩
  | cons t rest ih =>
    simp only [frontVertices, List.map_cons, List.nodup_cons] at hnd
    simp only [perturbationLoop]
    rw [hl t (List.mem_cons_self _ _)]
    generalize hval : liftedValue e prev (base t.2.2) = value
    obtain ⟨ih1, ih2, ih3⟩ := ih (some value) (Function.update s t.2.2 value) hnd.2
      (fun t' ht' => hl t' (List.mem_cons_of_mem _ ht'))
    have htv : perturbationLoop e (some value) rest (Function.update s t.2.2 value) t.2.2
        = value := by
      rw [ih1 _ hnd.1]; simp
    refine ⟨?_, ?_, ?_⟩
    · intro v hv
      simp only [frontVertices, List.map_cons, List.mem_cons, not_or] at hv
      rw [ih1 v hv.2, Function.update_noteq hv.1]
    · intro t' ht'
      simp only [List.head?_cons, Option.some.injEq] at ht'
      subst ht'
      rw [htv, hval]
    · simp only [frontVertices, List.map_cons]
      rw [List.chain'_cons']
      refine ⟨?_, ih3⟩
      intro q hq
      rw [htv]
      cases rest with
      | nil => cases hq
      | cons t' rest' =>
        simp only [frontVertices, List.map_cons, List.head?_cons, Option.mem_def,
          Option.some.injEq] at hq
        subst hq
        exact ih2 t' rfl

end PerturbChain

section SortedStrict
variable {α : Type} [LinearOrder α]

theorem mem_frontVertices_sortedTriples (N : Nat) (s : Nat → α) (o : Nat → Int) (v : Nat) :
    v ∈ frontVertices (sortedTriples N s o) ↔ v < N := by
  rw [(frontVertices_sortedTriples_perm N s o).mem_iff, List.mem_range]

/-- With distinct offsets, when the field `out` increases strictly along the order of `s`
sorted by `(scalar, offset)`: of two different vertices the one that is lower in `s` has
the strictly smaller value in `out`. -/
theorem pair_of_sorted_strict {N : Nat} (s out : Nat → α) {o : Nat → Int}
    (ho : DistinctOffsets N o)
    (hstrict : (frontVertices (sortedTriples N s o)).Pairwise (fun a b => out a < out b))
    (a b : Nat) (ha : a < N) (hb : b < N) (hab : a ≠ b) :
    (isLowerThan a b s o = true ∧ out a < out b) ∨
      (isLowerThan b a s o = true ∧ out b < out a) := by
  have hboth := (frontVertices_sortedTriples_pairwise s ho).and hstrict
  have hsym := List.Pairwise.forall (R := fun x y : Nat =>
      (isLowerThan x y s o = true ∧ out x < out y) ∨
        (isLowerThan y x s o = true ∧ out y < out x))
    (fun x y h => h.symm) (hboth.imp (fun h => Or.inl h))
  exact hsym ((mem_frontVertices_sortedTriples N s o a).2 ha)
    ((mem_frontVertices_sortedTriples N s o b).2 hb) hab

/-- In the situation of `pair_of_sorted_strict` the symbolic order of every two vertices
is the same in `out` as in `s`. -/
theorem order_of_sorted_strict {N : Nat} (s out : Nat → α) {o : Nat → Int}
    (ho : DistinctOffsets N o)
    (hstrict : (frontVertices (sortedTriples N s o)).Pairwise (fun a b => out a < out b))
    (a b : Nat) (ha : a < N) (hb : b < N) :
    isLowerThan a b out o = isLowerThan a b s o := by
  by_cases hab : a = b
  · subst hab; rw [isLowerThan_irrefl, isLowerThan_irrefl]
  rcases pair_of_sorted_strict s out ho hstrict a b ha hb hab with ⟨h1, h2⟩ | ⟨h1, h2⟩
  · rw [h1, isLowerThan_iff]
    exact Or.inl h2
  · rw [isLowerThan_asymm h1]
    apply isLowerThan_asymm
    rw [isLowerThan_iff]
    exact Or.inl h2

end SortedStrict

section PerturbStrict
variable {α : Type} [LinearOrder α] [Add α]

/-- Along the sorted order every vertex after the first gets the scalar of its tuple lifted
above the new scalar of the vertex before it. -/
theorem addPerturbation_chain (N : Nat) (e : α) (s : Nat → α) (o : Nat → Int) :
    List.Chain' (fun p q => (addPerturbation N (some e) s o).2 q =
      liftedValue e (some ((addPerturbation N (some e) s o).2 p)) (s q))
      (frontVertices (sortedTriples N s o)) := by
  rw [addPerturbation_some]
  exact (perturbationLoop_chain e s (sortedTriples N s o) none s
    (frontVertices_sortedTriples_nodup N s o)
    (fun t ht => by rw [sortedTriples_key N s o t ht]; rfl)).2.2

/-- The first vertex of the sorted order keeps its scalar. -/
theorem addPerturbation_head (N : Nat) (e : α) (s : Nat → α) (o : Nat → Int) :
    ∀ p, (frontVertices (sortedTriples N s o)).head? = some p →
      (addPerturbation N (some e) s o).2 p = s p := by
  obtain ⟨_, h2, _⟩ := perturbationLoop_chain e s (sortedTriples N s o) none s
    (frontVertices_sortedTriples_nodup N s o)
    (fun t ht => by rw [sortedTriples_key N s o t ht]; rfl)
  rw [addPerturbation_some]
  intro p hp
  rw [frontVertices, List.head?_map] at hp
  cases hh : (sortedTriples N s o).head? with
  | none => rw [hh] at hp; cases hp
  | some t =>
    rw [hh] at hp
    simp only [Option.map_some', Option.some.injEq] at hp
    subst hp
    exact h2 t hh

/-- When no new scalar absorbs `epsilon`, the new scalars increase strictly along the
sorted order. -/
theorem addPerturbation_strict (N : Nat) (e : α) (s : Nat → α) (o : Nat → Int)
    (hno : ∀ p, p < N →
      (addPerturbation N (some e) s o).2 p < (addPerturbation N (some e) s o).2 p + e) :
    (frontVertices (sortedTriples N s o)).Pairwise
      (fun a b => (addPerturbation N (some e) s o).2 a <
        (addPerturbation N (some e) s o).2 b) := by
  haveI : IsTrans Nat (fun a b => (addPerturbation N (some e) s o).2 a <
      (addPerturbation N (some e) s o).2 b) := ⟨fun _ _ _ h1 h2 => lt_trans h1 h2⟩
  rw [← List.chain'_iff_pairwise]
  apply (List.Chain'.iff_mem.1 (addPerturbation_chain N e s o)).imp
  rintro p q ⟨hp, _, h⟩
  rw [h]
  simp only [liftedValue]
  split_ifs with hc
  · exact hno p ((mem_frontVertices_sortedTriples N s o p).1 hp)
  · exact not_le.1 hc

end PerturbStrict

section ClaimC15
variable {α : Type} [LinearOrder α] [Add α]

set_option maxRecDepth 100000

/-- C15 as stated fails in `double`, where the sum `p + epsilon` is rounded. With `epsilon`
the `double` nearest `10⁻¹⁴`: at the scalars `[1000, 1000]` with offsets `[0, 1]` the sum
`1000 + epsilon` is 1000 again and both scalars are still 1000 after the call. At the
scalars `[p, p, 128]`, `p = 128 - 2^-46` the `double` just below 128, with offsets
`[0, 2, 1]` on the path 0 - 1 - 2 the sorted order is `0, 1, 2` and the new scalars are
`[p, 128, 128]`: vertex 1 was lower than vertex 2 and is higher after the call, vertex 1
turns from regular to a maximum and vertex 2 from a maximum to a minimum. -/
theorem C15_perturbation_strict_order_counterexample :
    (frontVertices (sortedTriples 2 (binary64Field [1000 * 2 ^ 99, 1000 * 2 ^ 99])
        (fieldOf 0 [0, 1])) = [0, 1] ∧
      (List.range 2).map (fun k => ((addPerturbation 2 (some Binary64.epsilon)
          (binary64Field [1000 * 2 ^ 99, 1000 * 2 ^ 99]) (fieldOf 0 [0, 1])).2 k).units) =
        [1000 * 2 ^ 99, 1000 * 2 ^ 99]) ∧
    (frontVertices (sortedTriples 3
        (binary64Field [(2 ^ 53 - 1) * 2 ^ 53, (2 ^ 53 - 1) * 2 ^ 53, 128 * 2 ^ 99])
        (fieldOf 0 [0, 2, 1])) = [0, 1, 2] ∧
      (List.range 3).map (fun k => ((addPerturbation 3 (some Binary64.epsilon)
          (binary64Field [(2 ^ 53 - 1) * 2 ^ 53, (2 ^ 53 - 1) * 2 ^ 53, 128 * 2 ^ 99])
          (fieldOf 0 [0, 2, 1])).2 k).units) =
        [(2 ^ 53 - 1) * 2 ^ 53, 128 * 2 ^ 99, 128 * 2 ^ 99] ∧
      isLowerThan 1 2
          (binary64Field [(2 ^ 53 - 1) * 2 ^ 53, (2 ^ 53 - 1) * 2 ^ 53, 128 * 2 ^ 99])
          (fieldOf 0 [0, 2, 1]) = true ∧
      isLowerThan 1 2
          (addPerturbation 3 (some Binary64.epsilon)
            (binary64Field [(2 ^ 53 - 1) * 2 ^ 53, (2 ^ 53 - 1) * 2 ^ 53, 128 * 2 ^ 99])
            (fieldOf 0 [0, 2, 1])).2
          (fieldOf 0 [0, 2, 1]) = false ∧
      (List.range 3).map (fun v => getCriticalType chain3 v
          (binary64Field [(2 ^ 53 - 1) * 2 ^ 53, (2 ^ 53 - 1) * 2 ^ 53, 128 * 2 ^ 99])
          (fieldOf 0 [0, 2, 1])) = [-1, 0, 1] ∧
      (List.range 3).map (fun v => getCriticalType chain3 v
          (addPerturbation 3 (some Binary64.epsilon)
            (binary64Field [(2 ^ 53 - 1) * 2 ^ 53, (2 ^ 53 - 1) * 2 ^ 53, 128 * 2 ^ 99])
            (fieldOf 0 [0, 2, 1])).2
          (fieldOf 0 [0, 2, 1])) = [-1, 1, -1]) := by
  decide

/-- C15, amended. With pairwise distinct offsets, when no scalar after `addPerturbation`
absorbs the step (for every vertex `p` the sum `scalars[p] + epsilon` in the scalar type
is strictly above `scalars[p]`; with an exact addition this is `0 < epsilon`): along the
vertices sorted by `(scalar, offset)` (every vertex once, ascending in the symbolic order)
the scalars after the call increase strictly, so the scalars of two different vertices
differ; `isLowerThan` on the new scalars agrees with `isLowerThan` on the old ones; and
with in-range neighbour ids `getCriticalType` of every vertex is unchanged. -/
theorem C15_perturbation_strict_order {N : Nat} {nb : Nat → List Nat} (hnb : InRange N nb)
    (e : α) (s : Nat → α) {o : Nat → Int} (ho : DistinctOffsets N o)
    (hno : ∀ p, p < N →
      (addPerturbation N (some e) s o).2 p < (addPerturbation N (some e) s o).2 p + e) :
    List.Perm (frontVertices (sortedTriples N s o)) (List.range N) ∧
    (frontVertices (sortedTriples N s o)).Pairwise
      (fun a b => isLowerThan a b s o = true) ∧
    (frontVertices (sortedTriples N s o)).Pairwise
      (fun a b => (addPerturbation N (some e) s o).2 a <
        (addPerturbation N (some e) s o).2 b) ∧
    (∀ a b, a < N → b < N → a ≠ b →
      (addPerturbation N (some e) s o).2 a ≠ (addPerturbation N (some e) s o).2 b) ∧
    (∀ a b, a < N → b < N →
      isLowerThan a b (addPerturbation N (some e) s o).2 o = isLowerThan a b s o) ∧
    (∀ v, v < N →
      getCriticalType nb v (addPerturbation N (some e) s o).2 o =
        getCriticalType nb v s o) := by
  have hstrict := addPerturbation_strict N e s o hno
  refine ⟨frontVertices_sortedTriples_perm N s o,
    frontVertices_sortedTriples_pairwise s ho, hstrict, ?_,
    fun a b ha hb => order_of_sorted_strict s _ ho hstrict a b ha hb,
    fun v hv => getCriticalType_congr nb v s _ o o fun u hu =>
      ⟨order_of_sorted_strict s _ ho hstrict u v (hnb v hv u hu) hv,
        order_of_sorted_strict s _ ho hstrict v u hv (hnb v hv u hu)⟩⟩
  intro a b ha hb hab
  rcases pair_of_sorted_strict s _ ho hstrict a b ha hb hab with ⟨_, h⟩ | ⟨_, h⟩
  · exact ne_of_lt h
  · exact ne_of_gt h

/-- C15 amended, in `double` at the path 0 - 1 - 2 - 3 with scalars `[2, 2, 0, 2]`,
offsets `[0, 1, 2, 3]` and `epsilon` the `double` nearest `10⁻¹⁴`: the sorted order is
`2, 0, 1, 3`, the new scalars are 2, 2 + 23 ulp, 0 and 2 + 46 ulp (`epsilon` is about
22.5 ulp of 2, one ulp of 2 being `2^48` units), and none of them absorbs `epsilon`. -/
theorem C15_perturbation_strict_order_witness :
    InRange 4 chain4 ∧ DistinctOffsets 4 (fieldOf 0 [0, 1, 2, 3]) ∧
    (∀ p, p < 4 →
      (addPerturbation 4 (some Binary64.epsilon)
          (binary64Field [2 * 2 ^ 99, 2 * 2 ^ 99, 0, 2 * 2 ^ 99])
          (fieldOf 0 [0, 1, 2, 3])).2 p <
        (addPerturbation 4 (some Binary64.epsilon)
          (binary64Field [2 * 2 ^ 99, 2 * 2 ^ 99, 0, 2 * 2 ^ 99])
          (fieldOf 0 [0, 1, 2, 3])).2 p + Binary64.epsilon) ∧
    frontVertices (sortedTriples 4 (binary64Field [2 * 2 ^ 99, 2 * 2 ^ 99, 0, 2 * 2 ^ 99])
      (fieldOf 0 [0, 1, 2, 3])) = [2, 0, 1, 3] ∧
    (frontVertices (sortedTriples 4 (binary64Field [2 * 2 ^ 99, 2 * 2 ^ 99, 0, 2 * 2 ^ 99])
        (fieldOf 0 [0, 1, 2, 3]))).Pairwise
      (fun a b => (addPerturbation 4 (some Binary64.epsilon)
          (binary64Field [2 * 2 ^ 99, 2 * 2 ^ 99, 0, 2 * 2 ^ 99])
          (fieldOf 0 [0, 1, 2, 3])).2 a <
        (addPerturbation 4 (some Binary64.epsilon)
          (binary64Field [2 * 2 ^ 99, 2 * 2 ^ 99, 0, 2 * 2 ^ 99])
          (fieldOf 0 [0, 1, 2, 3])).2 b) :=
  have hno : ∀ p, p < 4 →
      (addPerturbation 4 (some Binary64.epsilon)
          (binary64Field [2 * 2 ^ 99, 2 * 2 ^ 99, 0, 2 * 2 ^ 99])
          (fieldOf 0 [0, 1, 2, 3])).2 p <
        (addPerturbation 4 (some Binary64.epsilon)
          (binary64Field [2 * 2 ^ 99, 2 * 2 ^ 99, 0, 2 * 2 ^ 99])
          (fieldOf 0 [0, 1, 2, 3])).2 p + Binary64.epsilon := by decide
  ⟨chain4_inRange, distinctOffsets_id4, hno, by decide,
    (C15_perturbation_strict_order chain4_inRange Binary64.epsilon
      (binary64Field [2 * 2 ^ 99, 2 * 2 ^ 99, 0, 2 * 2 ^ 99]) distinctOffsets_id4 hno).2.2.1⟩

end ClaimC15

section ClaimC16
variable {α : Type} [LinearOrder α] [Add α]

set_option maxRecDepth 100000

/-- C16 as stated fails, in `double` with `epsilon` the `double` nearest `10⁻¹⁴`
(`6338253001141147` units of `2^-99`). At the scalars `[0, 2^-47]` with offsets `[0, 1]`
the sorted order is `0, 1`, nothing is lifted, and scalar 1 stays below
`scalars[0] + epsilon = epsilon` (no rounding occurs here). At the scalars `[1000, 1000]`
vertex 1 is lifted to `1000 + epsilon`, which is rounded to 1000: the gap is 0. -/
theorem C16_epsilon_gap_counterexample :
    (frontVertices (sortedTriples 2 (binary64Field [0, 2 ^ 52]) (fieldOf 0 [0, 1])) = [0, 1] ∧
      (List.range 2).map (fun k => ((addPerturbation 2 (some Binary64.epsilon)
          (binary64Field [0, 2 ^ 52]) (fieldOf 0 [0, 1])).2 k).units) = [0, 2 ^ 52] ∧
      ((addPerturbation 2 (some Binary64.epsilon)
          (binary64Field [0, 2 ^ 52]) (fieldOf 0 [0, 1])).2 0 + Binary64.epsilon).units =
        6338253001141147 ∧
      ¬ ((addPerturbation 2 (some Binary64.epsilon)
          (binary64Field [0, 2 ^ 52]) (fieldOf 0 [0, 1])).2 1 ≥
        (addPerturbation 2 (some Binary64.epsilon)
          (binary64Field [0, 2 ^ 52]) (fieldOf 0 [0, 1])).2 0 + Binary64.epsilon)) ∧
    (frontVertices (sortedTriples 2 (binary64Field [1000 * 2 ^ 99, 1000 * 2 ^ 99])
        (fieldOf 0 [0, 1])) = [0, 1] ∧
      ((addPerturbation 2 (some Binary64.epsilon)
          (binary64Field [1000 * 2 ^ 99, 1000 * 2 ^ 99]) (fieldOf 0 [0, 1])).2 1).units -
        ((addPerturbation 2 (some Binary64.epsilon)
          (binary64Field [1000 * 2 ^ 99, 1000 * 2 ^ 99]) (fieldOf 0 [0, 1])).2 0).units = 0) := by
  decide

/-- C16, amended. With pairwise distinct offsets the order sorted by `(scalar, offset)`
holds every vertex once, ascending in the symbolic order, and for every two vertices `p`,
`q` that are consecutive in it: when the scalar of `q` before the call is at most the new
scalar of `p`, the new scalar of `q` is the sum `scalars[p] + epsilon` of the scalar type
(rounded for `float` and `double`, where it can be `scalars[p]` itself); otherwise `q`
keeps its scalar, which is strictly above the new scalar of `p`, by a gap that can be
below `epsilon`. The first vertex of the order keeps its scalar. -/
theorem C16_epsilon_gap_when_lifted (N : Nat) (e : α) (s : Nat → α) {o : Nat → Int}
    (ho : DistinctOffsets N o) :
    List.Perm (frontVertices (sortedTriples N s o)) (List.range N) ∧
    (frontVertices (sortedTriples N s o)).Pairwise
      (fun a b => isLowerThan a b s o = true) ∧
    List.Chain' (fun p q =>
      (s q ≤ (addPerturbation N (some e) s o).2 p →
        (addPerturbation N (some e) s o).2 q = (addPerturbation N (some e) s o).2 p + e) ∧
      (¬ s q ≤ (addPerturbation N (some e) s o).2 p →
        (addPerturbation N (some e) s o).2 q = s q ∧
          (addPerturbation N (some e) s o).2 p < (addPerturbation N (some e) s o).2 q))
      (frontVertices (sortedTriples N s o)) ∧
    ∀ p, (frontVertices (sortedTriples N s o)).head? = some p →
      (addPerturbation N (some e) s o).2 p = s p := by
  refine ⟨frontVertices_sortedTriples_perm N s o,
    frontVertices_sortedTriples_pairwise s ho, ?_, addPerturbation_head N e s o⟩
  apply (addPerturbation_chain N e s o).imp
  intro p q h
  rw [h]
  simp only [liftedValue]
  constructor
  · intro hc; rw [if_pos hc]
  · intro hc; rw [if_neg hc]; exact ⟨rfl, not_le.1 hc⟩

/-- C16 amended, in `double` at the scalars `[2, 2, 0, 2]` with offsets `[0, 1, 2, 3]` and
`epsilon` the `double` nearest `10⁻¹⁴`: the sorted order is `2, 0, 1, 3`; vertex 0 keeps
its scalar 2 above the 0 of vertex 2, vertices 1 and 3 are lifted to 2 + 23 ulp and
2 + 46 ulp (`epsilon` is about 22.5 ulp of 2, one ulp of 2 being `2^48` units). -/
theorem C16_epsilon_gap_when_lifted_witness :
    DistinctOffsets 4 (fieldOf 0 [0, 1, 2, 3]) ∧
    frontVertices (sortedTriples 4 (binary64Field [2 * 2 ^ 99, 2 * 2 ^ 99, 0, 2 * 2 ^ 99])
      (fieldOf 0 [0, 1, 2, 3])) = [2, 0, 1, 3] ∧
    (List.range 4).map (fun k => ((addPerturbation 4 (some Binary64.epsilon)
        (binary64Field [2 * 2 ^ 99, 2 * 2 ^ 99, 0, 2 * 2 ^ 99])
        (fieldOf 0 [0, 1, 2, 3])).2 k).units - 2 * 2 ^ 99) =
      [0, 23 * 2 ^ 48, -2 * 2 ^ 99, 46 * 2 ^ 48] ∧
    List.Chain' (fun p q =>
      (binary64Field [2 * 2 ^ 99, 2 * 2 ^ 99, 0, 2 * 2 ^ 99] q ≤
          (addPerturbation 4 (some Binary64.epsilon)
            (binary64Field [2 * 2 ^ 99, 2 * 2 ^ 99, 0, 2 * 2 ^ 99])
            (fieldOf 0 [0, 1, 2, 3])).2 p →
        (addPerturbation 4 (some Binary64.epsilon)
            (binary64Field [2 * 2 ^ 99, 2 * 2 ^ 99, 0, 2 * 2 ^ 99])
            (fieldOf 0 [0, 1, 2, 3])).2 q =
          (addPerturbation 4 (some Binary64.epsilon)
            (binary64Field [2 * 2 ^ 99, 2 * 2 ^ 99, 0, 2 * 2 ^ 99])
            (fieldOf 0 [0, 1, 2, 3])).2 p + Binary64.epsilon) ∧
      (¬ binary64Field [2 * 2 ^ 99, 2 * 2 ^ 99, 0, 2 * 2 ^ 99] q ≤
          (addPerturbation 4 (some Binary64.epsilon)
            (binary64Field [2 * 2 ^ 99, 2 * 2 ^ 99, 0, 2 * 2 ^ 99])
            (fieldOf 0 [0, 1, 2, 3])).2 p →
        (addPerturbation 4 (some Binary64.epsilon)
            (binary64Field [2 * 2 ^ 99, 2 * 2 ^ 99, 0, 2 * 2 ^ 99])
            (fieldOf 0 [0, 1, 2, 3])).2 q =
          binary64Field [2 * 2 ^ 99, 2 * 2 ^ 99, 0, 2 * 2 ^ 99] q ∧
        (addPerturbation 4 (some Binary64.epsilon)
            (binary64Field [2 * 2 ^ 99, 2 * 2 ^ 99, 0, 2 * 2 ^ 99])
            (fieldOf 0 [0, 1, 2, 3])).2 p <
          (addPerturbation 4 (some Binary64.epsilon)
            (binary64Field [2 * 2 ^ 99, 2 * 2 ^ 99, 0, 2 * 2 ^ 99])
            (fieldOf 0 [0, 1, 2, 3])).2 q))
      (frontVertices (sortedTriples 4 (binary64Field [2 * 2 ^ 99, 2 * 2 ^ 99, 0, 2 * 2 ^ 99])
        (fieldOf 0 [0, 1, 2, 3]))) :=
  ⟨distinctOffsets_id4, by decide, by decide,
    (C16_epsilon_gap_when_lifted 4 Binary64.epsilon
      (binary64Field [2 * 2 ^ 99, 2 * 2 ^ 99, 0, 2 * 2 ^ 99]) distinctOffsets_id4).2.2.1⟩

end ClaimC16

section PerturbFrame
variable {α : Type} [LinearOrderedAddCommGroup α]

theorem le_liftedValue (e : α) (he : 0 ≤ e) (prev : Option α) (x : α) :
    x ≤ liftedValue e prev x := by
  cases prev with
  | none => exact le_refl _
  | some p =>
    simp only [liftedValue]
    split_ifs with h
    · exact h.trans (le_add_of_nonneg_right he)
    · exact le_refl _

/-- The write loop of `addPerturbation` never writes a value below the one its tuple
holds. -/
theorem perturbationLoop_ge (e : α) (he : 0 ≤ e) (base : Nat → α) (l : List (Triple α))
    (prev : Option α) (s : Nat → α) (hl : ∀ t ∈ l, base t.2.2 ≤ t.1)
    (hs : ∀ i, base i ≤ s i) : ∀ i, base i ≤ perturbationLoop e prev l s i := by
  induction l generalizing prev s with
  | nil => simpa [perturbationLoop] using hs
  | cons t rest ih =>
    simp only [perturbationLoop]
    apply ih _ _ (fun t' ht' => hl t' (List.mem_cons_of_mem _ ht'))
    intro i
    by_cases hiv : i = t.2.2
    · subst hiv
      rw [Function.update_same]
      exact (hl t (List.mem_cons_self _ _)).trans (le_liftedValue e he prev t.1)
    · rw [Function.update_noteq hiv]
      exact hs i

theorem addPerturbation_ge (N : Nat) (e : α) (he : 0 ≤ e) (s : Nat → α) (o : Nat → Int)
    (i : Nat) : s i ≤ (addPerturbation N (some e) s o).2 i := by
  simp only [addPerturbation]
  apply perturbationLoop_ge e he s _ none s _ (fun i => le_refl _)
  intro t ht
  rw [(sort_perm _ _).mem_iff] at ht
  simp only [List.mem_map, List.mem_range] at ht
  obtain ⟨j, _, rfl⟩ := ht
  exact le_refl _

/-- C17. `addPerturbation` leaves every offset unchanged, and with `0 ≤ epsilon` (or a
scalar type that is not floating point, where nothing is written) every scalar after the
call is at least its value before the call. -/
theorem C17_perturbation_frame (N : Nat) (eps : Option α) (s : Nat → α) (o : Nat → Int)
    (he : ∀ e, eps = some e → 0 ≤ e) :
    (addPerturbationBuffers N eps s o).2 = o ∧
    ∀ i, s i ≤ (addPerturbationBuffers N eps s o).1 i := by
  refine ⟨rfl, fun i => ?_⟩
  cases eps with
  | none => exact le_refl _
  | some e => exact addPerturbation_ge N e (he e rfl) s o i

end PerturbFrame

/-- C17, at the scalars `[2, 2, 0]` with offsets `[0, 1, 2]` and `epsilon = 1`. -/
theorem C17_perturbation_frame_witness :
    (∀ e : Int, some (1 : Int) = some e → 0 ≤ e) ∧
    (addPerturbationBuffers 3 (some (1 : Int)) (fieldOf 0 [2, 2, 0]) (fieldOf 0 [0, 1, 2])).2
      = fieldOf 0 [0, 1, 2] ∧
    ∀ i, fieldOf (0 : Int) [2, 2, 0] i ≤
      (addPerturbationBuffers 3 (some (1 : Int)) (fieldOf 0 [2, 2, 0])
        (fieldOf 0 [0, 1, 2])).1 i :=
  ⟨fun e h => (eps_one_pos e h).le,
    C17_perturbation_frame 3 (some (1 : Int)) (fieldOf 0 [2, 2, 0]) (fieldOf 0 [0, 1, 2])
      (fun e h => (eps_one_pos e h).le)⟩

section Unsupported
variable {α : Type} [LinearOrder α] [Add α]

/-- With a scalar type that is not floating point the perturbation step of the main loop
writes nothing: the loop runs as with perturbation disabled. -/
theorem mainLoop_none (N : Nat) (nb : Nat → List Nat) (A B : List Nat) (rem : Nat)
    (ae : Nat → Bool) (s : Nat → α) (o : Nat → Int) (it : Nat) (need : Bool) :
    mainLoop N nb true none A B rem ae s o it need =
      mainLoop N nb false none A B rem ae s o it need := by
  induction rem generalizing ae s o it need with
  | zero => rfl
  | succ rem ih =>
    rw [mainLoop, mainLoop]
    cases regionGrowPass N nb true A ae s o with
    | outOfFuel => rfl
    | emptyFront pos => rfl
    | done ae1 seq1 pos1 s1 o1 =>
      simp only []
      cases regionGrowPass N nb false B ae1 s1 o1 with
      | outOfFuel => rfl
      | emptyFront pos => rfl
      | done ae2 seq2 pos2 s2 o2 =>
        simp only [addPerturbation, if_true, ih]
        simp

end Unsupported

/-- C18 (as written) fails: with perturbation enabled and a scalar type that is not
floating point, `addPerturbation` returns -1, yet `execute` on the path 0 - 1 - 2 - 3 with
scalars `[0, 5, 1, 7]` and the whitelist `[0, 1, 3]` returns the status 0. -/
theorem C18_unsupported_type_counterexample :
    (addPerturbation 4 (none : Option Int) (fieldOf 0 [0, 5, 1, 7])
      (fieldOf 0 [0, 1, 2, 3])).1 = -1 ∧
    (execute 4 chain4 false true none (fieldOf none [some (0 : Int), some 5, some 1, some 7])
      (fieldOf 0 [0, 1, 2, 3]) [0, 1, 3]).map (fun r => r.status) = some 0 := by
  decide

/-- C19 (as written) fails for an `idType` wider than `SimplexId`. On the path
0 - 1 - 2 - 3 with scalars `[0, 5, 1, 7]` the identifier `2^32 + 2` is outside `[0, 4)`,
yet it is converted to 2 and sets bit 2: with the whitelist `[0, 3, 2^32 + 2]` the output
scalars are `[0, 1, 1, 7]`, with the whitelist `[0, 3]` they are `[0, 5, 5, 7]`. -/
theorem C19_out_of_range_identifier_counterexample :
    ([0, 3, 4294967298] : List Int).filter (fun i => decide (0 ≤ i ∧ i < ((4 : Nat) : Int)))
      = [0, 3] ∧
    userExtrema 4 [0, 3, 4294967298] 2 = true ∧
    (execute 4 chain4 false false none (fieldOf none [some (0 : Int), some 5, some 1, some 7])
      (fieldOf 0 [0, 1, 2, 3]) [0, 3, 4294967298]).map
        (fun r => (r.status, (List.range 4).map r.scalars)) = some (0, [0, 1, 1, 7]) ∧
    (execute 4 chain4 false false none (fieldOf none [some (0 : Int), some 5, some 1, some 7])
      (fieldOf 0 [0, 1, 2, 3]) [0, 3]).map
        (fun r => (r.status, (List.range 4).map r.scalars)) = some (0, [0, 5, 5, 7]) := by
  decide

section ExecIdentifiers
variable {α : Type} [LinearOrder α] [Add α] [Zero α]

/-- C18 (amended). For a scalar type that is not floating point `addPerturbation` returns
-1 and modifies no scalar; `execute` discards that value: with perturbation enabled it
returns what it returns with perturbation disabled. -/
theorem C18_unsupported_type_ignored (N : Nat) (nb : Nat → List Nat) (bl : Bool)
    (inS : Nat → Option α) (inO : Nat → Int) (ids : List Int) (s : Nat → α)
    (o : Nat → Int) :
    addPerturbation N none s o = (-1, s) ∧
    execute N nb bl true none inS inO ids = execute N nb bl false none inS inO ids :=
  ⟨rfl, by rw [execute_eq, execute_eq, mainLoop_none]⟩

/-- The constraint bitset only depends on the identifiers whose conversion to `SimplexId`
is a vertex id. -/
theorem userExtrema_filter (N : Nat) (ids : List Int) :
    userExtrema N
        (ids.filter (fun i => decide (0 ≤ toSimplexId i ∧ toSimplexId i < (N : Int)))) =
      userExtrema N ids := by
  funext v
  rw [Bool.eq_iff_iff, userExtrema_iff, userExtrema_iff]
  simp only [List.mem_map, List.mem_filter, decide_eq_true_eq]
  constructor
  · rintro ⟨h1, i, ⟨hi, _⟩, hiv⟩
    exact ⟨h1, i, hi, hiv⟩
  · rintro ⟨h1, i, hi, hiv⟩
    exact ⟨h1, i, ⟨hi, by omega, by omega⟩, hiv⟩

/-- On identifiers that fit in a `SimplexId` the range test sees the identifier itself. -/
theorem filter_fit (N : Nat) (ids : List Int)
    (hfit : ∀ id ∈ ids, -2147483648 ≤ id ∧ id < 2147483648) :
    ids.filter (fun i => decide (0 ≤ toSimplexId i ∧ toSimplexId i < (N : Int))) =
      ids.filter (fun i => decide (0 ≤ i ∧ i < (N : Int))) := by
  apply List.filter_congr
  intro i hi
  rw [toSimplexId_of_range (hfit i hi).1 (hfit i hi).2]

theorem map_toSimplexId_fit (ids : List Int)
    (hfit : ∀ id ∈ ids, -2147483648 ≤ id ∧ id < 2147483648) :
    ids.map toSimplexId = ids := by
  conv_rhs => rw [← List.map_id ids]
  apply List.map_congr_left
  intro i hi
  exact toSimplexId_of_range (hfit i hi).1 (hfit i hi).2

/-- C19 (amended). With bounds checks on, `execute` returns the same result (status,
output scalars, output offsets) on an identifier list and on the list with every
identifier removed whose conversion to `SimplexId` is outside `[0, N)`; bit `i` of the
constraint bitset is set iff `i < N` and some listed identifier converts to `i`. When every
identifier fits in a `SimplexId` these are the identifiers outside `[0, N)` and the listed
`i` themselves. -/
theorem C19_converted_identifiers_skipped (N : Nat) (nb : Nat → List Nat)
    (bl pf : Bool) (eps : Option α) (inS : Nat → Option α) (inO : Nat → Int)
    (ids : List Int) :
    execute N nb bl pf eps inS inO ids =
      execute N nb bl pf eps inS inO
        (ids.filter (fun i => decide (0 ≤ toSimplexId i ∧ toSimplexId i < (N : Int)))) ∧
    (∀ i : Nat, userExtrema N ids i = true ↔
      i < N ∧ ∃ id ∈ ids, toSimplexId id = (i : Int)) ∧
    ((∀ id ∈ ids, -2147483648 ≤ id ∧ id < 2147483648) →
      execute N nb bl pf eps inS inO ids =
        execute N nb bl pf eps inS inO
          (ids.filter (fun i => decide (0 ≤ i ∧ i < (N : Int)))) ∧
      ∀ i : Nat, userExtrema N ids i = true ↔ i < N ∧ (i : Int) ∈ ids) := by
  have h1 : execute N nb bl pf eps inS inO ids =
      execute N nb bl pf eps inS inO
        (ids.filter (fun i => decide (0 ≤ toSimplexId i ∧ toSimplexId i < (N : Int)))) := by
    simp only [execute_eq, authorized, userExtrema_filter]
  refine ⟨h1, fun i => ?_, fun hfit => ⟨?_, fun i => ?_⟩⟩
  · rw [userExtrema_iff]
    simp only [List.mem_map]
  · rw [← filter_fit N ids hfit]
    exact h1
  · rw [userExtrema_iff, map_toSimplexId_fit ids hfit]

end ExecIdentifiers

section SeqList

/-- A sequence that permutes `[0, N)` lists every vertex once. -/
theorem SeqPerm.perm_range {N : Nat} {seq : Nat → Nat} (h : SeqPerm N seq) :
    List.Perm ((List.range N).map seq) (List.range N) := by
  obtain ⟨h1, h2, h3⟩ := h
  have hnd : ((List.range N).map seq).Nodup :=
    List.Nodup.map_on
      (fun i hi j hj hij => h2 i (List.mem_range.1 hi) j (List.mem_range.1 hj) hij)
      (List.nodup_range N)
  rw [List.perm_ext_iff_of_nodup hnd (List.nodup_range N)]
  intro v
  simp only [List.mem_map, List.mem_range]
  constructor
  · rintro ⟨k, hk, rfl⟩
    exact h1 k hk
  · intro hv
    obtain ⟨k, hk, hkv⟩ := h3 v hv
    exact ⟨k, hk, hkv⟩

end SeqList

section ClaimC20
variable {α : Type} [LinearOrder α]

/-- C20. For a field with pairwise distinct offsets, a connected neighbour relation with
in-range ids and a non-empty seed list without duplicates, in both directions the growth
loop of a pass, started from the front the seed loop leaves, ends through its `while`
test with `adjustmentPos = N` and `adjustmentSequence` a permutation of `[0, N)`: every
vertex is dequeued exactly once; the pass completes with that sequence. -/
theorem C20_growth_visits_every_vertex_once {N : Nat} {nb : Nat → List Nat}
    (hnb : InRange N nb) (hc : ConnectedMesh N nb) (s : Nat → α) {o : Nat → Int}
    (ho : DistinctOffsets N o) (dir : Bool) (seeds : List Nat) (ae : Nat → Bool)
    (hnd : seeds.Nodup) (hlt : ∀ k ∈ seeds, k < N) (hne : seeds ≠ []) :
    ∃ seq, growthLoop (SweepCmp dir) nb s o N
        (addSeeds (SweepCmp dir) s o seeds (ae, [], fun _ => false)).2.1
        (addSeeds (SweepCmp dir) s o seeds (ae, [], fun _ => false)).2.2 (fun _ => 0) 0
          = Growth.done seq N ∧
      SeqPerm N seq ∧
      List.Perm ((List.range N).map seq) (List.range N) ∧
      (regionGrowPass N nb dir seeds ae s o).adjustmentPos = some N := by
  obtain ⟨vis, seq, h1, _, h3, _⟩ := growthLoop_strong hnb hc (s := s) ho dir seeds ae hnd
    hlt hne (fun _ _ _ _ => True) trivial (fun _ _ _ _ _ _ _ => trivial)
  refine ⟨seq, h1, h3, h3.perm_range, ?_⟩
  simp only [regionGrowPass, h1, Pass.adjustmentPos]

end ClaimC20

/-- C20, at the path 0 - 1 - 2 - 3 with scalars `[0, 5, 1, 7]`, ascending from the seed
0: the vertices are dequeued in the order `0, 1, 2, 3`. -/
theorem C20_growth_visits_every_vertex_once_witness :
    InRange 4 chain4 ∧ ConnectedMesh 4 chain4 ∧ DistinctOffsets 4 (fieldOf 0 [0, 1, 2, 3]) ∧
    (regionGrowPass 4 chain4 true [0] (fun _ => false) (fieldOf (0 : Int) [0, 5, 1, 7])
      (fieldOf 0 [0, 1, 2, 3])).adjustmentPos = some 4 ∧
    ∃ seq, growthLoop (SweepCmp true) chain4 (fieldOf (0 : Int) [0, 5, 1, 7])
        (fieldOf 0 [0, 1, 2, 3]) 4
        (addSeeds (SweepCmp true) (fieldOf (0 : Int) [0, 5, 1, 7]) (fieldOf 0 [0, 1, 2, 3])
          [0] (fun _ => false, [], fun _ => false)).2.1
        (addSeeds (SweepCmp true) (fieldOf (0 : Int) [0, 5, 1, 7]) (fieldOf 0 [0, 1, 2, 3])
          [0] (fun _ => false, [], fun _ => false)).2.2 (fun _ => 0) 0
          = Growth.done seq 4 ∧
      SeqPerm 4 seq ∧
      List.Perm ((List.range 4).map seq) (List.range 4) ∧
      (regionGrowPass 4 chain4 true [0] (fun _ => false) (fieldOf (0 : Int) [0, 5, 1, 7])
        (fieldOf 0 [0, 1, 2, 3])).adjustmentPos = some 4 :=
  ⟨chain4_inRange, chain4_connected, distinctOffsets_id4, by decide,
    C20_growth_visits_every_vertex_once chain4_inRange chain4_connected
      (fieldOf (0 : Int) [0, 5, 1, 7]) distinctOffsets_id4 true [0] (fun _ => false)
      (by decide) (by decide) (by decide)⟩

section RewriteRunning
variable {α : Type} [LinearOrder α]

/-- The scalar step `k` of the rewrite leaves at `adjustmentSequence[k]`. -/
theorem rewriteStep_scalars_at (dir : Bool) (seq : Nat → Nat)
    (st : (Nat → α) × (Nat → Int) × Int) (k : Nat) :
    (rewriteStep dir seq st k).1 (seq k) =
      if k = 0 then st.1 (seq k)
      else if dir then max (st.1 (seq k)) (st.1 (seq (k - 1)))
      else min (st.1 (seq k)) (st.1 (seq (k - 1))) := by
  unfold rewriteStep
  by_cases hk : k = 0
  · cases dir <;> simp [hk]
  · cases dir
    · simp only [Bool.false_eq_true, if_false, hk, ne_eq, not_false_eq_true, true_and]
      split_ifs with hc
      · rw [Function.update_same]; exact (min_eq_right hc).symm
      · exact (min_eq_left (le_of_lt (not_le.1 hc))).symm
    · simp only [if_true, hk, ne_eq, not_false_eq_true, true_and, if_false]
      split_ifs with hc
      · rw [Function.update_same]; exact (max_eq_right hc).symm
      · exact (max_eq_left (le_of_lt (not_le.1 hc))).symm

/-- After `n ≤ N` steps of the rewrite along an injective sequence every scalar written so
far is the old scalar of its vertex combined (`max` ascending, `min` descending) with the
new scalar of the vertex before it in the sequence. -/
theorem rewrite_steps_rec (N : Nat) (dir : Bool) (seq : Nat → Nat) (s : Nat → α)
    (o : Nat → Int) (hinj : ∀ i, i < N → ∀ j, j < N → seq i = seq j → i = j) (n : Nat)
    (hn : n ≤ N) (k : Nat) (hk : k < n) :
    ((List.range n).foldl (rewriteStep dir seq)
        (s, o, if dir then 0 else (N : Int) + 1)).1 (seq k) =
      if k = 0 then s (seq k)
      else if dir then max (s (seq k)) (((List.range n).foldl (rewriteStep dir seq)
        (s, o, if dir then 0 else (N : Int) + 1)).1 (seq (k - 1)))
      else min (s (seq k)) (((List.range n).foldl (rewriteStep dir seq)
        (s, o, if dir then 0 else (N : Int) + 1)).1 (seq (k - 1))) := by
  induction n with
  | zero => exact absurd hk (Nat.not_lt_zero _)
  | succ n ih =>
    obtain ⟨_, _, h3, _⟩ := rewrite_steps N dir seq s o hinj n (by omega)
    rw [foldl_range_succ]
    generalize hprev : (List.range n).foldl (rewriteStep dir seq)
      (s, o, if dir then 0 else (N : Int) + 1) = prev at ih h3
    have hne : ∀ i, i < n → seq i ≠ seq n := fun i hi hc => by
      have := hinj i (by omega) n (by omega) hc
      omega
    by_cases hkn : k = n
    · subst hkn
      have hold : prev.1 (seq k) = s (seq k) := (h3 (seq k) (fun i hi => hne i hi)).2
      rw [rewriteStep_scalars_at, hold]
      by_cases hk0 : k = 0
      · simp [hk0]
      · rw [if_neg hk0, if_neg hk0,
          rewriteStep_scalars_of_ne dir seq prev k _ (hne (k - 1) (by omega))]
    · have hk' : k < n := by omega
      rw [rewriteStep_scalars_of_ne dir seq prev n _ (hne k hk'), ih (by omega) hk']
      by_cases hk0 : k = 0
      · simp [hk0]
      · rw [if_neg hk0, if_neg hk0,
          rewriteStep_scalars_of_ne dir seq prev n _ (hne (k - 1) (by omega))]

/-- The recurrence of the rewritten scalars along a bijective sequence. -/
theorem rewrite_rec {N : Nat} (dir : Bool) {seq : Nat → Nat} (s : Nat → α) (o : Nat → Int)
    (hp : SeqPerm N seq) (k : Nat) (hk : k < N) :
    (rewrite N dir seq s o).1 (seq k) =
      if k = 0 then s (seq k)
      else if dir then max (s (seq k)) ((rewrite N dir seq s o).1 (seq (k - 1)))
      else min (s (seq k)) ((rewrite N dir seq s o).1 (seq (k - 1))) :=
  rewrite_steps_rec N dir seq s o hp.2.1 N le_rfl k hk

/-- Ascending rewrite: the new scalar of `seq k` is the maximum of the old scalars of
`seq 0, …, seq k`. -/
theorem rewrite_running_max {N : Nat} {seq : Nat → Nat} (s : Nat → α) (o : Nat → Int)
    (hp : SeqPerm N seq) (k : Nat) (hk : k < N) :
    (∀ i, i ≤ k → s (seq i) ≤ (rewrite N true seq s o).1 (seq k)) ∧
    ∃ i, i ≤ k ∧ (rewrite N true seq s o).1 (seq k) = s (seq i) := by
  induction k with
  | zero =>
    have h := rewrite_rec true s o hp 0 hk
    rw [if_pos rfl] at h
    refine ⟨fun i hi => ?_, 0, le_rfl, h⟩
    have : i = 0 := by omega
    subst this
    exact h.ge
  | succ k ih =>
    obtain ⟨ih1, j, hj, ih2⟩ := ih (by omega)
    have h := rewrite_rec true s o hp (k + 1) hk
    rw [if_neg (by omega), if_pos rfl, Nat.add_sub_cancel] at h
    constructor
    · intro i hi
      rw [h]
      by_cases hik : i = k + 1
      · subst hik; exact le_max_left _ _
      · exact (ih1 i (by omega)).trans (le_max_right _ _)
    · rcases max_choice (s (seq (k + 1))) ((rewrite N true seq s o).1 (seq k)) with hm | hm
      · exact ⟨k + 1, le_rfl, by rw [h, hm]⟩
      · exact ⟨j, by omega, by rw [h, hm, ih2]⟩

/-- Descending rewrite: the new scalar of `seq k` is the minimum of the old scalars of
`seq 0, …, seq k`. -/
theorem rewrite_running_min {N : Nat} {seq : Nat → Nat} (s : Nat → α) (o : Nat → Int)
    (hp : SeqPerm N seq) (k : Nat) (hk : k < N) :
    (∀ i, i ≤ k → (rewrite N false seq s o).1 (seq k) ≤ s (seq i)) ∧
    ∃ i, i ≤ k ∧ (rewrite N false seq s o).1 (seq k) = s (seq i) := by
  induction k with
  | zero =>
    have h := rewrite_rec false s o hp 0 hk
    rw [if_pos rfl] at h
    refine ⟨fun i hi => ?_, 0, le_rfl, h⟩
    have : i = 0 := by omega
    subst this
    exact h.le
  | succ k ih =>
    obtain ⟨ih1, j, hj, ih2⟩ := ih (by omega)
    have h := rewrite_rec false s o hp (k + 1) hk
    rw [if_neg (by omega), if_neg (by decide), Nat.add_sub_cancel] at h
    constructor
    · intro i hi
      rw [h]
      by_cases hik : i = k + 1
      · subst hik; exact min_le_left _ _
      · exact (min_le_right _ _).trans (ih1 i (by omega))
    · rcases min_choice (s (seq (k + 1))) ((rewrite N false seq s o).1 (seq k)) with hm | hm
      · exact ⟨k + 1, le_rfl, by rw [h, hm]⟩
      · exact ⟨j, by omega, by rw [h, hm, ih2]⟩

end RewriteRunning

section ClaimC21
variable {α : Type} [LinearOrder α]

/-- C21. Along an adjustment sequence that is a permutation of the vertices: after the
ascending rewrite the scalars are non-decreasing along the sequence, the scalar of `seq k`
is the maximum of the old scalars of `seq 0, …, seq k`, and `isLowerThan (seq i) (seq j)`
holds iff `i < j`; after the descending rewrite the scalars are non-increasing along the
sequence, the scalar of `seq k` is the minimum of the old scalars of `seq 0, …, seq k`, and
`isHigherThan (seq i) (seq j)` holds iff `i < j`. -/
theorem C21_rewrite_matches_pop_order {N : Nat} {seq : Nat → Nat} (s : Nat → α)
    (o : Nat → Int) (hp : SeqPerm N seq) :
    ((∀ i j, i ≤ j → j < N →
        (rewrite N true seq s o).1 (seq i) ≤ (rewrite N true seq s o).1 (seq j)) ∧
      (∀ k, k < N →
        (∀ i, i ≤ k → s (seq i) ≤ (rewrite N true seq s o).1 (seq k)) ∧
          ∃ i, i ≤ k ∧ (rewrite N true seq s o).1 (seq k) = s (seq i)) ∧
      (∀ i j, i < N → j < N →
        (isLowerThan (seq i) (seq j) (rewrite N true seq s o).1 (rewrite N true seq s o).2
          = true ↔ i < j))) ∧
    ((∀ i j, i ≤ j → j < N →
        (rewrite N false seq s o).1 (seq j) ≤ (rewrite N false seq s o).1 (seq i)) ∧
      (∀ k, k < N →
        (∀ i, i ≤ k → (rewrite N false seq s o).1 (seq k) ≤ s (seq i)) ∧
          ∃ i, i ≤ k ∧ (rewrite N false seq s o).1 (seq k) = s (seq i)) ∧
      (∀ i j, i < N → j < N →
        (isHigherThan (seq i) (seq j) (rewrite N false seq s o).1
          (rewrite N false seq s o).2 = true ↔ i < j))) := by
  refine ⟨⟨?_, fun k hk => rewrite_running_max s o hp k hk, ?_⟩,
    ⟨?_, fun k hk => rewrite_running_min s o hp k hk, ?_⟩⟩
  · intro i j hij hj
    simpa using (rewrite_perm true s o hp).2.1 i j hij hj
  · intro i j hi hj
    rw [rewrite_order true s o hp i j hi hj]
    simp
  · intro i j hij hj
    simpa using (rewrite_perm false s o hp).2.1 i j hij hj
  · intro i j hi hj
    rw [isHigherThan_eq_isLowerThan, rewrite_order false s o hp j i hj hi]
    simp

end ClaimC21

/-- C21, at the sequence `2, 0, 3, 1` and the scalars `[0, 5, 1, 7]`: the ascending rewrite
leaves the scalars `[1, 7, 1, 7]` and the offsets `[2, 4, 1, 3]`, the descending one the
scalars `[0, 0, 1, 0]` and the offsets `[3, 1, 4, 2]`. -/
theorem C21_rewrite_matches_pop_order_witness :
    SeqPerm 4 (fieldOf 0 [2, 0, 3, 1]) ∧
    (List.range 4).map (rewrite 4 true (fieldOf 0 [2, 0, 3, 1]) (fieldOf (0 : Int) [0, 5, 1, 7])
      (fieldOf 0 [0, 1, 2, 3])).1 = [1, 7, 1, 7] ∧
    (List.range 4).map (rewrite 4 true (fieldOf 0 [2, 0, 3, 1]) (fieldOf (0 : Int) [0, 5, 1, 7])
      (fieldOf 0 [0, 1, 2, 3])).2 = [2, 4, 1, 3] ∧
    (List.range 4).map (rewrite 4 false (fieldOf 0 [2, 0, 3, 1])
      (fieldOf (0 : Int) [0, 5, 1, 7]) (fieldOf 0 [0, 1, 2, 3])).1 = [0, 0, 1, 0] ∧
    (List.range 4).map (rewrite 4 false (fieldOf 0 [2, 0, 3, 1])
      (fieldOf (0 : Int) [0, 5, 1, 7]) (fieldOf 0 [0, 1, 2, 3])).2 = [3, 1, 4, 2] ∧
    (∀ i j, i < 4 → j < 4 →
      (isLowerThan (fieldOf 0 [2, 0, 3, 1] i) (fieldOf 0 [2, 0, 3, 1] j)
        (rewrite 4 true (fieldOf 0 [2, 0, 3, 1]) (fieldOf (0 : Int) [0, 5, 1, 7])
          (fieldOf 0 [0, 1, 2, 3])).1
        (rewrite 4 true (fieldOf 0 [2, 0, 3, 1]) (fieldOf (0 : Int) [0, 5, 1, 7])
          (fieldOf 0 [0, 1, 2, 3])).2 = true ↔ i < j)) :=
  ⟨by unfold SeqPerm; decide, by decide, by decide, by decide, by decide,
    (C21_rewrite_matches_pop_order (fieldOf (0 : Int) [0, 5, 1, 7]) (fieldOf 0 [0, 1, 2, 3])
      (by unfold SeqPerm; decide)).1.2.2⟩

section GrowthLog
variable {α : Type}

theorem visitNeighborsLog_cons (cmp : Triple α → Triple α → Bool) (s : Nat → α)
    (o : Nat → Int) (u : Nat) (l : List Nat)
    (st : List (Triple α) × (Nat → Bool) × List Nat) :
    visitNeighborsLog cmp s o (u :: l) st =
      visitNeighborsLog cmp s o l
        (if !st.2.1 u then
          (setEmplace cmp (s u, o u, u) st.1, Function.update st.2.1 u true, st.2.2 ++ [u])
         else st) := rfl

/-- Without its record the recording neighbour loop is the neighbour loop. -/
theorem visitNeighborsLog_eq (cmp : Triple α → Triple α → Bool) (s : Nat → α)
    (o : Nat → Int) (l : List Nat) (st : List (Triple α) × (Nat → Bool) × List Nat) :
    ((visitNeighborsLog cmp s o l st).1, (visitNeighborsLog cmp s o l st).2.1) =
      visitNeighbors cmp s o l (st.1, st.2.1) := by
  induction l generalizing st with
  | nil => rfl
  | cons u l ih =>
    rw [visitNeighborsLog_cons, visitNeighbors_cons, ih]
    cases hv : st.2.1 u <;> simp [hv]

theorem visitNeighborsLog_fst (cmp : Triple α → Triple α → Bool) (s : Nat → α)
    (o : Nat → Int) (l : List Nat) (f : List (Triple α)) (vis : Nat → Bool)
    (log : List Nat) :
    (visitNeighborsLog cmp s o l (f, vis, log)).1 = (visitNeighbors cmp s o l (f, vis)).1 :=
  congrArg Prod.fst (visitNeighborsLog_eq cmp s o l (f, vis, log))

theorem visitNeighborsLog_snd (cmp : Triple α → Triple α → Bool) (s : Nat → α)
    (o : Nat → Int) (l : List Nat) (f : List (Triple α)) (vis : Nat → Bool)
    (log : List Nat) :
    (visitNeighborsLog cmp s o l (f, vis, log)).2.1 =
      (visitNeighbors cmp s o l (f, vis)).2 :=
  congrArg Prod.snd (visitNeighborsLog_eq cmp s o l (f, vis, log))

/-- The neighbour loop calls `emplace` only for vertices not yet visited and marks them:
a record without repetition whose vertices are all visited stays one. -/
theorem visitNeighborsLog_record (N : Nat) (cmp : Triple α → Triple α → Bool)
    (s : Nat → α) (o : Nat → Int) (l : List Nat)
    (st : List (Triple α) × (Nat → Bool) × List Nat) (hl : ∀ u ∈ l, u < N)
    (hnd : st.2.2.Nodup) (hm : ∀ v ∈ st.2.2, v < N ∧ st.2.1 v = true) :
    (visitNeighborsLog cmp s o l st).2.2.Nodup ∧
      ∀ v ∈ (visitNeighborsLog cmp s o l st).2.2,
        v < N ∧ (visitNeighborsLog cmp s o l st).2.1 v = true := by
  induction l generalizing st with
  | nil => exact ⟨hnd, hm⟩
  | cons u l ih =>
    rw [visitNeighborsLog_cons]
    apply ih _ (fun u' hu' => hl u' (List.mem_cons_of_mem _ hu'))
    · cases hv : st.2.1 u
      · simp only [Bool.not_false, if_true]
        have hu : u ∉ st.2.2 := fun hc => by
          have := (hm u hc).2
          rw [hv] at this
          exact Bool.false_ne_true this
        exact List.Nodup.append hnd (List.nodup_singleton u) (by simpa using hu)
      · simpa [hv] using hnd
    · cases hv : st.2.1 u
      · simp only [Bool.not_false, if_true]
        intro v hv'
        by_cases hvu : v = u
        · subst hvu
          exact ⟨hl v (List.mem_cons_self _ _), by simp⟩
        · rw [Function.update_noteq hvu]
          rcases List.mem_append.1 hv' with h | h
          · exact hm v h
          · exact absurd (List.mem_singleton.1 h) hvu
      · simpa [hv] using hm

/-- Without its records the recording growth loop is the growth loop. -/
theorem growthLoopLog_fst (cmp : Triple α → Triple α → Bool) (nb : Nat → List Nat)
    (s : Nat → α) (o : Nat → Int) (fuel : Nat) (f : List (Triple α)) (vis : Nat → Bool)
    (seq : Nat → Nat) (pos : Nat) (log w : List Nat) :
    (growthLoopLog cmp nb s o fuel f vis seq pos log w).1 =
      growthLoop cmp nb s o fuel f vis seq pos := by
  induction fuel generalizing f vis seq pos log w with
  | zero => rfl
  | succ fuel ih =>
    cases f with
    | nil => rfl
    | cons t rest =>
      simp only [growthLoopLog, growthLoop, visitNeighborsLog_fst, visitNeighborsLog_snd]
      split_ifs
      · rfl
      · exact ih _ _ _ _ _ _

/-- The recording growth loop from a non-empty front with the weak invariant: it ends
through its `while` test, the writes went to the indices `0, …, adjustmentPos - 1`, and the
record of the `emplace` calls has no repetition. -/
theorem growthLoopLog_weak {N : Nat} {nb : Nat → List Nat} (hnb : InRange N nb)
    (cmp : Triple α → Triple α → Bool) (s : Nat → α) (o : Nat → Int) (fuel : Nat)
    (f : List (Triple α)) (vis : Nat → Bool) (seq : Nat → Nat) (pos : Nat)
    (log : List Nat) (h : WeakInv N f vis seq pos) (hne : f ≠ []) (hfuel : N ≤ fuel + pos)
    (hnd : log.Nodup) (hm : ∀ v ∈ log, v < N ∧ vis v = true) :
    ∃ vis' seq' pos' log',
      growthLoopLog cmp nb s o fuel f vis seq pos log (List.range pos) =
        (Growth.done seq' pos', log', List.range pos') ∧
      WeakInv (α := α) N [] vis' seq' pos' ∧ log'.Nodup ∧ ∀ v ∈ log', v < N := by
  induction fuel generalizing f vis seq pos log with
  | zero =>
    have := h.bound
    cases f with
    | nil => exact absurd rfl hne
    | cons t rest => simp at this; omega
  | succ fuel ih =>
    cases f with
    | nil => exact absurd rfl hne
    | cons t rest =>
      have ht : t.2.2 < N := (h.mem t.2.2 (by simp [frontVertices])).1
      have h' := h.step hnb cmp s o
      have hrec := visitNeighborsLog_record N cmp s o (nb t.2.2) (rest, vis, log)
        (fun u hu => hnb _ ht u hu) hnd hm
      rw [← visitNeighborsLog_fst cmp s o (nb t.2.2) rest vis log,
        ← visitNeighborsLog_snd cmp s o (nb t.2.2) rest vis log] at h'
      simp only [growthLoopLog, ← List.range_succ]
      by_cases he : (visitNeighborsLog cmp s o (nb t.2.2) (rest, vis, log)).1 = []
      · rw [if_pos (by simp [he])]
        rw [he] at h'
        exact ⟨_, _, _, _, rfl, h', hrec.1, fun v hv => (hrec.2 v hv).1⟩
      · rw [if_neg (by simpa using he)]
        exact ih _ _ _ _ _ h' he (by omega) hrec.1 hrec.2

end GrowthLog

section PassLog
variable {α : Type} [LinearOrder α]

theorem growthLog_fst (N : Nat) (nb : Nat → List Nat) (dir : Bool) (seeds : List Nat)
    (ae : Nat → Bool) (s : Nat → α) (o : Nat → Int) :
    (growthLog N nb dir seeds ae s o).1 =
      growthLoop (SweepCmp dir) nb s o N
        (addSeeds (SweepCmp dir) s o seeds (ae, [], fun _ => false)).2.1
        (addSeeds (SweepCmp dir) s o seeds (ae, [], fun _ => false)).2.2 (fun _ => 0) 0 :=
  growthLoopLog_fst _ _ _ _ _ _ _ _ _ _ _

theorem growthLog_nil (N : Nat) (nb : Nat → List Nat) (dir : Bool) (ae : Nat → Bool)
    (s : Nat → α) (o : Nat → Int) :
    growthLog N nb dir [] ae s o =
      (if N = 0 then Growth.outOfFuel else Growth.emptyFront, [], []) := by
  cases N with
  | zero => rfl
  | succ n => rfl

/-- The growth of a pass from a non-empty seed list without repetition, for every field and
every mesh with in-range neighbour ids. -/
theorem growthLog_weak {N : Nat} {nb : Nat → List Nat} (hnb : InRange N nb) (dir : Bool)
    (seeds : List Nat) (ae : Nat → Bool) (s : Nat → α) (o : Nat → Int) (hnd : seeds.Nodup)
    (hlt : ∀ k ∈ seeds, k < N) (hne : seeds ≠ []) :
    ∃ vis seq pos log, growthLog N nb dir seeds ae s o =
        (Growth.done seq pos, log, List.range pos) ∧
      WeakInv (α := α) N [] vis seq pos ∧ log.Nodup ∧ ∀ v ∈ log, v < N :=
  growthLoopLog_weak hnb (SweepCmp dir) s o N _ _ _ 0 seeds
    (addSeeds_weakInv (SweepCmp dir) s o N seeds ae hnd hlt)
    (addSeeds_front_ne_nil (SweepCmp dir) s o seeds _ (Or.inl hne)) (by omega) hnd
    (fun v hv => ⟨hlt v hv, by
      rw [(addSeeds_marks (SweepCmp dir) s o seeds (ae, [], fun _ => false) v).2]
      simp [hv]⟩)

end PassLog

section ClaimC22
variable {α : Type} [LinearOrder α] [Zero α] [Add α]

/-- C22. For in-range neighbour ids, every field and every duplicate-free in-range seed
list (the seed lists of `execute` are such lists): in the growth of a pass `emplace` is
called at most once per vertex, always for a vertex of the mesh; the loop ends (with a
vertex in the mesh it does not run out of fuel); every write to `adjustmentSequence` has an
index below `N`; when the loop ends through its `while` test the writes went to the indices
`0, …, adjustmentPos - 1`, `adjustmentPos ≤ N`, and every entry `adjustmentSequence[k]`,
`k < N`, is a vertex of the mesh. And `execute` returns. -/
theorem C22_adjustment_buffer_in_bounds {N : Nat} {nb : Nat → List Nat}
    (hnb : InRange N nb) (bl pf : Bool) (eps : Option α) (inS : Nat → Option α)
    (inO : Nat → Int) (ids : List Int) :
    (∀ (dir : Bool) (seeds : List Nat) (ae : Nat → Bool) (s : Nat → α) (o : Nat → Int),
      seeds.Nodup → (∀ k ∈ seeds, k < N) →
      (growthLog N nb dir seeds ae s o).1 =
        growthLoop (SweepCmp dir) nb s o N
          (addSeeds (SweepCmp dir) s o seeds (ae, [], fun _ => false)).2.1
          (addSeeds (SweepCmp dir) s o seeds (ae, [], fun _ => false)).2.2 (fun _ => 0) 0 ∧
      (0 < N → (growthLog N nb dir seeds ae s o).1 ≠ Growth.outOfFuel) ∧
      (growthLog N nb dir seeds ae s o).2.1.Nodup ∧
      (∀ v ∈ (growthLog N nb dir seeds ae s o).2.1, v < N) ∧
      (∀ p ∈ (growthLog N nb dir seeds ae s o).2.2, p < N) ∧
      ∀ seq pos, (growthLog N nb dir seeds ae s o).1 = Growth.done seq pos →
        pos ≤ N ∧ (growthLog N nb dir seeds ae s o).2.2 = List.range pos ∧
          ∀ k, k < N → seq k < N) ∧
    ((authorized N nb bl inS inO ids).1.Nodup ∧
      (∀ k ∈ (authorized N nb bl inS inO ids).1, k < N) ∧
      (authorized N nb bl inS inO ids).2.Nodup ∧
      (∀ k ∈ (authorized N nb bl inS inO ids).2, k < N)) ∧
    ∃ r, execute N nb bl pf eps inS inO ids = some r := by
  refine ⟨?_, ⟨(authorized_nodup N nb bl inS inO ids).1, (authorized_lt N nb bl inS inO ids).1,
    (authorized_nodup N nb bl inS inO ids).2, (authorized_lt N nb bl inS inO ids).2⟩, ?_⟩
  · intro dir seeds ae s o hnd hlt
    refine ⟨growthLog_fst N nb dir seeds ae s o, ?_⟩
    by_cases hne : seeds = []
    · subst hne
      rw [growthLog_nil]
      refine ⟨fun hN => ?_, List.nodup_nil, fun v hv => absurd hv (List.not_mem_nil _),
        fun p hp => absurd hp (List.not_mem_nil _), fun seq pos h => ?_⟩
      · rw [if_neg (by omega)]
        exact fun hc => Growth.noConfusion hc
      · exfalso
        dsimp only at h
        split_ifs at h
    · obtain ⟨vis, seq, pos, log, hg, hw, hlog, hlogN⟩ :=
        growthLog_weak hnb dir seeds ae s o hnd hlt hne
      have hN : 0 < N := by
        obtain ⟨k, hk⟩ := List.exists_mem_of_ne_nil _ hne
        exact Nat.lt_of_le_of_lt (Nat.zero_le _) (hlt k hk)
      rw [hg]
      refine ⟨fun _ hc => Growth.noConfusion hc, hlog, hlogN, fun p hp => ?_,
        fun seq' pos' h => ?_⟩
      · have := List.mem_range.1 hp
        have := hw.pos_le
        omega
      · cases h
        exact ⟨hw.pos_le, rfl, fun k _ => hw.seq_lt hN k⟩
  · obtain ⟨r, hr, _⟩ := execute_weak hnb bl pf eps inS inO ids
      (fun _ _ => True) trivial (fun _ _ _ _ _ _ _ => trivial) (fun _ _ _ _ => trivial)
    exact ⟨r, hr⟩

end ClaimC22

/-- C22, at the mesh with the two edges 0 - 1 and 2 - 3 (not connected) and a field with
equal offsets: from the seed 0 the ascending growth calls `emplace` for 0 and 1, writes
the indices 0 and 1 and ends with `adjustmentPos = 2`. -/
theorem C22_adjustment_buffer_in_bounds_witness :
    InRange 4 twoEdges ∧
    (growthLog 4 twoEdges true [0] (fun _ => false) (fieldOf (0 : Int) [0, 5, 1, 7])
      (fun _ => 0)).2 = ([0, 1], [0, 1]) ∧
    (regionGrowPass 4 twoEdges true [0] (fun _ => false) (fieldOf (0 : Int) [0, 5, 1, 7])
      (fun _ => 0)).adjustmentPos = some 2 ∧
    (∀ p ∈ (growthLog 4 twoEdges true [0] (fun _ => false) (fieldOf (0 : Int) [0, 5, 1, 7])
      (fun _ => 0)).2.2, p < 4) ∧
    ∃ r, execute 4 twoEdges false false none
      (fieldOf none [some (0 : Int), some 5, some 1, some 7]) (fun _ => 0) [0, 1] = some r :=
  have hnb : InRange 4 twoEdges := by unfold InRange; decide
  ⟨hnb, by decide, by decide,
    ((C22_adjustment_buffer_in_bounds hnb false false none
      (fieldOf none [some (0 : Int), some 5, some 1, some 7]) (fun _ => 0) [0, 1]).1
        true [0] (fun _ => false) (fieldOf (0 : Int) [0, 5, 1, 7]) (fun _ => 0)
        (by decide) (by decide)).2.2.2.2.1,
    (C22_adjustment_buffer_in_bounds hnb false false none
      (fieldOf none [some (0 : Int), some 5, some 1, some 7]) (fun _ => 0) [0, 1]).2.2⟩

section WeakSort
variable {α : Type}

theorem pairwise_sortInsert_weak (cmp : Triple α → Triple α → Bool)
    (hasymm : ∀ a b, cmp a b = true → cmp b a = false)
    (hneg : ∀ a b c, cmp a b = false → cmp b c = false → cmp a c = false) {t : Triple α}
    {l : List (Triple α)} (h : l.Pairwise (fun a b => cmp b a = false)) :
    (sortInsert cmp t l).Pairwise (fun a b => cmp b a = false) := by
  induction l with
  | nil => simp [sortInsert]
  | cons x xs ih =>
    rw [List.pairwise_cons] at h
    simp only [sortInsert]
    split_ifs with h1
    · rw [List.pairwise_cons]
      refine ⟨?_, ih h.2⟩
      intro y hy
      rcases List.mem_cons.1 ((sortInsert_perm cmp t xs).mem_iff.1 hy) with rfl | hy
      · exact hasymm _ _ h1
      · exact h.1 y hy
    · have h2 : cmp x t = false := by simpa using h1
      rw [List.pairwise_cons]
      refine ⟨?_, List.pairwise_cons.2 h⟩
      intro y hy
      rcases List.mem_cons.1 hy with rfl | hy
      · exact h2
      · exact hneg _ _ _ (h.1 y hy) h2

/-- The sort returns a list in which no tuple is smaller than one before it, also when
tuples are equivalent under the comparator. -/
theorem pairwise_sort_weak (cmp : Triple α → Triple α → Bool)
    (hasymm : ∀ a b, cmp a b = true → cmp b a = false)
    (hneg : ∀ a b c, cmp a b = false → cmp b c = false → cmp a c = false)
    (l : List (Triple α)) : (sort cmp l).Pairwise (fun a b => cmp b a = false) := by
  induction l with
  | nil => exact List.Pairwise.nil
  | cons x xs ih => exact pairwise_sortInsert_weak cmp hasymm hneg ih

end WeakSort

section WeakCmp
variable {α : Type} [LinearOrder α]

theorem SweepCmp_true_eq_false_iff (a b : Triple α) :
    SweepCmp true a b = false ↔ b.1 < a.1 ∨ (a.1 = b.1 ∧ b.2.1 ≤ a.2.1) := by
  rw [Bool.eq_false_iff, Ne, SweepCmp_true_iff]
  constructor
  · intro h
    rcases lt_trichotomy a.1 b.1 with h1 | h1 | h1
    · exact absurd (Or.inl h1) h
    · exact Or.inr ⟨h1, not_lt.1 fun h2 => h (Or.inr ⟨h1, h2⟩)⟩
    · exact Or.inl h1
  · rintro (h1 | ⟨h1, h2⟩) (h3 | ⟨h3, h4⟩)
    · exact lt_asymm h1 h3
    · rw [h3] at h1; exact lt_irrefl _ h1
    · rw [h1] at h3; exact lt_irrefl _ h3
    · omega

theorem SweepCmp_true_negtrans (a b c : Triple α) (h1 : SweepCmp true a b = false)
    (h2 : SweepCmp true b c = false) : SweepCmp true a c = false := by
  rw [SweepCmp_true_eq_false_iff] at *
  rcases h1 with h1 | ⟨h1, h1'⟩ <;> rcases h2 with h2 | ⟨h2, h2'⟩
  · exact Or.inl (h2.trans h1)
  · exact Or.inl (h2 ▸ h1)
  · exact Or.inl (h1 ▸ h2)
  · exact Or.inr ⟨h1.trans h2, by omega⟩

theorem getCriticalType_ne_zero (nb : Nat → List Nat) (v : Nat)
    (s : Nat → α) (o : Nat → Int) (h : getCriticalType nb v s o ≠ 0) :
    getCriticalType nb v s o = -1 ∨ getCriticalType nb v s o = 1 := by
  rw [getCriticalType_eq] at h ⊢
  split_ifs at h ⊢
  · exact Or.inl rfl
  · exact Or.inr rfl
  · exact absurd rfl h

/-- Also with equivalent tuples, the sorted tuples of `addPerturbation` never have a
tuple before one that is smaller. -/
theorem sortedTriples_pairwise_weak (N : Nat) (s : Nat → α) (o : Nat → Int) :
    (sortedTriples N s o).Pairwise (fun x y => SweepCmp true y x = false) :=
  pairwise_sort_weak (SweepCmp true) (fun _ _ h => SweepCmp_asymm h)
    SweepCmp_true_negtrans _

end WeakCmp

section WeakOrder
variable {α : Type} [LinearOrderedAddCommGroup α]

/-- With `0 < epsilon` added exactly, a vertex that is lower than another one before
`addPerturbation` has the strictly smaller scalar after it, also when offsets repeat. -/
theorem addPerturbation_lt_of_lower {N : Nat} (e : α) (he : 0 < e) (s : Nat → α)
    (o : Nat → Int) (a b : Nat) (ha : a < N) (hb : b < N)
    (h : isLowerThan a b s o = true) :
    (addPerturbation N (some e) s o).2 a < (addPerturbation N (some e) s o).2 b := by
  rw [addPerturbation_some]
  have hsorted := sortedTriples_pairwise_weak N s o
  obtain ⟨_, _, hstrict⟩ := perturbationLoop_strict e he (sortedTriples N s o) none s
    (frontVertices_sortedTriples_nodup N s o)
  have hboth := hsorted.and hstrict
  have hsym := List.Pairwise.forall (R := fun x y : Triple α =>
      (SweepCmp true y x = false ∧
        perturbationLoop e none (sortedTriples N s o) s x.2.2 <
          perturbationLoop e none (sortedTriples N s o) s y.2.2) ∨
      (SweepCmp true x y = false ∧
        perturbationLoop e none (sortedTriples N s o) s y.2.2 <
          perturbationLoop e none (sortedTriples N s o) s x.2.2))
    (fun x y h => h.symm) (hboth.imp (fun h => Or.inl h))
  have hma : tripleOf s o a ∈ sortedTriples N s o :=
    (sortedTriples_perm N s o).mem_iff.2 (List.mem_map.2 ⟨a, List.mem_range.2 ha, rfl⟩)
  have hmb : tripleOf s o b ∈ sortedTriples N s o :=
    (sortedTriples_perm N s o).mem_iff.2 (List.mem_map.2 ⟨b, List.mem_range.2 hb, rfl⟩)
  have hab : a ≠ b := fun hc => by
    subst hc
    rw [isLowerThan_irrefl] at h
    exact Bool.false_ne_true h
  have hne : tripleOf s o a ≠ tripleOf s o b := fun hc => hab (by
    have := congrArg (fun t : Triple α => t.2.2) hc
    exact this)
  rcases hsym hma hmb hne with ⟨_, h2⟩ | ⟨h1, _⟩
  · exact h2
  · rw [SweepCmp_tripleOf, h] at h1
    exact absurd h1 (by decide)

theorem addPerturbation_lower_of_lower {N : Nat} (eps : Option α)
    (heps : ∀ e, eps = some e → 0 < e) (s : Nat → α) (o : Nat → Int) (a b : Nat)
    (ha : a < N) (hb : b < N) (h : isLowerThan a b s o = true) :
    isLowerThan a b (addPerturbation N eps s o).2 o = true := by
  cases eps with
  | none => exact h
  | some e =>
    rw [isLowerThan_iff]
    exact Or.inl (addPerturbation_lt_of_lower e (heps e rfl) s o a b ha hb h)

/-- With `0 < epsilon` added exactly and in-range neighbour ids, a vertex that
`getCriticalType` classifies as regular is still regular after `addPerturbation`, also
when offsets repeat. -/
theorem addPerturbation_regular {N : Nat} {nb : Nat → List Nat} (hnb : InRange N nb)
    (eps : Option α) (heps : ∀ e, eps = some e → 0 < e) (s : Nat → α) (o : Nat → Int)
    (v : Nat) (hv : v < N) (h : getCriticalType nb v s o = 0) :
    getCriticalType nb v (addPerturbation N eps s o).2 o = 0 := by
  rw [getCriticalType_eq] at h ⊢
  by_cases h1 : ∀ u ∈ nb v, isLowerThan u v s o = false
  · rw [if_pos h1] at h
    exact absurd h (by decide)
  by_cases h2 : ∀ u ∈ nb v, isHigherThan u v s o = false
  · rw [if_neg h1, if_pos h2] at h
    exact absurd h (by decide)
  · push_neg at h1 h2
    obtain ⟨u, hu, hlow⟩ := h1
    obtain ⟨w, hw, hhigh⟩ := h2
    have hlow' : isLowerThan u v (addPerturbation N eps s o).2 o = true :=
      addPerturbation_lower_of_lower eps heps s o u v (hnb v hv u hu) hv (by simpa using hlow)
    have hhigh' : isHigherThan w v (addPerturbation N eps s o).2 o = true := by
      rw [isHigherThan_eq_isLowerThan] at hhigh ⊢
      exact addPerturbation_lower_of_lower eps heps s o v w hv (hnb v hv w hw)
        (by simpa using hhigh)
    rw [if_neg, if_neg]
    · intro hc
      rw [hc w hw] at hhigh'
      exact Bool.false_ne_true hhigh'
    · intro hc
      rw [hc u hu] at hlow'
      exact Bool.false_ne_true hlow'

end WeakOrder

section ConvergedWeak
variable {α : Type} [LinearOrderedAddCommGroup α]

/-- For in-range neighbour ids and `0 < epsilon` added exactly, whatever the mesh and the
offsets: when `execute` leaves the main loop through the convergence break, every vertex
that the returned field does not classify as regular is in an authorized list. -/
theorem execute_converged_weak {N : Nat} {nb : Nat → List Nat} (hnb : InRange N nb)
    (bl pf : Bool) (eps : Option α) (heps : ∀ e, eps = some e → 0 < e)
    (inS : Nat → Option α) (inO : Nat → Int) (ids : List Int) :
    ∃ r, execute N nb bl pf eps inS inO ids = some r ∧
      (r.status = 0 → r.needForMoreIterations = false →
        ∀ v, v < N → getCriticalType nb v r.scalars r.offsets ≠ 0 →
          v ∈ (authorized N nb bl inS inO ids).1 ∨
            v ∈ (authorized N nb bl inS inO ids).2) := by
  obtain ⟨r, hr, _, h1, _, _, h4, hle, _⟩ := execute_weak hnb bl pf eps inS inO ids
    (fun _ _ => True) trivial (fun _ _ _ _ _ _ _ => trivial) (fun _ _ _ _ => trivial)
  refine ⟨r, hr, fun hs hneed => ?_⟩
  generalize hA : (authorized N nb bl inS inO ids).1 = A at *
  generalize hB : (authorized N nb bl inS inO ids).2 = B at *
  have hAnd : A.Nodup := hA ▸ (authorized_nodup N nb bl inS inO ids).1
  have hBnd : B.Nodup := hB ▸ (authorized_nodup N nb bl inS inO ids).2
  have hAlt : ∀ k ∈ A, k < N := hA ▸ (authorized_lt N nb bl inS inO ids).1
  have hBlt : ∀ k ∈ B, k < N := hB ▸ (authorized_lt N nb bl inS inO ids).2
  rcases Nat.eq_zero_or_pos N with hN | hN
  · subst hN
    intro v hv
    exact absurd hv (Nat.not_lt_zero _)
  have hAB : A ≠ [] ∧ B ≠ [] := by
    constructor
    · intro h
      have := h1.2 ⟨hN, Or.inl h⟩
      omega
    · intro h
      have := h1.2 ⟨hN, Or.inr h⟩
      omega
  obtain ⟨r2, ae2, hr2, _, hI, _⟩ := mainLoop_induct N nb pf eps A B
    (fun ae s o _ need => (∀ v, ae v = true → v ∈ A ∨ v ∈ B) ∧
      (need = false → ∀ v, v < N → getCriticalType nb v s o ≠ 0 → v ∈ A ∨ v ∈ B))
    (by
      intro ae s o it need ⟨hae, _⟩
      obtain ⟨vis1, seq1, pos1, hp1, _⟩ := regionGrowPass_weak hnb true A ae s o hAnd hAlt
        hAB.1
      obtain ⟨vis2, seq2, pos2, hp2, _⟩ := regionGrowPass_weak hnb false B
        (addSeeds (SweepCmp true) s o A (ae, [], fun _ => false)).1
        (rewrite N true seq1 s o).1 (rewrite N true seq1 s o).2 hBnd hBlt hAB.2
      have hmarks : ∀ v, (addSeeds (SweepCmp false) (rewrite N true seq1 s o).1
          (rewrite N true seq1 s o).2 B
          ((addSeeds (SweepCmp true) s o A (ae, [], fun _ => false)).1, [],
            fun _ => false)).1 v = true → v ∈ A ∨ v ∈ B := by
        intro v hv
        rw [(addSeeds_marks _ _ _ _ _ v).1, (addSeeds_marks _ _ _ _ _ v).1] at hv
        simp only [Bool.or_eq_true, decide_eq_true_eq] at hv
        rcases hv with (hv | hv) | hv
        · exact hae v hv
        · exact Or.inl hv
        · exact Or.inr hv
      refine ⟨_, _, _, _, _, _, _, _, _, _, hp1, hp2, hmarks, ?_⟩
      intro hconv v hv hcrit
      rw [testConvergence_eq_false] at hconv
      obtain ⟨_, _, c3, c4⟩ := hconv
      have hbefore : getCriticalType nb v
          (rewrite N false seq2 (rewrite N true seq1 s o).1 (rewrite N true seq1 s o).2).1
          (rewrite N false seq2 (rewrite N true seq1 s o).1 (rewrite N true seq1 s o).2).2
            ≠ 0 := by
        intro h0
        apply hcrit
        cases pf
        · exact h0
        · exact addPerturbation_regular hnb eps heps _ _ v hv h0
      rcases getCriticalType_ne_zero nb v _ _ hbefore with hm | hm
      · exact hmarks v (c3 v ((mem_getCriticalPoints_fst N nb _ _ v).2 ⟨hv, hm⟩))
      · exact hmarks v (c4 v ((mem_getCriticalPoints_snd N nb _ _ v).2 ⟨hv, hm⟩)))
    N (fun _ => false) (preprocessScalars inS) (preprocessOffsets inO) 0 true
    ⟨fun v hv => absurd hv Bool.false_ne_true, fun h => absurd h (by simp)⟩
  rw [execute_eq, hA, hB, hr2] at hr
  cases hr
  exact hI.2 hneed

end ConvergedWeak

section ClaimC3
variable {α : Type} [LinearOrderedAddCommGroup α]

/-- C3. No unauthorized extremum survives convergence. For in-range neighbour ids and
`0 < epsilon` added exactly, whatever the mesh and the offsets, `execute` returns; when it
has left the main loop through the convergence break (`needForMoreIterations` false), every
vertex the returned field (perturbation included) classifies as a minimum or a maximum is
in the authorized minima or maxima; in blacklist mode a vertex that a listed identifier
converts to is not an authorized maximum and is not a maximum of the output, and on a
mesh of at most `2^31` vertices (`vertexNumber_` is a `SimplexId`) these are the listed
vertices. -/
theorem C3_no_unauthorized_extremum {N : Nat} {nb : Nat → List Nat} (hnb : InRange N nb)
    (bl pf : Bool) (eps : Option α) (heps : ∀ e, eps = some e → 0 < e)
    (inS : Nat → Option α) (inO : Nat → Int) (ids : List Int) :
    ∃ r, execute N nb bl pf eps inS inO ids = some r ∧
      (r.status = 0 → r.needForMoreIterations = false →
        (∀ v, v < N →
          getCriticalType nb v r.scalars r.offsets = -1 ∨
            getCriticalType nb v r.scalars r.offsets = 1 →
          v ∈ (authorized N nb bl inS inO ids).1 ∨ v ∈ (authorized N nb bl inS inO ids).2) ∧
        (bl = true → ∀ v, v < N → (v : Int) ∈ ids.map toSimplexId →
          v ∉ (authorized N nb bl inS inO ids).2 ∧
            getCriticalType nb v r.scalars r.offsets ≠ 1) ∧
        (N ≤ 2147483648 → bl = true → ∀ v, v < N → (v : Int) ∈ ids →
          v ∉ (authorized N nb bl inS inO ids).2 ∧
            getCriticalType nb v r.scalars r.offsets ≠ 1)) := by
  obtain ⟨r, hr, h⟩ := execute_converged_weak hnb bl pf eps heps inS inO ids
  refine ⟨r, hr, fun hs hneed => ?_⟩
  have hfirst : ∀ v, v < N →
      getCriticalType nb v r.scalars r.offsets = -1 ∨
        getCriticalType nb v r.scalars r.offsets = 1 →
      v ∈ (authorized N nb bl inS inO ids).1 ∨ v ∈ (authorized N nb bl inS inO ids).2 := by
    intro v hv hcrit
    apply h hs hneed v hv
    rcases hcrit with hcrit | hcrit <;> (rw [hcrit]; decide)
  have hsecond : bl = true → ∀ v, v < N → (v : Int) ∈ ids.map toSimplexId →
      v ∉ (authorized N nb bl inS inO ids).2 ∧
        getCriticalType nb v r.scalars r.offsets ≠ 1 := by
    intro hbl v hv hid
    subst hbl
    have hmask : xor true (userExtrema N ids v) = false := by
      rw [(userExtrema_iff N ids v).2 ⟨hv, hid⟩]; rfl
    have hA : v ∉ (authorized N nb true inS inO ids).1 := fun hm => by
      have := ((mem_authorized_fst N nb true inS inO ids v).1 hm).2.1
      rw [hmask] at this
      exact Bool.false_ne_true this
    have hB : v ∉ (authorized N nb true inS inO ids).2 := fun hm => by
      have := ((mem_authorized_snd N nb true inS inO ids v).1 hm).2.1
      rw [hmask] at this
      exact Bool.false_ne_true this
    refine ⟨hB, fun hmax => ?_⟩
    rcases hfirst v hv (Or.inr hmax) with h | h
    · exact hA h
    · exact hB h
  refine ⟨hfirst, hsecond, fun hN hbl v hv hid => hsecond hbl v hv ?_⟩
  exact List.mem_map.2 ⟨(v : Int), hid, toSimplexId_natCast hN hv⟩

end ClaimC3

/-- C3, at the path 0 - 1 - 2 - 3 with scalars `[0, 5, 1, 7]`, blacklist `[2]`,
perturbation enabled with `epsilon = 1`: `execute` returns 0 through the convergence
break. -/
theorem C3_no_unauthorized_extremum_witness :
    InRange 4 chain4 ∧ (∀ e : Int, some (1 : Int) = some e → 0 < e) ∧
    (execute 4 chain4 true true (some (1 : Int))
        (fieldOf none [some (0 : Int), some 5, some 1, some 7]) (fieldOf 0 [0, 1, 2, 3])
        [2]).map (fun r => (r.status, r.needForMoreIterations)) = some (0, false) ∧
    ∃ r, execute 4 chain4 true true (some (1 : Int))
        (fieldOf none [some (0 : Int), some 5, some 1, some 7]) (fieldOf 0 [0, 1, 2, 3])
        [2] = some r ∧
      (r.status = 0 → r.needForMoreIterations = false →
        (∀ v : Nat, v < 4 →
          getCriticalType chain4 v r.scalars r.offsets = -1 ∨
            getCriticalType chain4 v r.scalars r.offsets = 1 →
          v ∈ (authorized 4 chain4 true
              (fieldOf none [some (0 : Int), some 5, some 1, some 7])
              (fieldOf 0 [0, 1, 2, 3]) [2]).1 ∨
            v ∈ (authorized 4 chain4 true
              (fieldOf none [some (0 : Int), some 5, some 1, some 7])
              (fieldOf 0 [0, 1, 2, 3]) [2]).2) ∧
        (true = true → ∀ v : Nat, v < 4 → (v : Int) ∈ ([2] : List Int).map toSimplexId →
          v ∉ (authorized 4 chain4 true
              (fieldOf none [some (0 : Int), some 5, some 1, some 7])
              (fieldOf 0 [0, 1, 2, 3]) [2]).2 ∧
            getCriticalType chain4 v r.scalars r.offsets ≠ 1) ∧
        (4 ≤ 2147483648 → true = true → ∀ v : Nat, v < 4 → (v : Int) ∈ ([2] : List Int) →
          v ∉ (authorized 4 chain4 true
              (fieldOf none [some (0 : Int), some 5, some 1, some 7])
              (fieldOf 0 [0, 1, 2, 3]) [2]).2 ∧
            getCriticalType chain4 v r.scalars r.offsets ≠ 1)) :=
  ⟨chain4_inRange, eps_one_pos, by decide,
    C3_no_unauthorized_extremum chain4_inRange true true (some (1 : Int))
      eps_one_pos (fieldOf none [some (0 : Int), some 5, some 1, some 7])
      (fieldOf 0 [0, 1, 2, 3]) [2]⟩

end ttk
